import Mathlib

/-! UNIX-Filesystem: the directory-tree engine of `filesystem.c`.

A shallow embedding of `src/filesystem.c` with `src/filesystem-datastructure.h`.

Conventions of the embedding.

* A C string is the list of its bytes before the terminating NUL (`Str`).
  `strlen`, `strcmp` and `strchr` are the libc functions on that representation;
  `strcmp` returns only the sign (-1, 0, 1), which is all the C standard fixes
  and all the source looks at.
* The singly linked lists `file_list` / `subdir_list` (linked through `next_file`
  / `next_dir`) are Lean lists, head first.
* A directory owns its files and subdirectories, so the heap of `Dir_node`s is
  the tree `Dir_node`.  A pointer to a directory of the tree is the list of
  child positions that leads from the root to it (`[]` is the root).  The field
  `par_dir` is written once, by `mkfs` (NULL) and by `mkdir` (the directory the
  new node is linked into), so it is represented by position: the parent of
  the node at `p ++ [i]` is the node at `p`, and `par_dir == NULL` is `p = []`.
* Dereferencing `filesystem->cur_dir` when it does not point into the tree has
  no defined behaviour; the operations return `none` there.
* The `filesystem` and `name` arguments are not NULL, and `malloc` succeeds.
  `free` has no counterpart: a node that is unlinked from the tree is gone.
* The `int` results of the operations are `Int`s: `1` is success, `0` failure.
  `int` is 32 bits wide and `+= 1` wraps around (`int_add`).
* An operation returns its result together with the handle as it is left.
  What is printed is a list of lines, each without its newline: `ls` returns it
  between the result and the handle, and `pwd`, which has no result, returns
  just the line it prints.
-/

namespace UnixFS

/-! ## C strings -/

/-- The bytes of a C string, without the terminating NUL. -/
abbrev Str := List Nat

/-- The C string of an ASCII literal. -/
def cstr (s : String) : Str := s.toList.map Char.toNat

/-- Number of bytes before the NUL. -/
def strlen (s : Str) : Nat := s.length

/-- Three-way lexicographic comparison of the bytes (as unsigned values); a string
that ends first is the smaller one.  Only the sign of the result is kept. -/
def strcmp : Str → Str → Int
  | [], [] => 0
  | [], _ :: _ => -1
  | _ :: _, [] => 1
  | a :: as, b :: bs => if a < b then -1 else if b < a then 1 else strcmp as bs

/-- Position of the first occurrence of the byte `c`, `none` for NULL. -/
def strchr : Str → Nat → Option Nat
  | [], _ => none
  | a :: as, c => if a = c then some 0 else (strchr as c).map (· + 1)

/-- Addition on a 32-bit two's-complement `int`. -/
def int_add (a b : Int) : Int := (a + b + 2147483648) % 4294967296 - 2147483648

/-! ## Data model (`filesystem-datastructure.h`) -/

/-- One node of a file list: `name` and `timestamp` (`next_file` is the list tail). -/
structure File_node where
  name : Str
  timestamp : Int
deriving DecidableEq, Repr

/-- One directory: `name`, `path`, `file_list`, `subdir_list` (`next_dir` is the
list tail of the list the node is in, `par_dir` is given by position). -/
inductive Dir_node where
  | mk (name : Str) (path : Str) (file_list : List File_node)
      (subdir_list : List Dir_node)
deriving Repr

namespace Dir_node

/-- Field `name`. -/
def name : Dir_node → Str
  | mk n _ _ _ => n

/-- Field `path`. -/
def path : Dir_node → Str
  | mk _ p _ _ => p

/-- Field `file_list`. -/
def file_list : Dir_node → List File_node
  | mk _ _ f _ => f

/-- Field `subdir_list`. -/
def subdir_list : Dir_node → List Dir_node
  | mk _ _ _ s => s

/-- Assignment to `file_list`. -/
def set_file_list : Dir_node → List File_node → Dir_node
  | mk n p _ s, f => mk n p f s

/-- Assignment to `subdir_list`. -/
def set_subdir_list : Dir_node → List Dir_node → Dir_node
  | mk n p f _, s => mk n p f s

/-- Dereference a pointer: the directory at the end of the chain of child
positions `p` below `d`, `none` when the chain leaves the tree. -/
def lookup (d : Dir_node) : List Nat → Option Dir_node
  | [] => some d
  | i :: p =>
    match d.subdir_list[i]? with
    | some c => c.lookup p
    | none => none

/-- Write through a pointer: replace the directory at `p` below `d` by its image
under `f`; everything off the chain stays as it is. -/
def modify (f : Dir_node → Dir_node) (d : Dir_node) : List Nat → Dir_node
  | [] => f d
  | i :: p =>
    match d.subdir_list[i]? with
    | some c => d.set_subdir_list (d.subdir_list.set i (modify f c p))
    | none => d

end Dir_node

/-- The handle: `root` and the pointer `cur_dir`. -/
structure FileSystem where
  root : Dir_node
  cur_dir : List Nat
deriving Repr

/-- The directory `filesystem->cur_dir` points to. -/
def FileSystem.cur (fs : FileSystem) : Option Dir_node := fs.root.lookup fs.cur_dir

/-- Store `f d` in place of the current directory `d`. -/
def FileSystem.set_cur (fs : FileSystem) (f : Dir_node → Dir_node) : FileSystem :=
  { fs with root := Dir_node.modify f fs.root fs.cur_dir }

/-! ## Operations (`filesystem.c`) -/

/-- Lines 34-49 of filesystem.c. -/
def mkfs : FileSystem :=
  { root := Dir_node.mk (cstr "root") (cstr "") [] [], cur_dir := [] }

/-- The loop of `search_file`: position of the first file called `name`. -/
def search_file_loop (name : Str) : List File_node → Option Nat
  | [] => none
  | f :: fs => if strcmp f.name name = 0 then some 0 else (search_file_loop name fs).map (· + 1)

/-- Lines 450-471 of filesystem.c; the result points into `dir.file_list`. -/
def search_file (dir : Dir_node) (name : Str) : Option Nat :=
  search_file_loop name dir.file_list

/-- The loop of `search_subdir`: position of the first subdirectory called `name`. -/
def search_subdir_loop (name : Str) : List Dir_node → Option Nat
  | [] => none
  | c :: cs => if strcmp c.name name = 0 then some 0 else (search_subdir_loop name cs).map (· + 1)

/-- Lines 477-499 of filesystem.c; the result points into `dir.subdir_list`. -/
def search_subdir (dir : Dir_node) (name : Str) : Option Nat :=
  search_subdir_loop name dir.subdir_list

/-- Lines 83-125 of filesystem.c, as a function of the list that starts at `cur`:
walk while `strcmp(name, cur->name) >= 0`, bump the timestamp on an equal name,
otherwise link a new node with timestamp 1 in front of `cur`. -/
def touch_loop (name : Str) : List File_node → List File_node
  | [] => [{ name := name, timestamp := 1 }]
  | f :: fs =>
    if strcmp name f.name ≥ 0 then
      if strcmp name f.name = 0 then
        { name := f.name, timestamp := int_add f.timestamp 1 } :: fs
      else f :: touch_loop name fs
    else { name := name, timestamp := 1 } :: f :: fs

/-- Lines 59-132 of filesystem.c. -/
def touch (fs : FileSystem) (name : Str) : Option (Int × FileSystem) :=
  if strlen name ≠ 0 ∧ strchr name 47 = none then
    if strcmp name (cstr ".") ≠ 0 ∧ strcmp name (cstr "..") ≠ 0
        ∧ strcmp name (cstr "/") ≠ 0 then
      match fs.cur with
      | none => none
      | some d =>
        if search_subdir d name = none then
          some (1, fs.set_cur (fun c => c.set_file_list (touch_loop name c.file_list)))
        else some (1, fs)
    else some (1, fs)
  else some (0, fs)

/-- Lines 162-214 of filesystem.c, as a function of the list that starts at `cur`:
walk while `strcmp(name, cur->name) >= 0`, return on an equal name, otherwise
link `new_dir` in front of `cur`. -/
def mkdir_loop (name : Str) (new_dir : Dir_node) : List Dir_node → List Dir_node
  | [] => [new_dir]
  | c :: cs =>
    if strcmp name c.name ≥ 0 then
      if strcmp name c.name = 0 then c :: cs
      else c :: mkdir_loop name new_dir cs
    else new_dir :: c :: cs

/-- Lines 140-221 of filesystem.c. -/
def mkdir (fs : FileSystem) (name : Str) : Option (Int × FileSystem) :=
  if strlen name ≠ 0 ∧ strcmp name (cstr ".") ≠ 0 ∧ strcmp name (cstr "..") ≠ 0
      ∧ strcmp name (cstr "/") ≠ 0 ∧ strchr name 47 = none then
    match fs.cur with
    | none => none
    | some d =>
      if search_subdir d name = none then
        some (1, fs.set_cur (fun c => c.set_subdir_list
          (mkdir_loop name (Dir_node.mk name (c.path ++ cstr "/" ++ name) [] []) c.subdir_list)))
      else some (0, fs)
  else some (0, fs)

/-- Lines 238-289 of filesystem.c. -/
def cd (fs : FileSystem) (name : Str) : Option (Int × FileSystem) :=
  if strlen name ≠ 0 then
    if strcmp (cstr ".") name = 0 then some (1, fs)
    else if strcmp (cstr "..") name = 0 then
      match fs.cur with
      | none => none
      | some _ =>
        if fs.cur_dir ≠ [] then some (1, { fs with cur_dir := fs.cur_dir.dropLast })
        else some (1, fs)
    else if strcmp (cstr "/") name = 0 then some (1, { fs with cur_dir := [] })
    else if strchr name 47 = none then
      match fs.cur with
      | none => none
      | some d =>
        match search_subdir d name with
        | some i => some (1, { fs with cur_dir := fs.cur_dir ++ [i] })
        | none => some (0, fs)
    else some (0, fs)
  else some (0, fs)

/-- The loop and unlinking of `search_and_remove_dir`: the result and the list
without the first directory called `name` (its whole subtree goes with it). -/
def search_and_remove_dir_loop (name : Str) : List Dir_node → Int × List Dir_node
  | [] => (0, [])
  | c :: cs =>
    if strcmp c.name name ≠ 0 then
      ((search_and_remove_dir_loop name cs).1, c :: (search_and_remove_dir_loop name cs).2)
    else (1, cs)

/-- Lines 651-689 of filesystem.c: the result and the directory as it is left. -/
def search_and_remove_dir (cur_dir : Dir_node) (name : Str) : Int × Dir_node :=
  ((search_and_remove_dir_loop name cur_dir.subdir_list).1,
    cur_dir.set_subdir_list (search_and_remove_dir_loop name cur_dir.subdir_list).2)

/-- The loop and unlinking of `search_and_remove_file`. -/
def search_and_remove_file_loop (name : Str) : List File_node → Int × List File_node
  | [] => (0, [])
  | f :: fs =>
    if strcmp f.name name ≠ 0 then
      ((search_and_remove_file_loop name fs).1, f :: (search_and_remove_file_loop name fs).2)
    else (1, fs)

/-- Lines 752-790 of filesystem.c: the result and the directory as it is left. -/
def search_and_remove_file (cur_dir : Dir_node) (name : Str) : Int × Dir_node :=
  ((search_and_remove_file_loop name cur_dir.file_list).1,
    cur_dir.set_file_list (search_and_remove_file_loop name cur_dir.file_list).2)

/-- Lines 419-444 of filesystem.c. -/
def rm (fs : FileSystem) (name : Str) : Option (Int × FileSystem) :=
  if strlen name ≠ 0 ∧ strcmp name (cstr ".") ≠ 0 ∧ strcmp name (cstr "..") ≠ 0
      ∧ strcmp name (cstr "/") ≠ 0 ∧ strchr name 47 = none then
    match fs.cur with
    | none => none
    | some d =>
      if (search_and_remove_dir d name).1 ≠ 0 then
        some ((search_and_remove_dir d name).1,
          fs.set_cur (fun c => (search_and_remove_dir c name).2))
      else
        some ((search_and_remove_file (search_and_remove_dir d name).2 name).1,
          fs.set_cur (fun c =>
            (search_and_remove_file (search_and_remove_dir c name).2 name).2))
  else some (0, fs)

/-- What `printf("%d", t)` writes: the decimal digits of `t`, after a '-' when `t`
is negative. -/
def print_int (t : Int) : Str := cstr (toString t)

/-- Lines 616-638 of filesystem.c, as a function of the list that starts at `cur`:
walk while `strcmp(name, cur->name) >= 0`, where `name` is the name as passed and
`cur->name` the stored text of the node, then link the node with text `new_name`
in front of `cur`. -/
def insert_name_loop (name new_name : Str) : List Str → List Str
  | [] => [new_name]
  | c :: cs =>
    if strcmp name c ≥ 0 then c :: insert_name_loop name new_name cs
    else new_name :: c :: cs

/-- Lines 563-642 of filesystem.c: the text stored is `name`, followed by "/" when
`is_dir` is not 0. -/
def insert_name (head : List Str) (name : Str) (is_dir : Int) : List Str :=
  if head = [] then [if is_dir ≠ 0 then name ++ cstr "/" else name]
  else insert_name_loop name (if is_dir ≠ 0 then name ++ cstr "/" else name) head

/-- Lines 511-552 of filesystem.c: the lines printed, one for each node of the name
list built from the files and then the subdirectories of `dir`. -/
def print_whole_dir (dir : Dir_node) : List Str :=
  dir.subdir_list.foldl (fun name_list c => insert_name name_list c.name 1)
    (dir.file_list.foldl (fun name_list f => insert_name name_list f.name 0) [])

/-- Lines 306-371 of filesystem.c: the result, the lines printed and the handle. -/
def ls (fs : FileSystem) (name : Str) : Option (Int × List Str × FileSystem) :=
  if strcmp (cstr ".") name = 0 ∨ strlen name = 0 then
    match fs.cur with
    | none => none
    | some d => some (1, print_whole_dir d, fs)
  else if strcmp (cstr "..") name = 0 then
    match fs.cur with
    | none => none
    | some _ =>
      if fs.cur_dir ≠ [] then
        match fs.root.lookup fs.cur_dir.dropLast with
        | none => none
        | some par_dir => some (1, print_whole_dir par_dir, fs)
      else some (1, [], fs)
  else if strcmp (cstr "/") name = 0 then some (1, print_whole_dir fs.root, fs)
  else if strchr name 47 = none then
    match fs.cur with
    | none => none
    | some d =>
      match search_subdir d name with
      | some i =>
        match d.subdir_list[i]? with
        | none => none
        | some dir => some (1, print_whole_dir dir, fs)
      | none =>
        match search_file d name with
        | some j =>
          match d.file_list[j]? with
          | none => none
          | some file => some (1, [file.name ++ cstr " " ++ print_int file.timestamp], fs)
        | none => some (0, [], fs)
  else some (0, [], fs)

/-- Lines 377-395 of filesystem.c: the line printed. -/
def pwd (fs : FileSystem) : Option (List Str) :=
  match fs.cur with
  | none => none
  | some d => if strcmp d.path (cstr "") = 0 then some [cstr "/"] else some [d.path]

/-! ## Vocabulary of the properties -/

/-- A name under which an entry can be created or removed: non-empty, without
'/', and neither "." nor "..". -/
def valid_name (name : Str) : Prop :=
  name ≠ [] ∧ 47 ∉ name ∧ name ≠ cstr "." ∧ name ≠ cstr ".."

instance (name : Str) : Decidable (valid_name name) :=
  inferInstanceAs (Decidable (_ ∧ _))

/-- A path segment: non-empty and without '/'. -/
def segment (name : Str) : Prop := name ≠ [] ∧ 47 ∉ name

instance (name : Str) : Decidable (segment name) :=
  inferInstanceAs (Decidable (_ ∧ _))

/-- The directory has a file called `name`. -/
def has_file (d : Dir_node) (name : Str) : Prop := ∃ f ∈ d.file_list, f.name = name

instance (d : Dir_node) (name : Str) : Decidable (has_file d name) :=
  inferInstanceAs (Decidable (∃ f ∈ d.file_list, f.name = name))

/-- The directory has a subdirectory called `name`. -/
def has_subdir (d : Dir_node) (name : Str) : Prop := ∃ c ∈ d.subdir_list, c.name = name

instance (d : Dir_node) (name : Str) : Decidable (has_subdir d name) :=
  inferInstanceAs (Decidable (∃ c ∈ d.subdir_list, c.name = name))

/-- Names in ascending order (repetitions allowed). -/
def ascending (names : List Str) : Prop := names.Pairwise (fun a b => strcmp a b ≤ 0)

instance (names : List Str) : Decidable (ascending names) :=
  inferInstanceAs (Decidable (names.Pairwise _))

/-- Names in strictly ascending order. -/
def strictly_ascending (names : List Str) : Prop := names.Pairwise (fun a b => strcmp a b < 0)

instance (names : List Str) : Decidable (strictly_ascending names) :=
  inferInstanceAs (Decidable (names.Pairwise _))

/-- The names of the files of a file list, in list order. -/
def file_names (l : List File_node) : List Str := l.map File_node.name

/-- The names of the directories of a subdirectory list, in list order. -/
def dir_names (l : List Dir_node) : List Str := l.map Dir_node.name

/-- The file list and the subdirectory list of `d` are strictly ascending by name. -/
def sorted_dir (d : Dir_node) : Prop :=
  strictly_ascending (file_names d.file_list) ∧ strictly_ascending (dir_names d.subdir_list)

instance (d : Dir_node) : Decidable (sorted_dir d) :=
  inferInstanceAs (Decidable (_ ∧ _))

/-- The values of a 32-bit `int`. -/
def int_range (t : Int) : Prop := -2147483648 ≤ t ∧ t ≤ 2147483647

instance (t : Int) : Decidable (int_range t) :=
  inferInstanceAs (Decidable (_ ∧ _))

/-- The entries of `d` carry valid names, and the timestamps are `int` values. -/
def well_named (d : Dir_node) : Prop :=
  (∀ f ∈ d.file_list, valid_name f.name ∧ int_range f.timestamp)
    ∧ (∀ c ∈ d.subdir_list, valid_name c.name)

/-- The stored path of every subdirectory of `d` is the stored path of `d`, "/",
and the subdirectory's name. -/
def path_linked (d : Dir_node) : Prop :=
  ∀ c ∈ d.subdir_list, c.path = d.path ++ cstr "/" ++ c.name

/-- The names of the directories on the chain that a pointer follows, from the
child of `r` down to the directory pointed to (`r` itself is left out). -/
def chain_names (r : Dir_node) : List Nat → List Str
  | [] => []
  | i :: p =>
    match r.subdir_list[i]? with
    | some c => c.name :: chain_names c p
    | none => []

/-- The text "/" `n1` "/" `n2` ... for the names `n1`, `n2`, ... -/
def path_text : List Str → Str
  | [] => []
  | n :: ns => cstr "/" ++ n ++ path_text ns

/-- The states that `mkfs` followed by calls of `touch`, `mkdir`, `cd` and `rm`
(with any names, whatever they return) can produce. -/
inductive Reachable : FileSystem → Prop where
  | mkfs : Reachable mkfs
  | touch {fs fs2 : FileSystem} (name : Str) (r : Int) :
      Reachable fs → touch fs name = some (r, fs2) → Reachable fs2
  | mkdir {fs fs2 : FileSystem} (name : Str) (r : Int) :
      Reachable fs → mkdir fs name = some (r, fs2) → Reachable fs2
  | cd {fs fs2 : FileSystem} (name : Str) (r : Int) :
      Reachable fs → cd fs name = some (r, fs2) → Reachable fs2
  | rm {fs fs2 : FileSystem} (name : Str) (r : Int) :
      Reachable fs → rm fs name = some (r, fs2) → Reachable fs2

/-- The states that `mkfs` followed by calls of `touch`, `mkdir`, `cd`, `ls` and `rm`
(with any names, whatever they return or print) can produce. -/
inductive ReachableLs : FileSystem → Prop where
  | mkfs : ReachableLs mkfs
  | touch {fs fs2 : FileSystem} (name : Str) (r : Int) :
      ReachableLs fs → touch fs name = some (r, fs2) → ReachableLs fs2
  | mkdir {fs fs2 : FileSystem} (name : Str) (r : Int) :
      ReachableLs fs → mkdir fs name = some (r, fs2) → ReachableLs fs2
  | cd {fs fs2 : FileSystem} (name : Str) (r : Int) :
      ReachableLs fs → cd fs name = some (r, fs2) → ReachableLs fs2
  | ls {fs fs2 : FileSystem} (name : Str) (r : Int) (out : List Str) :
      ReachableLs fs → ls fs name = some (r, out, fs2) → ReachableLs fs2
  | rm {fs fs2 : FileSystem} (name : Str) (r : Int) :
      ReachableLs fs → rm fs name = some (r, fs2) → ReachableLs fs2

/-- Every directory of the tree below (and including) `d` satisfies `P`. -/
inductive AllDirs (P : Dir_node → Prop) : Dir_node → Prop where
  | intro (d : Dir_node) (here : P d)
      (below : ∀ c, c ∈ d.subdir_list → AllDirs P c) : AllDirs P d

/-! ## Sample handles -/

/-- The root holding the files "a" and "c", each touched once; cursor on the root. -/
def sample_files : FileSystem :=
  { root := Dir_node.mk (cstr "root") (cstr "")
      [{ name := cstr "a", timestamp := 1 }, { name := cstr "c", timestamp := 1 }] [],
    cur_dir := [] }

/-- The root holding the subdirectory "d" (empty); cursor on the root. -/
def sample_subdir : FileSystem :=
  { root := Dir_node.mk (cstr "root") (cstr "") []
      [Dir_node.mk (cstr "d") (cstr "/d") [] []],
    cur_dir := [] }

/-- The root holding the subdirectories "a" and "c" and the file "b"; cursor on
the root. -/
def sample_dirs : FileSystem :=
  { root := Dir_node.mk (cstr "root") (cstr "") [{ name := cstr "b", timestamp := 1 }]
      [Dir_node.mk (cstr "a") (cstr "/a") [] [], Dir_node.mk (cstr "c") (cstr "/c") [] []],
    cur_dir := [] }

/-- The root holding the file "a", touched once, and the subdirectory "a"; cursor
on the root. -/
def sample_file_and_dir_a : FileSystem :=
  { root := Dir_node.mk (cstr "root") (cstr "") [{ name := cstr "a", timestamp := 1 }]
      [Dir_node.mk (cstr "a") (cstr "/a") [] []],
    cur_dir := [] }

/-- The root holding the single file "a" with timestamp `t`; cursor on the root. -/
def touched (t : Int) : FileSystem :=
  { root := Dir_node.mk (cstr "root") (cstr "") [{ name := cstr "a", timestamp := t }] [],
    cur_dir := [] }

/-- The root holding the subdirectory "a", which holds the subdirectory "b"; cursor
on "a". -/
def sample_nested : FileSystem :=
  { root := Dir_node.mk (cstr "root") (cstr "") []
      [Dir_node.mk (cstr "a") (cstr "/a") [] [Dir_node.mk (cstr "b") (cstr "/a/b") [] []]],
    cur_dir := [0] }

/-- The root holding the files `l` and no subdirectory; cursor on the root. -/
def root_with_files (l : List File_node) : FileSystem :=
  { root := Dir_node.mk (cstr "root") (cstr "") l [], cur_dir := [] }

/-- The root holding the subdirectories "a" and "a.b" (both empty); cursor on the
root. -/
def sample_dot_dirs : FileSystem :=
  { root := Dir_node.mk (cstr "root") (cstr "") []
      [Dir_node.mk (cstr "a") (cstr "/a") [] [], Dir_node.mk (cstr "a.b") (cstr "/a.b") [] []],
    cur_dir := [] }

/-- The root holding the file "a!" and the subdirectory "a"; cursor on the root. -/
def sample_bang : FileSystem :=
  { root := Dir_node.mk (cstr "root") (cstr "") [{ name := cstr "a!", timestamp := 1 }]
      [Dir_node.mk (cstr "a") (cstr "/a") [] []],
    cur_dir := [] }

/-! ## Facts about the C string functions -/

theorem cstr_dot : cstr "." = [46] := rfl
theorem cstr_dotdot : cstr ".." = [46, 46] := rfl
theorem cstr_slash : cstr "/" = [47] := rfl
theorem cstr_root : cstr "root" = [114, 111, 111, 116] := rfl
theorem cstr_empty : cstr "" = [] := rfl

theorem strcmp_self (a : Str) : strcmp a a = 0 := by
  induction a with
  | nil => rfl
  | cons x xs ih => simp [strcmp, ih]

theorem strcmp_eq_zero {a b : Str} : strcmp a b = 0 ↔ a = b := by
  constructor
  · intro h
    induction a generalizing b with
    | nil => cases b with
      | nil => rfl
      | cons y ys => simp [strcmp] at h
    | cons x xs ih => cases b with
      | nil => simp [strcmp] at h
      | cons y ys =>
        simp only [strcmp] at h
        split at h
        · simp at h
        · split at h
          · simp at h
          · have hxy : x = y := by omega
            rw [hxy, ih h]
  · intro h
    rw [h]
    exact strcmp_self b

theorem strcmp_range (a b : Str) : strcmp a b = -1 ∨ strcmp a b = 0 ∨ strcmp a b = 1 := by
  induction a generalizing b with
  | nil => cases b <;> simp [strcmp]
  | cons x xs ih => cases b with
    | nil => simp [strcmp]
    | cons y ys =>
      simp only [strcmp]
      split
      · simp
      · split
        · simp
        · exact ih ys

theorem strcmp_swap (a b : Str) : strcmp b a = - strcmp a b := by
  induction a generalizing b with
  | nil => cases b <;> simp [strcmp]
  | cons x xs ih => cases b with
    | nil => simp [strcmp]
    | cons y ys =>
      simp only [strcmp]
      by_cases h1 : x < y
      · have h2 : ¬ y < x := by omega
        simp [h1, h2]
      · by_cases h2 : y < x
        · simp [h1, h2]
        · simp [h1, h2, ih ys]

theorem strcmp_trans {a b c : Str} (hab : strcmp a b < 0) (hbc : strcmp b c < 0) :
    strcmp a c < 0 := by
  induction a generalizing b c with
  | nil => cases c with
    | nil => cases b <;> simp [strcmp] at hab hbc
    | cons z zs => simp [strcmp]
  | cons x xs ih => cases b with
    | nil => simp [strcmp] at hab
    | cons y ys => cases c with
      | nil => simp [strcmp] at hbc
      | cons z zs =>
        simp only [strcmp] at hab hbc ⊢
        by_cases h1 : x < y
        · by_cases h2 : y < z
          · have : x < z := by omega
            simp [this]
          · by_cases h3 : z < y
            · simp [h2, h3] at hbc
            · have : x < z := by omega
              simp [this]
        · by_cases h1b : y < x
          · simp [h1, h1b] at hab
          · simp only [h1, h1b, if_false] at hab
            have hxy : x = y := by omega
            subst hxy
            by_cases h2 : x < z
            · simp [h2]
            · by_cases h3 : z < x
              · simp [h2, h3] at hbc
              · simp only [h2, h3, if_false] at hbc ⊢
                exact ih hab hbc

theorem strchr_eq_none {s : Str} {c : Nat} : strchr s c = none ↔ c ∉ s := by
  induction s with
  | nil => simp [strchr]
  | cons x xs ih =>
    simp only [strchr]
    by_cases h : x = c
    · simp [h]
    · have h2 : ¬ c = x := fun e => h e.symm
      simp [h, h2, ih]

theorem strcmp_lt_of_lt_of_le {a b c : Str} (hab : strcmp a b < 0) (hbc : strcmp b c ≤ 0) :
    strcmp a c < 0 := by
  rcases strcmp_range b c with h | h | h
  · exact strcmp_trans hab (by omega)
  · rw [strcmp_eq_zero] at h
    rw [← h]
    exact hab
  · omega

theorem strcmp_lt_of_le_of_lt {a b c : Str} (hab : strcmp a b ≤ 0) (hbc : strcmp b c < 0) :
    strcmp a c < 0 := by
  rcases strcmp_range a b with h | h | h
  · exact strcmp_trans (by omega) hbc
  · rw [strcmp_eq_zero] at h
    rw [h]
    exact hbc
  · omega

theorem strcmp_ne_zero {a b : Str} : strcmp a b ≠ 0 ↔ a ≠ b :=
  not_congr strcmp_eq_zero

/-- The guard shared by `mkdir` and `rm` (and, in two steps, `touch`). -/
theorem name_guard (name : Str) :
    (strlen name ≠ 0 ∧ strcmp name (cstr ".") ≠ 0 ∧ strcmp name (cstr "..") ≠ 0
      ∧ strcmp name (cstr "/") ≠ 0 ∧ strchr name 47 = none) ↔ valid_name name := by
  unfold valid_name strlen
  rw [strcmp_ne_zero, strcmp_ne_zero, strcmp_ne_zero, strchr_eq_none]
  constructor
  · rintro ⟨h1, h2, h3, _, h5⟩
    exact ⟨fun e => h1 (by simp [e]), h5, h2, h3⟩
  · rintro ⟨h1, h2, h3, h4⟩
    refine ⟨fun e => h1 (List.length_eq_zero.mp e), h3, h4, ?_, h2⟩
    intro e
    rw [e, cstr_slash] at h2
    simp at h2

/-! ## Facts about pointers into the tree -/

namespace Dir_node

@[simp] theorem subdir_list_set_subdir_list (d : Dir_node) (s : List Dir_node) :
    (d.set_subdir_list s).subdir_list = s := by cases d; rfl

@[simp] theorem file_list_set_subdir_list (d : Dir_node) (s : List Dir_node) :
    (d.set_subdir_list s).file_list = d.file_list := by cases d; rfl

@[simp] theorem name_set_subdir_list (d : Dir_node) (s : List Dir_node) :
    (d.set_subdir_list s).name = d.name := by cases d; rfl

@[simp] theorem path_set_subdir_list (d : Dir_node) (s : List Dir_node) :
    (d.set_subdir_list s).path = d.path := by cases d; rfl

@[simp] theorem subdir_list_set_file_list (d : Dir_node) (l : List File_node) :
    (d.set_file_list l).subdir_list = d.subdir_list := by cases d; rfl

@[simp] theorem file_list_set_file_list (d : Dir_node) (l : List File_node) :
    (d.set_file_list l).file_list = l := by cases d; rfl

@[simp] theorem name_set_file_list (d : Dir_node) (l : List File_node) :
    (d.set_file_list l).name = d.name := by cases d; rfl

@[simp] theorem path_set_file_list (d : Dir_node) (l : List File_node) :
    (d.set_file_list l).path = d.path := by cases d; rfl

theorem set_subdir_list_self (d : Dir_node) : d.set_subdir_list d.subdir_list = d := by
  cases d; rfl

theorem set_file_list_self (d : Dir_node) : d.set_file_list d.file_list = d := by
  cases d; rfl

/-- What is stored through a valid pointer is what is read back through it. -/
theorem lookup_modify_self (f : Dir_node → Dir_node) (r : Dir_node) (p : List Nat)
    (d : Dir_node) (h : r.lookup p = some d) : (modify f r p).lookup p = some (f d) := by
  induction p generalizing r with
  | nil =>
    simp only [lookup, Option.some.injEq] at h
    simp [lookup, modify, h]
  | cons i p ih =>
    simp only [lookup] at h
    cases hc : r.subdir_list[i]? with
    | none => simp [hc] at h
    | some c =>
      simp only [hc] at h
      have hi : i < r.subdir_list.length := by
        rcases List.getElem?_eq_some.mp hc with ⟨hi, _⟩
        exact hi
      simp only [modify, hc, lookup, subdir_list_set_subdir_list, List.getElem?_set_self hi]
      exact ih c h

/-- A write through a pointer depends only on the value given to the directory
that is there. -/
theorem modify_congr (f g : Dir_node → Dir_node) (r : Dir_node) (p : List Nat)
    (d : Dir_node) (h : r.lookup p = some d) (hfg : f d = g d) :
    modify f r p = modify g r p := by
  induction p generalizing r with
  | nil =>
    simp only [lookup, Option.some.injEq] at h
    simp [modify, h, hfg]
  | cons i p ih =>
    simp only [lookup] at h
    cases hc : r.subdir_list[i]? with
    | none => simp [hc] at h
    | some c =>
      simp only [hc] at h
      simp only [modify, hc]
      rw [ih c h]

/-- Storing what is already there changes nothing. -/
theorem modify_id (f : Dir_node → Dir_node) (r : Dir_node) (p : List Nat)
    (d : Dir_node) (h : r.lookup p = some d) (hf : f d = d) : modify f r p = r := by
  induction p generalizing r with
  | nil =>
    simp only [lookup, Option.some.injEq] at h
    simp [modify, h, hf]
  | cons i p ih =>
    simp only [lookup] at h
    cases hc : r.subdir_list[i]? with
    | none => simp [hc] at h
    | some c =>
      simp only [hc] at h
      simp only [modify, hc]
      rw [ih c h]
      have hi : i < r.subdir_list.length := by
        rcases List.getElem?_eq_some.mp hc with ⟨hi, _⟩
        exact hi
      have hset : r.subdir_list.set i c = r.subdir_list := by
        apply List.ext_getElem?
        intro j
        by_cases hij : i = j
        · subst hij
          rw [List.getElem?_set_self hi, hc]
        · rw [List.getElem?_set_ne hij]
      rw [hset, set_subdir_list_self]

/-- A write through `p` is not seen through a pointer `q` that is neither on the
chain to `p` nor below `p`. -/
theorem lookup_modify_off (f : Dir_node → Dir_node) (r : Dir_node) (p q : List Nat)
    (hq : ∀ t, q ≠ p ++ t) (hp : ∀ t, p ≠ q ++ t) :
    (modify f r p).lookup q = r.lookup q := by
  induction p generalizing r q with
  | nil => exact absurd rfl (hq q)
  | cons i p ih =>
    cases q with
    | nil => exact absurd rfl (hp (i :: p))
    | cons j q =>
      cases hc : r.subdir_list[i]? with
      | none => simp [modify, hc]
      | some c =>
        simp only [modify, hc, lookup, subdir_list_set_subdir_list]
        by_cases hij : i = j
        · subst hij
          have hi : i < r.subdir_list.length := by
            rcases List.getElem?_eq_some.mp hc with ⟨hi, _⟩
            exact hi
          rw [List.getElem?_set_self hi, hc]
          apply ih
          · intro t e
            exact hq t (by rw [e]; rfl)
          · intro t e
            exact hp t (by rw [e]; rfl)
        · rw [List.getElem?_set_ne hij]

end Dir_node

/-! ## Facts about the searches -/

theorem search_subdir_loop_eq_none {name : Str} {l : List Dir_node} :
    search_subdir_loop name l = none ↔ ∀ c ∈ l, c.name ≠ name := by
  induction l with
  | nil => simp [search_subdir_loop]
  | cons c cs ih =>
    simp only [search_subdir_loop]
    by_cases h : strcmp c.name name = 0
    · have e : c.name = name := strcmp_eq_zero.mp h
      simp [e, strcmp_self]
    · have e : c.name ≠ name := strcmp_ne_zero.mp h
      simp [h, e, ih]

theorem search_subdir_eq_none {d : Dir_node} {name : Str} :
    search_subdir d name = none ↔ ¬ has_subdir d name := by
  unfold search_subdir has_subdir
  rw [search_subdir_loop_eq_none]
  simp

theorem search_subdir_loop_some {name : Str} {l : List Dir_node} {i : Nat}
    (h : search_subdir_loop name l = some i) :
    ∃ c, l[i]? = some c ∧ c.name = name ∧ ∀ j, j < i → ∀ b, l[j]? = some b → b.name ≠ name := by
  induction l generalizing i with
  | nil => simp [search_subdir_loop] at h
  | cons c cs ih =>
    simp only [search_subdir_loop] at h
    by_cases hc : strcmp c.name name = 0
    · simp only [hc, if_true, Option.some.injEq] at h
      subst h
      exact ⟨c, by simp, strcmp_eq_zero.mp hc, by intro j hj; omega⟩
    · simp only [hc, if_false, Option.map_eq_some'] at h
      rcases h with ⟨k, hk, rfl⟩
      rcases ih hk with ⟨b, hb, hbn, hmin⟩
      refine ⟨b, by simpa using hb, hbn, ?_⟩
      intro j hj a ha
      cases j with
      | zero =>
        simp at ha
        rw [← ha]
        exact strcmp_ne_zero.mp hc
      | succ j =>
        simp at ha
        exact hmin j (by omega) a ha

theorem search_file_loop_eq_none {name : Str} {l : List File_node} :
    search_file_loop name l = none ↔ ∀ f ∈ l, f.name ≠ name := by
  induction l with
  | nil => simp [search_file_loop]
  | cons c cs ih =>
    simp only [search_file_loop]
    by_cases h : strcmp c.name name = 0
    · have e : c.name = name := strcmp_eq_zero.mp h
      simp [e, strcmp_self]
    · have e : c.name ≠ name := strcmp_ne_zero.mp h
      simp [h, e, ih]

/-! ## Facts about the insertion loops -/

/-- On a list in ascending order without the name, the loop of `touch` splits the
list where the names pass `name` and links the new file there. -/
theorem touch_loop_absent (name : Str) (l : List File_node)
    (hasc : ascending (file_names l)) (hno : ∀ f ∈ l, f.name ≠ name) :
    ∃ l1 l2, l = l1 ++ l2
      ∧ touch_loop name l = l1 ++ { name := name, timestamp := 1 } :: l2
      ∧ (∀ f ∈ l1, strcmp f.name name < 0) ∧ (∀ f ∈ l2, strcmp name f.name < 0) := by
  induction l with
  | nil => exact ⟨[], [], rfl, rfl, by simp, by simp⟩
  | cons f fs ih =>
    have hasc2 : (∀ g ∈ fs, strcmp f.name g.name ≤ 0) ∧ ascending (file_names fs) := by
      simpa [ascending, file_names] using hasc
    have hf : strcmp name f.name ≠ 0 := by
      rw [strcmp_ne_zero]
      exact fun e => hno f (by simp) e.symm
    by_cases hge : strcmp name f.name ≥ 0
    · rcases ih hasc2.2 (fun g hg => hno g (by simp [hg])) with ⟨l1, l2, e1, e2, h1, h2⟩
      refine ⟨f :: l1, l2, by simp [e1], by simp [touch_loop, hge, hf, e2], ?_, h2⟩
      intro g hg
      rcases List.mem_cons.mp hg with rfl | hg
      · rw [strcmp_swap]
        omega
      · exact h1 g hg
    · refine ⟨[], f :: fs, rfl, by simp [touch_loop, hge], by simp, ?_⟩
      intro g hg
      rcases List.mem_cons.mp hg with rfl | hg
      · omega
      · exact strcmp_lt_of_lt_of_le (by omega) (hasc2.1 g hg)

/-- Linking a name strictly between the two halves of an ascending list leaves it
ascending. -/
theorem ascending_insert {l1 l2 : List Str} {name : Str} (hasc : ascending (l1 ++ l2))
    (h1 : ∀ a ∈ l1, strcmp a name < 0) (h2 : ∀ b ∈ l2, strcmp name b < 0) :
    ascending (l1 ++ name :: l2) := by
  unfold ascending at hasc ⊢
  rw [List.pairwise_append] at hasc ⊢
  refine ⟨hasc.1, List.pairwise_cons.mpr ⟨fun b hb => le_of_lt (h2 b hb), hasc.2.1⟩, ?_⟩
  intro a ha b hb
  rcases List.mem_cons.mp hb with rfl | hb
  · exact le_of_lt (h1 a ha)
  · exact hasc.2.2 a ha b hb

/-- The same for strictly ascending lists. -/
theorem strictly_ascending_insert {l1 l2 : List Str} {name : Str}
    (hasc : strictly_ascending (l1 ++ l2))
    (h1 : ∀ a ∈ l1, strcmp a name < 0) (h2 : ∀ b ∈ l2, strcmp name b < 0) :
    strictly_ascending (l1 ++ name :: l2) := by
  unfold strictly_ascending at hasc ⊢
  rw [List.pairwise_append] at hasc ⊢
  refine ⟨hasc.1, List.pairwise_cons.mpr ⟨fun b hb => h2 b hb, hasc.2.1⟩, ?_⟩
  intro a ha b hb
  rcases List.mem_cons.mp hb with rfl | hb
  · exact h1 a ha
  · exact hasc.2.2 a ha b hb

/-! ## Facts about `touch` -/

theorem Dir_node.set_file_list_eq (d : Dir_node) (l : List File_node) :
    d.set_file_list l = Dir_node.mk d.name d.path l d.subdir_list := by cases d; rfl

theorem Dir_node.set_subdir_list_eq (d : Dir_node) (s : List Dir_node) :
    d.set_subdir_list s = Dir_node.mk d.name d.path d.file_list s := by cases d; rfl

/-- The first guard of `touch`. -/
theorem touch_guard (name : Str) :
    (strlen name ≠ 0 ∧ strchr name 47 = none) ↔ segment name := by
  unfold segment strlen
  rw [strchr_eq_none]
  constructor
  · rintro ⟨h1, h2⟩
    exact ⟨fun e => h1 (by simp [e]), h2⟩
  · rintro ⟨h1, h2⟩
    exact ⟨fun e => h1 (List.length_eq_zero.mp e), h2⟩

/-- The second guard of `touch`, under the first. -/
theorem touch_guard2 (name : Str) (h : segment name) :
    (strcmp name (cstr ".") ≠ 0 ∧ strcmp name (cstr "..") ≠ 0 ∧ strcmp name (cstr "/") ≠ 0)
      ↔ (name ≠ cstr "." ∧ name ≠ cstr "..") := by
  rw [strcmp_ne_zero, strcmp_ne_zero, strcmp_ne_zero]
  constructor
  · rintro ⟨h1, h2, _⟩
    exact ⟨h1, h2⟩
  · rintro ⟨h1, h2⟩
    refine ⟨h1, h2, ?_⟩
    intro e
    have h47 := h.2
    rw [e, cstr_slash] at h47
    simp at h47

/-- What `touch` does, case by case. -/
theorem touch_eq (fs : FileSystem) (name : Str) :
    touch fs name =
      if segment name then
        if name ≠ cstr "." ∧ name ≠ cstr ".." then
          match fs.cur with
          | none => none
          | some d =>
            if has_subdir d name then some ((1 : Int), fs)
            else some (1, fs.set_cur (fun c => c.set_file_list (touch_loop name c.file_list)))
        else some (1, fs)
      else some (0, fs) := by
  unfold touch
  by_cases h1 : segment name
  · rw [if_pos ((touch_guard name).mpr h1), if_pos h1]
    by_cases h2 : name ≠ cstr "." ∧ name ≠ cstr ".."
    · rw [if_pos ((touch_guard2 name h1).mpr h2), if_pos h2]
      cases hc : fs.cur with
      | none => rfl
      | some d =>
        simp only
        by_cases h3 : has_subdir d name
        · rw [if_neg (fun e => (search_subdir_eq_none.mp e) h3), if_pos h3]
        · rw [if_pos (search_subdir_eq_none.mpr h3), if_neg h3]
    · rw [if_neg (fun e => h2 ((touch_guard2 name h1).mp e)), if_neg h2]
  · rw [if_neg (fun e => h1 ((touch_guard name).mp e)), if_neg h1]

/-- C1: in a handle whose cursor directory `d` has its files in ascending name
order, `touch` with a name that is non-empty, without '/', neither "." nor "..",
and borne by no subdirectory and no file of `d` returns 1; the file list of `d`
splits as `l1 ++ l2` with the names of `l1` below `name` and those of `l2` above,
and the new list is `l1`, the new file `(name, 1)`, `l2`, again ascending.  The
resulting handle has the same cursor, and its tree is the old tree with only the
file list of the cursor directory replaced (name, path and subdirectories of the
cursor directory, and every other directory, are as before). -/
theorem touch_creates_file (fs : FileSystem) (d : Dir_node) (name : Str)
    (hcur : fs.cur = some d) (hasc : ascending (file_names d.file_list))
    (hname : valid_name name) (hnosub : ¬ has_subdir d name) (hnofile : ¬ has_file d name) :
    ∃ l1 l2 fs2, d.file_list = l1 ++ l2
      ∧ (∀ f ∈ l1, strcmp f.name name < 0) ∧ (∀ f ∈ l2, strcmp name f.name < 0)
      ∧ ascending (file_names (l1 ++ { name := name, timestamp := 1 } :: l2))
      ∧ touch fs name = some (1, fs2)
      ∧ fs2.cur_dir = fs.cur_dir
      ∧ fs2.cur = some (Dir_node.mk d.name d.path
          (l1 ++ { name := name, timestamp := 1 } :: l2) d.subdir_list)
      ∧ fs2.root = Dir_node.modify (fun _ => Dir_node.mk d.name d.path
          (l1 ++ { name := name, timestamp := 1 } :: l2) d.subdir_list) fs.root fs.cur_dir := by
  have hno : ∀ f ∈ d.file_list, f.name ≠ name := fun f hf e => hnofile ⟨f, hf, e⟩
  rcases touch_loop_absent name d.file_list hasc hno with ⟨l1, l2, e1, e2, h1, h2⟩
  have hf : (fun c : Dir_node => c.set_file_list (touch_loop name c.file_list)) d
      = (fun _ => Dir_node.mk d.name d.path
          (l1 ++ { name := name, timestamp := 1 } :: l2) d.subdir_list) d := by
    simp only [e2, Dir_node.set_file_list_eq]
  have hroot := Dir_node.modify_congr
    (fun c : Dir_node => c.set_file_list (touch_loop name c.file_list))
    (fun _ => Dir_node.mk d.name d.path
      (l1 ++ { name := name, timestamp := 1 } :: l2) d.subdir_list) fs.root fs.cur_dir d hcur hf
  refine ⟨l1, l2, fs.set_cur (fun c => c.set_file_list (touch_loop name c.file_list)),
    e1, h1, h2, ?_, ?_, rfl, ?_, hroot⟩
  · have hasc2 : ascending (file_names l1 ++ file_names l2) := by
      simpa [file_names, e1] using hasc
    have := @ascending_insert _ _ name hasc2
      (by intro a ha; simp only [file_names, List.mem_map] at ha
          rcases ha with ⟨f, hf, rfl⟩; exact h1 f hf)
      (by intro a ha; simp only [file_names, List.mem_map] at ha
          rcases ha with ⟨f, hf, rfl⟩; exact h2 f hf)
    simpa [file_names] using this
  · rw [touch_eq, if_pos ⟨hname.1, hname.2.1⟩, if_pos ⟨hname.2.2.1, hname.2.2.2⟩, hcur]
    simp only [if_neg hnosub]
  · unfold FileSystem.cur FileSystem.set_cur
    simp only
    rw [hroot]
    exact Dir_node.lookup_modify_self _ fs.root fs.cur_dir d hcur

/-- C3 (as amended): `touch` with a name that is empty, contains '/', or is ".",
".." or "/" leaves the handle as it is; it returns 1 for "." and "..", and 0
for the others. -/
theorem touch_reserved_name (fs : FileSystem) (name : Str)
    (h : name = [] ∨ 47 ∈ name ∨ name = cstr "." ∨ name = cstr ".." ∨ name = cstr "/") :
    touch fs name = some (if name = cstr "." ∨ name = cstr ".." then 1 else 0, fs) := by
  rw [touch_eq]
  by_cases hd : name = cstr "." ∨ name = cstr ".."
  · have hs : segment name := by
      rcases hd with e | e <;> rw [e] <;> decide
    rw [if_pos hs, if_neg (by tauto), if_pos hd]
  · have hs : ¬ segment name := by
      rintro ⟨h1, h2⟩
      rcases h with e | e | e | e | e
      · exact h1 e
      · exact h2 e
      · exact hd (Or.inl e)
      · exact hd (Or.inr e)
      · rw [e, cstr_slash] at h2
        simp at h2
    rw [if_neg hs, if_neg hd]

/-- C4: in a handle whose cursor directory `d` holds subdirectories named by path
segments (non-empty, without '/'; so it is in every reachable state, see
`reachable_well_named`), `touch` with the name of one of them returns 1 and
leaves the handle, tree and cursor, exactly as it was. -/
theorem touch_shadowed_by_subdir (fs : FileSystem) (d : Dir_node) (name : Str)
    (hcur : fs.cur = some d) (hseg : ∀ c ∈ d.subdir_list, segment c.name)
    (hsub : has_subdir d name) : touch fs name = some (1, fs) := by
  have hs : segment name := by
    rcases hsub with ⟨c, hc, e⟩
    rw [← e]
    exact hseg c hc
  rw [touch_eq, if_pos hs, hcur]
  simp only [if_pos hsub]
  split <;> rfl

/-- C1 at a concrete handle: "b" is touched in a root that holds the files "a" and "c". -/
theorem touch_creates_file_witness :
    sample_files.cur = some sample_files.root
      ∧ ascending (file_names sample_files.root.file_list)
      ∧ valid_name (cstr "b")
      ∧ ¬ has_subdir sample_files.root (cstr "b") ∧ ¬ has_file sample_files.root (cstr "b")
      ∧ ∃ l1 l2 fs2, sample_files.root.file_list = l1 ++ l2
        ∧ (∀ f ∈ l1, strcmp f.name (cstr "b") < 0) ∧ (∀ f ∈ l2, strcmp (cstr "b") f.name < 0)
        ∧ ascending (file_names (l1 ++ { name := cstr "b", timestamp := 1 } :: l2))
        ∧ touch sample_files (cstr "b") = some (1, fs2)
        ∧ fs2.cur_dir = sample_files.cur_dir
        ∧ fs2.cur = some (Dir_node.mk sample_files.root.name sample_files.root.path
            (l1 ++ { name := cstr "b", timestamp := 1 } :: l2) sample_files.root.subdir_list)
        ∧ fs2.root = Dir_node.modify (fun _ => Dir_node.mk sample_files.root.name
            sample_files.root.path (l1 ++ { name := cstr "b", timestamp := 1 } :: l2)
            sample_files.root.subdir_list) sample_files.root sample_files.cur_dir :=
  ⟨rfl, by decide, by decide, by decide, by decide,
    touch_creates_file sample_files sample_files.root (cstr "b") rfl (by decide) (by decide)
      (by decide) (by decide)⟩

/-- C3 as stated fails: `touch` with "." on the fresh handle returns 1, not 0. -/
theorem touch_dot_returns_one :
    touch mkfs (cstr ".") = some (1, mkfs) ∧ touch mkfs (cstr ".") ≠ some (0, mkfs) := by
  constructor
  · rfl
  · intro h
    have h2 : touch mkfs (cstr ".") = some (1, mkfs) := rfl
    rw [h2] at h
    simp at h

/-- C3 (as amended) at concrete names: "a/b" is refused, ".." is accepted without
effect. -/
theorem touch_reserved_name_witness :
    (47 ∈ cstr "a/b" ∧ touch sample_files (cstr "a/b") = some (0, sample_files))
      ∧ (cstr ".." = cstr ".." ∧ touch sample_files (cstr "..") = some (1, sample_files)) :=
  ⟨⟨by decide, touch_reserved_name sample_files (cstr "a/b") (Or.inr (Or.inl (by decide)))⟩,
    ⟨rfl, touch_reserved_name sample_files (cstr "..") (Or.inr (Or.inr (Or.inr (Or.inl rfl))))⟩⟩

/-- C4 at a concrete handle: after `mkdir` of "d", `touch` of "d" adds no file. -/
theorem touch_shadowed_by_subdir_witness :
    mkdir mkfs (cstr "d") = some (1, sample_subdir)
      ∧ sample_subdir.cur = some sample_subdir.root
      ∧ (∀ c ∈ sample_subdir.root.subdir_list, segment c.name)
      ∧ has_subdir sample_subdir.root (cstr "d")
      ∧ touch sample_subdir (cstr "d") = some (1, sample_subdir) :=
  ⟨rfl, rfl, by decide, by decide,
    touch_shadowed_by_subdir sample_subdir sample_subdir.root (cstr "d") rfl (by decide)
      (by decide)⟩

/-! ## Facts about `mkdir` -/

/-- A pointer that is followed in two stretches. -/
theorem Dir_node.lookup_append (r : Dir_node) (p q : List Nat) :
    r.lookup (p ++ q) = (r.lookup p).bind (fun d => d.lookup q) := by
  induction p generalizing r with
  | nil => simp [Dir_node.lookup]
  | cons i p ih =>
    simp only [List.cons_append, Dir_node.lookup]
    cases r.subdir_list[i]? with
    | none => simp
    | some c => exact ih c

/-- The child at position `i` of the directory at `p`. -/
theorem Dir_node.lookup_child (r : Dir_node) (p : List Nat) (i : Nat) (d : Dir_node)
    (h : r.lookup p = some d) : r.lookup (p ++ [i]) = d.subdir_list[i]? := by
  rw [Dir_node.lookup_append, h]
  simp only [Option.some_bind, Dir_node.lookup]
  cases d.subdir_list[i]? <;> rfl

/-- What `mkdir` does, case by case. -/
theorem mkdir_eq (fs : FileSystem) (name : Str) :
    mkdir fs name =
      if valid_name name then
        match fs.cur with
        | none => none
        | some d =>
          if has_subdir d name then some ((0 : Int), fs)
          else some (1, fs.set_cur (fun c => c.set_subdir_list
            (mkdir_loop name (Dir_node.mk name (c.path ++ cstr "/" ++ name) [] [])
              c.subdir_list)))
      else some (0, fs) := by
  unfold mkdir
  by_cases h1 : valid_name name
  · rw [if_pos ((name_guard name).mpr h1), if_pos h1]
    cases hc : fs.cur with
    | none => rfl
    | some d =>
      simp only
      by_cases h3 : has_subdir d name
      · rw [if_neg (fun e => (search_subdir_eq_none.mp e) h3), if_pos h3]
      · rw [if_pos (search_subdir_eq_none.mpr h3), if_neg h3]
  · rw [if_neg (fun e => h1 ((name_guard name).mp e)), if_neg h1]

/-- On a list in ascending order without the name, the loop of `mkdir` splits the
list where the names pass `name` and links the new directory there. -/
theorem mkdir_loop_absent (name : Str) (nd : Dir_node) (l : List Dir_node)
    (hasc : ascending (dir_names l)) (hno : ∀ c ∈ l, c.name ≠ name) :
    ∃ l1 l2, l = l1 ++ l2 ∧ mkdir_loop name nd l = l1 ++ nd :: l2
      ∧ (∀ c ∈ l1, strcmp c.name name < 0) ∧ (∀ c ∈ l2, strcmp name c.name < 0) := by
  induction l with
  | nil => exact ⟨[], [], rfl, rfl, by simp, by simp⟩
  | cons c cs ih =>
    have hasc2 : (∀ g ∈ cs, strcmp c.name g.name ≤ 0) ∧ ascending (dir_names cs) := by
      simpa [ascending, dir_names] using hasc
    have hc : strcmp name c.name ≠ 0 := by
      rw [strcmp_ne_zero]
      exact fun e => hno c (by simp) e.symm
    by_cases hge : strcmp name c.name ≥ 0
    · rcases ih hasc2.2 (fun g hg => hno g (by simp [hg])) with ⟨l1, l2, e1, e2, h1, h2⟩
      refine ⟨c :: l1, l2, by simp [e1], by simp [mkdir_loop, hge, hc, e2], ?_, h2⟩
      intro g hg
      rcases List.mem_cons.mp hg with rfl | hg
      · rw [strcmp_swap]
        omega
      · exact h1 g hg
    · refine ⟨[], c :: cs, rfl, by simp [mkdir_loop, hge], by simp, ?_⟩
      intro g hg
      rcases List.mem_cons.mp hg with rfl | hg
      · omega
      · exact strcmp_lt_of_lt_of_le (by omega) (hasc2.1 g hg)

/-- C5: in a handle whose cursor directory `d` has its subdirectories in ascending
name order, `mkdir` with a name that is non-empty, without '/', neither "." nor
"..", and borne by no subdirectory of `d` (a file may bear it) returns 1; the
subdirectory list of `d` splits as `l1 ++ l2` with the names of `l1` below `name`
and those of `l2` above, and the new list is `l1`, the new directory, `l2`, again
ascending.  The new directory has the given name, the path of `d` followed by
"/" and the name, no files and no subdirectories, and it is the child of the
cursor directory at position `length l1`.  The resulting handle has the same
cursor, and its tree is the old tree with only the subdirectory list of the
cursor directory replaced. -/
theorem mkdir_creates_dir (fs : FileSystem) (d : Dir_node) (name : Str)
    (hcur : fs.cur = some d) (hasc : ascending (dir_names d.subdir_list))
    (hname : valid_name name) (hnosub : ¬ has_subdir d name) :
    ∃ l1 l2 fs2, d.subdir_list = l1 ++ l2
      ∧ (∀ c ∈ l1, strcmp c.name name < 0) ∧ (∀ c ∈ l2, strcmp name c.name < 0)
      ∧ ascending (dir_names (l1 ++ Dir_node.mk name (d.path ++ cstr "/" ++ name) [] [] :: l2))
      ∧ mkdir fs name = some (1, fs2)
      ∧ fs2.cur_dir = fs.cur_dir
      ∧ fs2.cur = some (Dir_node.mk d.name d.path d.file_list
          (l1 ++ Dir_node.mk name (d.path ++ cstr "/" ++ name) [] [] :: l2))
      ∧ fs2.root = Dir_node.modify (fun _ => Dir_node.mk d.name d.path d.file_list
          (l1 ++ Dir_node.mk name (d.path ++ cstr "/" ++ name) [] [] :: l2)) fs.root fs.cur_dir
      ∧ fs2.root.lookup (fs.cur_dir ++ [l1.length])
          = some (Dir_node.mk name (d.path ++ cstr "/" ++ name) [] []) := by
  have hno : ∀ c ∈ d.subdir_list, c.name ≠ name := fun c hc e => hnosub ⟨c, hc, e⟩
  rcases mkdir_loop_absent name (Dir_node.mk name (d.path ++ cstr "/" ++ name) [] [])
    d.subdir_list hasc hno with ⟨l1, l2, e1, e2, h1, h2⟩
  have hf : (fun c : Dir_node => c.set_subdir_list
        (mkdir_loop name (Dir_node.mk name (c.path ++ cstr "/" ++ name) [] []) c.subdir_list)) d
      = (fun _ => Dir_node.mk d.name d.path d.file_list
          (l1 ++ Dir_node.mk name (d.path ++ cstr "/" ++ name) [] [] :: l2)) d := by
    simp only [e2, Dir_node.set_subdir_list_eq]
  have hroot := Dir_node.modify_congr
    (fun c : Dir_node => c.set_subdir_list
        (mkdir_loop name (Dir_node.mk name (c.path ++ cstr "/" ++ name) [] []) c.subdir_list))
    (fun _ => Dir_node.mk d.name d.path d.file_list
          (l1 ++ Dir_node.mk name (d.path ++ cstr "/" ++ name) [] [] :: l2))
    fs.root fs.cur_dir d hcur hf
  have hcur2 : (fs.set_cur (fun c : Dir_node => c.set_subdir_list
        (mkdir_loop name (Dir_node.mk name (c.path ++ cstr "/" ++ name) [] [])
          c.subdir_list))).cur
      = some (Dir_node.mk d.name d.path d.file_list
          (l1 ++ Dir_node.mk name (d.path ++ cstr "/" ++ name) [] [] :: l2)) := by
    unfold FileSystem.cur FileSystem.set_cur
    simp only
    rw [hroot]
    exact Dir_node.lookup_modify_self _ fs.root fs.cur_dir d hcur
  refine ⟨l1, l2, fs.set_cur (fun c => c.set_subdir_list
      (mkdir_loop name (Dir_node.mk name (c.path ++ cstr "/" ++ name) [] []) c.subdir_list)),
    e1, h1, h2, ?_, ?_, rfl, hcur2, hroot, ?_⟩
  · have hasc2 : ascending (dir_names l1 ++ dir_names l2) := by
      simpa [dir_names, e1] using hasc
    have := @ascending_insert _ _ name hasc2
      (by intro a ha; simp only [dir_names, List.mem_map] at ha
          rcases ha with ⟨f, hf, rfl⟩; exact h1 f hf)
      (by intro a ha; simp only [dir_names, List.mem_map] at ha
          rcases ha with ⟨f, hf, rfl⟩; exact h2 f hf)
    simpa [dir_names, Dir_node.name] using this
  · rw [mkdir_eq, if_pos hname, hcur]
    simp only [if_neg hnosub]
  · have hc := Dir_node.lookup_child _ fs.cur_dir l1.length _ hcur2
    refine hc.trans ?_
    simp only [Dir_node.subdir_list]
    rw [List.getElem?_append_right (le_refl _)]
    simp

/-- C5 at a concrete handle: "b" is made in a root that holds the subdirectories
"a" and "c" and a file "b". -/
theorem mkdir_creates_dir_witness :
    sample_dirs.cur = some sample_dirs.root
      ∧ ascending (dir_names sample_dirs.root.subdir_list)
      ∧ valid_name (cstr "b") ∧ ¬ has_subdir sample_dirs.root (cstr "b")
      ∧ ∃ l1 l2 fs2, sample_dirs.root.subdir_list = l1 ++ l2
        ∧ (∀ c ∈ l1, strcmp c.name (cstr "b") < 0) ∧ (∀ c ∈ l2, strcmp (cstr "b") c.name < 0)
        ∧ ascending (dir_names (l1 ++ Dir_node.mk (cstr "b")
            (sample_dirs.root.path ++ cstr "/" ++ cstr "b") [] [] :: l2))
        ∧ mkdir sample_dirs (cstr "b") = some (1, fs2)
        ∧ fs2.cur_dir = sample_dirs.cur_dir
        ∧ fs2.cur = some (Dir_node.mk sample_dirs.root.name sample_dirs.root.path
            sample_dirs.root.file_list (l1 ++ Dir_node.mk (cstr "b")
              (sample_dirs.root.path ++ cstr "/" ++ cstr "b") [] [] :: l2))
        ∧ fs2.root = Dir_node.modify (fun _ => Dir_node.mk sample_dirs.root.name
            sample_dirs.root.path sample_dirs.root.file_list (l1 ++ Dir_node.mk (cstr "b")
              (sample_dirs.root.path ++ cstr "/" ++ cstr "b") [] [] :: l2))
            sample_dirs.root sample_dirs.cur_dir
        ∧ fs2.root.lookup (sample_dirs.cur_dir ++ [l1.length])
            = some (Dir_node.mk (cstr "b")
                (sample_dirs.root.path ++ cstr "/" ++ cstr "b") [] []) :=
  ⟨rfl, by decide, by decide, by decide,
    mkdir_creates_dir sample_dirs sample_dirs.root (cstr "b") rfl (by decide) (by decide)
      (by decide)⟩

/-- Whatever the list, after the loop of `mkdir` a directory called `name` is in it. -/
theorem mkdir_loop_has_name (name : Str) (nd : Dir_node) (hnd : nd.name = name)
    (l : List Dir_node) : ∃ c ∈ mkdir_loop name nd l, c.name = name := by
  induction l with
  | nil => exact ⟨nd, by simp [mkdir_loop], hnd⟩
  | cons c cs ih =>
    simp only [mkdir_loop]
    by_cases hge : strcmp name c.name ≥ 0
    · by_cases h0 : strcmp name c.name = 0
      · exact ⟨c, by simp [hge, h0], (strcmp_eq_zero.mp h0).symm⟩
      · rcases ih with ⟨b, hb, e⟩
        exact ⟨b, by simp [hge, h0, hb], e⟩
    · exact ⟨nd, by simp [hge], hnd⟩

/-- C6 as stated fails: the second `mkdir` of "d" on the fresh handle returns 0. -/
theorem mkdir_twice_returns_zero :
    mkdir mkfs (cstr "d") = some (1, sample_subdir)
      ∧ mkdir sample_subdir (cstr "d") = some (0, sample_subdir)
      ∧ mkdir sample_subdir (cstr "d") ≠ some (1, sample_subdir) := by
  refine ⟨rfl, rfl, ?_⟩
  intro h
  have h2 : mkdir sample_subdir (cstr "d") = some (0, sample_subdir) := rfl
  rw [h2] at h
  simp at h

/-- C6 (as amended): when `mkdir` with a valid name has returned (1 or 0), a second
`mkdir` with the same name on the resulting handle returns 0 and leaves that
handle, tree and cursor, exactly as it is. -/
theorem mkdir_again (fs fs1 : FileSystem) (name : Str) (r : Int)
    (hname : valid_name name) (h1 : mkdir fs name = some (r, fs1)) :
    mkdir fs1 name = some (0, fs1) := by
  rw [mkdir_eq, if_pos hname] at h1
  cases hc : fs.cur with
  | none => simp [hc] at h1
  | some d =>
    simp only [hc] at h1
    by_cases hs : has_subdir d name
    · simp only [if_pos hs, Option.some.injEq, Prod.mk.injEq] at h1
      rw [← h1.2, mkdir_eq, if_pos hname, hc]
      simp only [if_pos hs]
    · simp only [if_neg hs, Option.some.injEq, Prod.mk.injEq] at h1
      have hc1 : fs1.cur = some (d.set_subdir_list
          (mkdir_loop name (Dir_node.mk name (d.path ++ cstr "/" ++ name) [] [])
            d.subdir_list)) := by
        rw [← h1.2]
        exact Dir_node.lookup_modify_self _ fs.root fs.cur_dir d hc
      have hs1 : has_subdir (d.set_subdir_list
          (mkdir_loop name (Dir_node.mk name (d.path ++ cstr "/" ++ name) [] [])
            d.subdir_list)) name := by
        unfold has_subdir
        rw [Dir_node.subdir_list_set_subdir_list]
        exact mkdir_loop_has_name name
          (Dir_node.mk name (d.path ++ cstr "/" ++ name) [] []) rfl d.subdir_list
      rw [mkdir_eq, if_pos hname, hc1]
      simp only [if_pos hs1]

/-- C6 (as amended) at a concrete handle: `mkdir` of "d" twice from the fresh
handle. -/
theorem mkdir_again_witness :
    valid_name (cstr "d") ∧ mkdir mkfs (cstr "d") = some (1, sample_subdir)
      ∧ mkdir sample_subdir (cstr "d") = some (0, sample_subdir) :=
  ⟨by decide, rfl, mkdir_again mkfs sample_subdir (cstr "d") 1 (by decide) rfl⟩

/-- C7: in a handle whose cursor points to a directory `d`, `mkdir` returns; the
result is 0 exactly when the name is empty, contains '/', is "." or "..", or is
the name of a subdirectory of `d`; and when the result is 0 the handle is left
exactly as it was. -/
theorem mkdir_returns_zero_iff (fs : FileSystem) (d : Dir_node) (name : Str)
    (hcur : fs.cur = some d) :
    ∃ r fs2, mkdir fs name = some (r, fs2)
      ∧ (r = 0 ↔ (name = [] ∨ 47 ∈ name ∨ name = cstr "." ∨ name = cstr ".."
            ∨ has_subdir d name))
      ∧ (r = 0 → fs2 = fs) := by
  rw [mkdir_eq, hcur]
  by_cases hname : valid_name name
  · rw [if_pos hname]
    by_cases hs : has_subdir d name
    · refine ⟨0, fs, by simp only [if_pos hs], ?_, fun _ => rfl⟩
      simp [hs]
    · refine ⟨1, fs.set_cur (fun c => c.set_subdir_list
          (mkdir_loop name (Dir_node.mk name (c.path ++ cstr "/" ++ name) [] [])
            c.subdir_list)), by simp only [if_neg hs], ?_, by simp⟩
      unfold valid_name at hname
      simp only [one_ne_zero, false_iff]
      tauto
  · rw [if_neg hname]
    refine ⟨0, fs, rfl, ?_, fun _ => rfl⟩
    unfold valid_name at hname
    simp only [true_iff]
    tauto

/-- C7 at a concrete handle: in a root holding the subdirectory "d", `mkdir` of
"d" returns 0. -/
theorem mkdir_returns_zero_iff_witness :
    sample_subdir.cur = some sample_subdir.root
      ∧ ∃ r fs2, mkdir sample_subdir (cstr "d") = some (r, fs2)
        ∧ (r = 0 ↔ (cstr "d" = [] ∨ 47 ∈ cstr "d" ∨ cstr "d" = cstr "."
              ∨ cstr "d" = cstr ".." ∨ has_subdir sample_subdir.root (cstr "d")))
        ∧ (r = 0 → fs2 = sample_subdir) :=
  ⟨rfl, mkdir_returns_zero_iff sample_subdir sample_subdir.root (cstr "d") rfl⟩

/-- C8: the code at the failing input.  The root holds a file "a"; `mkdir` of "a"
returns 1 and links a subdirectory "a" next to the file. -/
theorem mkdir_over_file_returns_one :
    touch mkfs (cstr "a") = some (1, touched 1)
      ∧ has_file (touched 1).root (cstr "a")
      ∧ mkdir (touched 1) (cstr "a") = some (1, sample_file_and_dir_a)
      ∧ has_subdir sample_file_and_dir_a.root (cstr "a") :=
  ⟨rfl, by decide, rfl, by decide⟩

/-- C9: the code at the failing input.  After `touch` of "a" and `mkdir` of "a" on
the fresh handle the root holds a file and a subdirectory that are both called
"a". -/
theorem file_and_dir_share_name :
    Reachable sample_file_and_dir_a
      ∧ sample_file_and_dir_a.root.lookup [] = some sample_file_and_dir_a.root
      ∧ has_file sample_file_and_dir_a.root (cstr "a")
      ∧ has_subdir sample_file_and_dir_a.root (cstr "a") :=
  ⟨Reachable.mkdir (cstr "a") 1 (Reachable.touch (cstr "a") 1 Reachable.mkfs rfl) rfl,
    rfl, by decide, by decide⟩

/-! ## Properties of every directory of the tree -/

/-- Two subdirectory lists that agree, position by position, on name and path. -/
theorem same_labels_set (l : List Dir_node) (i : Nat) (c x : Dir_node)
    (hc : l[i]? = some c) (hn : x.name = c.name) (hp : x.path = c.path) :
    List.Forall₂ (fun a b : Dir_node => a.name = b.name ∧ a.path = b.path) (l.set i x) l := by
  induction l generalizing i with
  | nil => simp at hc
  | cons a as ih =>
    cases i with
    | zero =>
      simp only [List.getElem?_cons_zero, Option.some.injEq] at hc
      subst hc
      exact List.Forall₂.cons ⟨hn, hp⟩ (List.forall₂_same.mpr (fun _ _ => ⟨rfl, rfl⟩))
    | succ i =>
      simp only [List.getElem?_cons_succ] at hc
      exact List.Forall₂.cons ⟨rfl, rfl⟩ (ih i hc)

theorem dir_names_of_same_labels {l1 l2 : List Dir_node}
    (h : List.Forall₂ (fun a b : Dir_node => a.name = b.name ∧ a.path = b.path) l1 l2) :
    dir_names l1 = dir_names l2 := by
  induction h with
  | nil => rfl
  | cons hab _ ih =>
    simp only [dir_names, List.map_cons, List.cons.injEq] at ih ⊢
    exact ⟨hab.1, ih⟩

namespace Dir_node

/-- A write of a value with the same name leaves the names on the chain as they are. -/
theorem name_modify (f : Dir_node → Dir_node) (hname : ∀ d, (f d).name = d.name)
    (r : Dir_node) (p : List Nat) : (modify f r p).name = r.name := by
  cases p with
  | nil => exact hname r
  | cons i p =>
    simp only [modify]
    cases r.subdir_list[i]? <;> simp

/-- A write of a value with the same path leaves the paths on the chain as they are. -/
theorem path_modify (f : Dir_node → Dir_node) (hpath : ∀ d, (f d).path = d.path)
    (r : Dir_node) (p : List Nat) : (modify f r p).path = r.path := by
  cases p with
  | nil => exact hpath r
  | cons i p =>
    simp only [modify]
    cases r.subdir_list[i]? <;> simp

end Dir_node

/-- A property of all directories holds at the end of every pointer. -/
theorem AllDirs.lookup {P : Dir_node → Prop} {r : Dir_node} (h : AllDirs P r)
    (p : List Nat) (d : Dir_node) (hd : r.lookup p = some d) : P d := by
  induction p generalizing r with
  | nil =>
    simp only [Dir_node.lookup, Option.some.injEq] at hd
    cases h with
    | intro _ here _ => exact hd ▸ here
  | cons i p ih =>
    simp only [Dir_node.lookup] at hd
    cases hc : r.subdir_list[i]? with
    | none => simp [hc] at hd
    | some c =>
      simp only [hc] at hd
      cases h with
      | intro _ _ below => exact ih (below c (List.getElem?_mem hc)) hd

/-- A property of all directories survives a write through a pointer when: it
survives at the written directory, the write keeps name and path, and at the
directories on the chain the property looks at the subdirectories only through
their names and paths. -/
theorem AllDirs.modify {P : Dir_node → Prop} (f : Dir_node → Dir_node)
    (hanc : ∀ d l, P d →
      List.Forall₂ (fun a b : Dir_node => a.name = b.name ∧ a.path = b.path) l d.subdir_list →
      P (d.set_subdir_list l))
    (hf : ∀ d, AllDirs P d → AllDirs P (f d))
    (hname : ∀ d, (f d).name = d.name) (hpath : ∀ d, (f d).path = d.path)
    (r : Dir_node) (p : List Nat) (h : AllDirs P r) : AllDirs P (Dir_node.modify f r p) := by
  induction p generalizing r with
  | nil => exact hf r h
  | cons i p ih =>
    simp only [Dir_node.modify]
    cases hc : r.subdir_list[i]? with
    | none => exact h
    | some c =>
      simp only
      cases h with
      | intro _ here below =>
        refine AllDirs.intro _ ?_ ?_
        · exact hanc r _ here (same_labels_set r.subdir_list i c _ hc
            (Dir_node.name_modify f hname c p) (Dir_node.path_modify f hpath c p))
        · intro b hb
          rw [Dir_node.subdir_list_set_subdir_list] at hb
          rcases List.mem_or_eq_of_mem_set hb with hb | hb
          · exact below b hb
          · rw [hb]
            exact ih c (below c (List.getElem?_mem hc))

/-! ## The lists stay strictly ascending -/

theorem touch_loop_names (name : Str) (l : List File_node) (g : File_node)
    (hg : g ∈ touch_loop name l) : g.name = name ∨ ∃ f ∈ l, f.name = g.name := by
  induction l with
  | nil =>
    simp only [touch_loop, List.mem_singleton] at hg
    exact Or.inl (by rw [hg])
  | cons f fs ih =>
    simp only [touch_loop] at hg
    by_cases hge : strcmp name f.name ≥ 0
    · by_cases h0 : strcmp name f.name = 0
      · rw [if_pos hge, if_pos h0, List.mem_cons] at hg
        rcases hg with hg | hg
        · exact Or.inr ⟨f, by simp, by rw [hg]⟩
        · exact Or.inr ⟨g, by simp [hg], rfl⟩
      · rw [if_pos hge, if_neg h0, List.mem_cons] at hg
        rcases hg with hg | hg
        · exact Or.inr ⟨f, by simp, by rw [hg]⟩
        · rcases ih hg with e | ⟨f2, hf2, e⟩
          · exact Or.inl e
          · exact Or.inr ⟨f2, by simp [hf2], e⟩
    · rw [if_neg hge] at hg
      simp only [List.mem_cons] at hg
      rcases hg with hg | hg | hg
      · exact Or.inl (by rw [hg])
      · exact Or.inr ⟨f, by simp, by rw [hg]⟩
      · exact Or.inr ⟨g, by simp [hg], rfl⟩

/-- The loop of `touch` keeps a strictly ascending file list strictly ascending. -/
theorem touch_loop_strict (name : Str) (l : List File_node)
    (h : strictly_ascending (file_names l)) :
    strictly_ascending (file_names (touch_loop name l)) := by
  induction l with
  | nil => simp [touch_loop, strictly_ascending, file_names]
  | cons f fs ih =>
    have h2 : (∀ g ∈ fs, strcmp f.name g.name < 0) ∧ strictly_ascending (file_names fs) := by
      simpa [strictly_ascending, file_names] using h
    simp only [touch_loop]
    by_cases hge : strcmp name f.name ≥ 0
    · by_cases h0 : strcmp name f.name = 0
      · rw [if_pos hge, if_pos h0]
        simpa [strictly_ascending, file_names] using h
      · rw [if_pos hge, if_neg h0]
        have hlt : strcmp f.name name < 0 := by
          rw [strcmp_swap]
          omega
        have := ih h2.2
        simp only [strictly_ascending, file_names, List.map_cons, List.pairwise_cons,
          List.mem_map, forall_exists_index, and_imp, forall_apply_eq_imp_iff₂] at this ⊢
        refine ⟨?_, this⟩
        intro g hg
        rcases touch_loop_names name fs g hg with e | ⟨f2, hf2, e⟩
        · rw [e]
          exact hlt
        · rw [← e]
          exact h2.1 f2 hf2
    · rw [if_neg hge]
      have hlt : strcmp name f.name < 0 := by omega
      simp only [strictly_ascending, file_names, List.map_cons, List.pairwise_cons,
        List.mem_cons, List.mem_map, forall_eq_or_imp, forall_exists_index, and_imp,
        forall_apply_eq_imp_iff₂]
      refine ⟨⟨hlt, fun g hg => strcmp_trans hlt (h2.1 g hg)⟩, ?_⟩
      simpa [strictly_ascending, file_names] using h

theorem mkdir_loop_mem (name : Str) (nd : Dir_node) (l : List Dir_node) (c : Dir_node)
    (hc : c ∈ mkdir_loop name nd l) : c = nd ∨ c ∈ l := by
  induction l with
  | nil =>
    simp only [mkdir_loop, List.mem_singleton] at hc
    exact Or.inl hc
  | cons a as ih =>
    simp only [mkdir_loop] at hc
    by_cases hge : strcmp name a.name ≥ 0
    · by_cases h0 : strcmp name a.name = 0
      · rw [if_pos hge, if_pos h0] at hc
        exact Or.inr hc
      · rw [if_pos hge, if_neg h0, List.mem_cons] at hc
        rcases hc with hc | hc
        · exact Or.inr (by simp [hc])
        · rcases ih hc with e | e
          · exact Or.inl e
          · exact Or.inr (by simp [e])
    · rw [if_neg hge] at hc
      simp only [List.mem_cons] at hc
      rcases hc with hc | hc | hc
      · exact Or.inl hc
      · exact Or.inr (by simp [hc])
      · exact Or.inr (by simp [hc])

/-- The loop of `mkdir` keeps a strictly ascending subdirectory list strictly
ascending. -/
theorem mkdir_loop_strict (name : Str) (nd : Dir_node) (hnd : nd.name = name)
    (l : List Dir_node) (h : strictly_ascending (dir_names l)) :
    strictly_ascending (dir_names (mkdir_loop name nd l)) := by
  induction l with
  | nil => simp [mkdir_loop, strictly_ascending, dir_names]
  | cons a as ih =>
    have h2 : (∀ g ∈ as, strcmp a.name g.name < 0) ∧ strictly_ascending (dir_names as) := by
      simpa [strictly_ascending, dir_names] using h
    simp only [mkdir_loop]
    by_cases hge : strcmp name a.name ≥ 0
    · by_cases h0 : strcmp name a.name = 0
      · rw [if_pos hge, if_pos h0]
        exact h
      · rw [if_pos hge, if_neg h0]
        have hlt : strcmp a.name name < 0 := by
          rw [strcmp_swap]
          omega
        have := ih h2.2
        simp only [strictly_ascending, dir_names, List.map_cons, List.pairwise_cons,
          List.mem_map, forall_exists_index, and_imp, forall_apply_eq_imp_iff₂] at this ⊢
        refine ⟨?_, this⟩
        intro g hg
        rcases mkdir_loop_mem name nd as g hg with e | e
        · rw [e, hnd]
          exact hlt
        · exact h2.1 g e
    · rw [if_neg hge]
      have hlt : strcmp name a.name < 0 := by omega
      simp only [strictly_ascending, dir_names, List.map_cons, List.pairwise_cons,
        List.mem_cons, List.mem_map, forall_eq_or_imp, forall_exists_index, and_imp,
        forall_apply_eq_imp_iff₂]
      rw [hnd]
      refine ⟨⟨hlt, fun g hg => strcmp_trans hlt (h2.1 g hg)⟩, ?_⟩
      simpa [strictly_ascending, dir_names] using h

theorem search_and_remove_dir_loop_sublist (name : Str) (l : List Dir_node) :
    (search_and_remove_dir_loop name l).2.Sublist l := by
  induction l with
  | nil => simp [search_and_remove_dir_loop]
  | cons a as ih =>
    simp only [search_and_remove_dir_loop]
    split
    · exact List.Sublist.cons₂ a ih
    · exact List.sublist_cons_self a as

theorem search_and_remove_file_loop_sublist (name : Str) (l : List File_node) :
    (search_and_remove_file_loop name l).2.Sublist l := by
  induction l with
  | nil => simp [search_and_remove_file_loop]
  | cons a as ih =>
    simp only [search_and_remove_file_loop]
    split
    · exact List.Sublist.cons₂ a ih
    · exact List.sublist_cons_self a as

/-! ## How each operation changes the tree -/

theorem touch_root (fs fs2 : FileSystem) (name : Str) (r : Int)
    (h : touch fs name = some (r, fs2)) :
    fs2.cur_dir = fs.cur_dir ∧ (fs2.root = fs.root ∨ (valid_name name ∧
      fs2.root = Dir_node.modify
        (fun c => c.set_file_list (touch_loop name c.file_list)) fs.root fs.cur_dir)) := by
  rw [touch_eq] at h
  by_cases h1 : segment name
  · rw [if_pos h1] at h
    by_cases h2 : name ≠ cstr "." ∧ name ≠ cstr ".."
    · rw [if_pos h2] at h
      cases hc : fs.cur with
      | none => simp [hc] at h
      | some d =>
        simp only [hc] at h
        split at h
        · simp only [Option.some.injEq, Prod.mk.injEq] at h
          rw [← h.2]
          exact ⟨rfl, Or.inl rfl⟩
        · simp only [Option.some.injEq, Prod.mk.injEq] at h
          rw [← h.2]
          exact ⟨rfl, Or.inr ⟨⟨h1.1, h1.2, h2.1, h2.2⟩, rfl⟩⟩
    · rw [if_neg h2] at h
      simp only [Option.some.injEq, Prod.mk.injEq] at h
      rw [← h.2]
      exact ⟨rfl, Or.inl rfl⟩
  · rw [if_neg h1] at h
    simp only [Option.some.injEq, Prod.mk.injEq] at h
    rw [← h.2]
    exact ⟨rfl, Or.inl rfl⟩

theorem mkdir_root (fs fs2 : FileSystem) (name : Str) (r : Int)
    (h : mkdir fs name = some (r, fs2)) :
    fs2.cur_dir = fs.cur_dir ∧ (fs2.root = fs.root ∨ (valid_name name ∧
      fs2.root = Dir_node.modify
        (fun c => c.set_subdir_list
          (mkdir_loop name (Dir_node.mk name (c.path ++ cstr "/" ++ name) [] []) c.subdir_list))
        fs.root fs.cur_dir)) := by
  rw [mkdir_eq] at h
  by_cases h1 : valid_name name
  · rw [if_pos h1] at h
    cases hc : fs.cur with
    | none => simp [hc] at h
    | some d =>
      simp only [hc] at h
      split at h
      · simp only [Option.some.injEq, Prod.mk.injEq] at h
        rw [← h.2]
        exact ⟨rfl, Or.inl rfl⟩
      · simp only [Option.some.injEq, Prod.mk.injEq] at h
        rw [← h.2]
        exact ⟨rfl, Or.inr ⟨h1, rfl⟩⟩
  · rw [if_neg h1] at h
    simp only [Option.some.injEq, Prod.mk.injEq] at h
    rw [← h.2]
    exact ⟨rfl, Or.inl rfl⟩

theorem cd_root (fs fs2 : FileSystem) (name : Str) (r : Int)
    (h : cd fs name = some (r, fs2)) : fs2.root = fs.root := by
  unfold cd at h
  split at h
  · split at h
    · simp only [Option.some.injEq, Prod.mk.injEq] at h
      rw [← h.2]
    · split at h
      · split at h
        · exact absurd h (by simp)
        · split at h <;>
          · simp only [Option.some.injEq, Prod.mk.injEq] at h
            rw [← h.2]
      · split at h
        · simp only [Option.some.injEq, Prod.mk.injEq] at h
          rw [← h.2]
        · split at h
          · split at h
            · exact absurd h (by simp)
            · split at h <;>
              · simp only [Option.some.injEq, Prod.mk.injEq] at h
                rw [← h.2]
          · simp only [Option.some.injEq, Prod.mk.injEq] at h
            rw [← h.2]
  · simp only [Option.some.injEq, Prod.mk.injEq] at h
    rw [← h.2]

theorem rm_root (fs fs2 : FileSystem) (name : Str) (r : Int)
    (h : rm fs name = some (r, fs2)) :
    fs2.cur_dir = fs.cur_dir ∧ (fs2.root = fs.root
      ∨ fs2.root = Dir_node.modify (fun c => (search_and_remove_dir c name).2)
          fs.root fs.cur_dir
      ∨ fs2.root = Dir_node.modify
          (fun c => (search_and_remove_file (search_and_remove_dir c name).2 name).2)
          fs.root fs.cur_dir) := by
  unfold rm at h
  split at h
  · split at h
    · exact absurd h (by simp)
    · split at h
      · simp only [Option.some.injEq, Prod.mk.injEq] at h
        rw [← h.2]
        exact ⟨rfl, Or.inr (Or.inl rfl)⟩
      · simp only [Option.some.injEq, Prod.mk.injEq] at h
        rw [← h.2]
        exact ⟨rfl, Or.inr (Or.inr rfl)⟩
  · simp only [Option.some.injEq, Prod.mk.injEq] at h
    rw [← h.2]
    exact ⟨rfl, Or.inl rfl⟩

/-! ## C10: the sortedness invariant -/

theorem sorted_dir_same_labels (d : Dir_node) (l : List Dir_node) (h : sorted_dir d)
    (hl : List.Forall₂ (fun a b : Dir_node => a.name = b.name ∧ a.path = b.path)
      l d.subdir_list) : sorted_dir (d.set_subdir_list l) := by
  unfold sorted_dir at h ⊢
  rw [Dir_node.file_list_set_subdir_list, Dir_node.subdir_list_set_subdir_list,
    dir_names_of_same_labels hl]
  exact h

theorem sorted_touch (name : Str) (d : Dir_node) (h : AllDirs sorted_dir d) :
    AllDirs sorted_dir (d.set_file_list (touch_loop name d.file_list)) := by
  cases h with
  | intro _ here below =>
    refine AllDirs.intro _ ?_ ?_
    · unfold sorted_dir at here ⊢
      rw [Dir_node.file_list_set_file_list, Dir_node.subdir_list_set_file_list]
      exact ⟨touch_loop_strict name _ here.1, here.2⟩
    · intro c hc
      rw [Dir_node.subdir_list_set_file_list] at hc
      exact below c hc

theorem sorted_mkdir (name : Str) (d : Dir_node) (h : AllDirs sorted_dir d) :
    AllDirs sorted_dir (d.set_subdir_list
      (mkdir_loop name (Dir_node.mk name (d.path ++ cstr "/" ++ name) [] []) d.subdir_list)) := by
  cases h with
  | intro _ here below =>
    refine AllDirs.intro _ ?_ ?_
    · unfold sorted_dir at here ⊢
      rw [Dir_node.file_list_set_subdir_list, Dir_node.subdir_list_set_subdir_list]
      exact ⟨here.1, mkdir_loop_strict name
        (Dir_node.mk name (d.path ++ cstr "/" ++ name) [] []) rfl _ here.2⟩
    · intro c hc
      rw [Dir_node.subdir_list_set_subdir_list] at hc
      rcases mkdir_loop_mem name _ _ c hc with e | e
      · rw [e]
        refine AllDirs.intro _ ?_ ?_
        · simp [sorted_dir, strictly_ascending, file_names, dir_names, Dir_node.file_list,
            Dir_node.subdir_list]
        · intro b hb
          simp [Dir_node.subdir_list] at hb
      · exact below c e

theorem sorted_remove_dir (name : Str) (d : Dir_node) (h : AllDirs sorted_dir d) :
    AllDirs sorted_dir (search_and_remove_dir d name).2 := by
  cases h with
  | intro _ here below =>
    unfold search_and_remove_dir
    refine AllDirs.intro _ ?_ ?_
    · unfold sorted_dir at here ⊢
      rw [Dir_node.file_list_set_subdir_list, Dir_node.subdir_list_set_subdir_list]
      refine ⟨here.1, ?_⟩
      exact List.Pairwise.sublist
        ((search_and_remove_dir_loop_sublist name d.subdir_list).map Dir_node.name) here.2
    · intro c hc
      rw [Dir_node.subdir_list_set_subdir_list] at hc
      exact below c ((search_and_remove_dir_loop_sublist name d.subdir_list).subset hc)

theorem sorted_remove_file (name : Str) (d : Dir_node) (h : AllDirs sorted_dir d) :
    AllDirs sorted_dir (search_and_remove_file d name).2 := by
  cases h with
  | intro _ here below =>
    unfold search_and_remove_file
    refine AllDirs.intro _ ?_ ?_
    · unfold sorted_dir at here ⊢
      rw [Dir_node.file_list_set_file_list, Dir_node.subdir_list_set_file_list]
      refine ⟨?_, here.2⟩
      exact List.Pairwise.sublist
        ((search_and_remove_file_loop_sublist name d.file_list).map File_node.name) here.1
    · intro c hc
      rw [Dir_node.subdir_list_set_file_list] at hc
      exact below c hc

/-- Every directory of a reachable tree has both of its lists strictly ascending. -/
theorem reachable_sorted (fs : FileSystem) (h : Reachable fs) : AllDirs sorted_dir fs.root := by
  induction h with
  | mkfs =>
    refine AllDirs.intro _ ?_ ?_
    · simp [mkfs, sorted_dir, strictly_ascending, file_names, dir_names, Dir_node.file_list,
        Dir_node.subdir_list]
    · intro b hb
      simp [mkfs, Dir_node.subdir_list] at hb
  | touch name r _ hstep ih =>
    rcases (touch_root _ _ name r hstep).2 with e | ⟨_, e⟩
    · rw [e]
      exact ih
    · rw [e]
      exact AllDirs.modify _ sorted_dir_same_labels (fun d hd => sorted_touch name d hd)
        (fun d => by simp) (fun d => by simp) _ _ ih
  | mkdir name r _ hstep ih =>
    rcases (mkdir_root _ _ name r hstep).2 with e | ⟨_, e⟩
    · rw [e]
      exact ih
    · rw [e]
      exact AllDirs.modify _ sorted_dir_same_labels (fun d hd => sorted_mkdir name d hd)
        (fun d => by simp) (fun d => by simp) _ _ ih
  | cd name r _ hstep ih =>
    rw [cd_root _ _ name r hstep]
    exact ih
  | rm name r _ hstep ih =>
    rcases (rm_root _ _ name r hstep).2 with e | e | e
    · rw [e]
      exact ih
    · rw [e]
      exact AllDirs.modify _ sorted_dir_same_labels (fun d hd => sorted_remove_dir name d hd)
        (fun d => by simp [search_and_remove_dir])
        (fun d => by simp [search_and_remove_dir]) _ _ ih
    · rw [e]
      exact AllDirs.modify _ sorted_dir_same_labels
        (fun d hd => sorted_remove_file name _ (sorted_remove_dir name d hd))
        (fun d => by simp [search_and_remove_dir, search_and_remove_file])
        (fun d => by simp [search_and_remove_dir, search_and_remove_file]) _ _ ih

theorem nodup_of_strictly_ascending {l : List Str} (h : strictly_ascending l) : l.Nodup := by
  unfold strictly_ascending at h
  refine List.Pairwise.imp ?_ h
  intro a b hab e
  rw [e, strcmp_self] at hab
  exact absurd hab (by decide)

/-- C10: in every state reachable from `mkfs` by `touch`, `mkdir`, `cd` and `rm`,
every directory of the tree (the directory at the end of any pointer `p` from the
root) has its file names in strictly ascending order and its subdirectory names
in strictly ascending order; hence no two of its files share a name and no two
of its subdirectories share a name. -/
theorem reachable_lists_strictly_ascending (fs : FileSystem) (h : Reachable fs)
    (p : List Nat) (d : Dir_node) (hd : fs.root.lookup p = some d) :
    strictly_ascending (file_names d.file_list)
      ∧ strictly_ascending (dir_names d.subdir_list)
      ∧ (file_names d.file_list).Nodup ∧ (dir_names d.subdir_list).Nodup := by
  have hs : sorted_dir d := (reachable_sorted fs h).lookup p d hd
  exact ⟨hs.1, hs.2, nodup_of_strictly_ascending hs.1, nodup_of_strictly_ascending hs.2⟩

/-- C10 at a concrete state: after `touch` of "c" and `touch` of "a" on the fresh
handle the root lists "a" before "c". -/
theorem reachable_lists_strictly_ascending_witness :
    Reachable sample_files ∧ sample_files.root.lookup [] = some sample_files.root
      ∧ strictly_ascending (file_names sample_files.root.file_list)
      ∧ strictly_ascending (dir_names sample_files.root.subdir_list)
      ∧ (file_names sample_files.root.file_list).Nodup
      ∧ (dir_names sample_files.root.subdir_list).Nodup :=
  ⟨Reachable.touch (cstr "a") 1 (Reachable.touch (cstr "c") 1 Reachable.mkfs rfl) rfl, rfl,
    reachable_lists_strictly_ascending sample_files
      (Reachable.touch (cstr "a") 1 (Reachable.touch (cstr "c") 1 Reachable.mkfs rfl) rfl)
      [] sample_files.root rfl⟩

/-! ## Names and timestamps in reachable trees -/

theorem int_add_range (a b : Int) : int_range (int_add a b) := by
  unfold int_range int_add
  omega

theorem int_add_one (t : Int) (h : int_range t) (hmax : t < 2147483647) :
    int_add t 1 = t + 1 := by
  unfold int_range at h
  unfold int_add
  omega

theorem well_named_same_labels (d : Dir_node) (l : List Dir_node) (h : well_named d)
    (hl : List.Forall₂ (fun a b : Dir_node => a.name = b.name ∧ a.path = b.path)
      l d.subdir_list) : well_named (d.set_subdir_list l) := by
  unfold well_named at h ⊢
  rw [Dir_node.file_list_set_subdir_list, Dir_node.subdir_list_set_subdir_list]
  refine ⟨h.1, ?_⟩
  intro c hc
  have hmem : c.name ∈ dir_names l := List.mem_map.mpr ⟨c, hc, rfl⟩
  rw [dir_names_of_same_labels hl] at hmem
  rcases List.mem_map.mp hmem with ⟨b, hb, e⟩
  rw [← e]
  exact h.2 b hb

theorem touch_loop_entries (name : Str) (hname : valid_name name) (l : List File_node)
    (h : ∀ f ∈ l, valid_name f.name ∧ int_range f.timestamp) :
    ∀ g ∈ touch_loop name l, valid_name g.name ∧ int_range g.timestamp := by
  induction l with
  | nil =>
    intro g hg
    simp only [touch_loop, List.mem_singleton] at hg
    rw [hg]
    exact ⟨hname, (by decide : int_range 1)⟩
  | cons f fs ih =>
    intro g hg
    simp only [touch_loop] at hg
    by_cases hge : strcmp name f.name ≥ 0
    · by_cases h0 : strcmp name f.name = 0
      · rw [if_pos hge, if_pos h0, List.mem_cons] at hg
        rcases hg with hg | hg
        · rw [hg]
          exact ⟨(h f (by simp)).1, int_add_range _ _⟩
        · exact h g (by simp [hg])
      · rw [if_pos hge, if_neg h0, List.mem_cons] at hg
        rcases hg with hg | hg
        · rw [hg]
          exact h f (by simp)
        · exact ih (fun x hx => h x (by simp [hx])) g hg
    · rw [if_neg hge] at hg
      simp only [List.mem_cons] at hg
      rcases hg with hg | hg | hg
      · rw [hg]
        exact ⟨hname, (by decide : int_range 1)⟩
      · rw [hg]
        exact h f (by simp)
      · exact h g (by simp [hg])

theorem well_named_touch (name : Str) (hname : valid_name name) (d : Dir_node)
    (h : AllDirs well_named d) :
    AllDirs well_named (d.set_file_list (touch_loop name d.file_list)) := by
  cases h with
  | intro _ here below =>
    refine AllDirs.intro _ ?_ ?_
    · unfold well_named at here ⊢
      rw [Dir_node.file_list_set_file_list, Dir_node.subdir_list_set_file_list]
      exact ⟨touch_loop_entries name hname _ here.1, here.2⟩
    · intro c hc
      rw [Dir_node.subdir_list_set_file_list] at hc
      exact below c hc

theorem well_named_mkdir (name : Str) (hname : valid_name name) (d : Dir_node)
    (h : AllDirs well_named d) :
    AllDirs well_named (d.set_subdir_list
      (mkdir_loop name (Dir_node.mk name (d.path ++ cstr "/" ++ name) [] []) d.subdir_list)) := by
  cases h with
  | intro _ here below =>
    refine AllDirs.intro _ ?_ ?_
    · unfold well_named at here ⊢
      rw [Dir_node.file_list_set_subdir_list, Dir_node.subdir_list_set_subdir_list]
      refine ⟨here.1, ?_⟩
      intro c hc
      rcases mkdir_loop_mem name _ _ c hc with e | e
      · rw [e]
        exact hname
      · exact here.2 c e
    · intro c hc
      rw [Dir_node.subdir_list_set_subdir_list] at hc
      rcases mkdir_loop_mem name _ _ c hc with e | e
      · rw [e]
        refine AllDirs.intro _ ?_ ?_
        · simp [well_named, Dir_node.file_list, Dir_node.subdir_list]
        · intro b hb
          simp [Dir_node.subdir_list] at hb
      · exact below c e

theorem well_named_remove_dir (name : Str) (d : Dir_node) (h : AllDirs well_named d) :
    AllDirs well_named (search_and_remove_dir d name).2 := by
  cases h with
  | intro _ here below =>
    unfold search_and_remove_dir
    refine AllDirs.intro _ ?_ ?_
    · unfold well_named at here ⊢
      rw [Dir_node.file_list_set_subdir_list, Dir_node.subdir_list_set_subdir_list]
      exact ⟨here.1, fun c hc =>
        here.2 c ((search_and_remove_dir_loop_sublist name d.subdir_list).subset hc)⟩
    · intro c hc
      rw [Dir_node.subdir_list_set_subdir_list] at hc
      exact below c ((search_and_remove_dir_loop_sublist name d.subdir_list).subset hc)

theorem well_named_remove_file (name : Str) (d : Dir_node) (h : AllDirs well_named d) :
    AllDirs well_named (search_and_remove_file d name).2 := by
  cases h with
  | intro _ here below =>
    unfold search_and_remove_file
    refine AllDirs.intro _ ?_ ?_
    · unfold well_named at here ⊢
      rw [Dir_node.file_list_set_file_list, Dir_node.subdir_list_set_file_list]
      exact ⟨fun f hf =>
        here.1 f ((search_and_remove_file_loop_sublist name d.file_list).subset hf), here.2⟩
    · intro c hc
      rw [Dir_node.subdir_list_set_file_list] at hc
      exact below c hc

/-- In a reachable tree every file and every subdirectory has a valid name (a path
segment other than "." and ".."), and every timestamp is an `int` value. -/
theorem reachable_well_named (fs : FileSystem) (h : Reachable fs) :
    AllDirs well_named fs.root := by
  induction h with
  | mkfs =>
    refine AllDirs.intro _ ?_ ?_
    · simp [mkfs, well_named, Dir_node.file_list, Dir_node.subdir_list]
    · intro b hb
      simp [mkfs, Dir_node.subdir_list] at hb
  | touch name r _ hstep ih =>
    rcases (touch_root _ _ name r hstep).2 with e | ⟨hname, e⟩
    · rw [e]
      exact ih
    · rw [e]
      exact AllDirs.modify _ well_named_same_labels
        (fun d hd => well_named_touch name hname d hd)
        (fun d => by simp) (fun d => by simp) _ _ ih
  | mkdir name r _ hstep ih =>
    rcases (mkdir_root _ _ name r hstep).2 with e | ⟨hname, e⟩
    · rw [e]
      exact ih
    · rw [e]
      exact AllDirs.modify _ well_named_same_labels
        (fun d hd => well_named_mkdir name hname d hd)
        (fun d => by simp) (fun d => by simp) _ _ ih
  | cd name r _ hstep ih =>
    rw [cd_root _ _ name r hstep]
    exact ih
  | rm name r _ hstep ih =>
    rcases (rm_root _ _ name r hstep).2 with e | e | e
    · rw [e]
      exact ih
    · rw [e]
      exact AllDirs.modify _ well_named_same_labels
        (fun d hd => well_named_remove_dir name d hd)
        (fun d => by simp [search_and_remove_dir])
        (fun d => by simp [search_and_remove_dir]) _ _ ih
    · rw [e]
      exact AllDirs.modify _ well_named_same_labels
        (fun d hd => well_named_remove_file name _ (well_named_remove_dir name d hd))
        (fun d => by simp [search_and_remove_dir, search_and_remove_file])
        (fun d => by simp [search_and_remove_dir, search_and_remove_file]) _ _ ih

/-! ## `touch` on an existing file -/

/-- On a strictly ascending list that holds the file `f`, the loop of `touch` stops
at `f` and bumps its timestamp. -/
theorem touch_loop_present (l : List File_node) (f : File_node) (hf : f ∈ l)
    (hs : strictly_ascending (file_names l)) :
    ∃ l1 l2, l = l1 ++ f :: l2
      ∧ touch_loop f.name l
          = l1 ++ { name := f.name, timestamp := int_add f.timestamp 1 } :: l2 := by
  induction l with
  | nil => simp at hf
  | cons g gs ih =>
    have hs2 : (∀ x ∈ gs, strcmp g.name x.name < 0) ∧ strictly_ascending (file_names gs) := by
      simpa [strictly_ascending, file_names] using hs
    by_cases h0 : strcmp f.name g.name = 0
    · have hfg : f = g := by
        rcases List.mem_cons.mp hf with e | e
        · exact e
        · have hlt := hs2.1 f e
          rw [strcmp_swap, h0] at hlt
          exact absurd hlt (by decide)
      subst hfg
      exact ⟨[], gs, rfl, by simp [touch_loop, strcmp_self]⟩
    · have hmem : f ∈ gs := by
        rcases List.mem_cons.mp hf with e | e
        · rw [e, strcmp_self] at h0
          exact absurd rfl h0
        · exact e
      have hlt := hs2.1 f hmem
      have hge : strcmp f.name g.name ≥ 0 := by
        rw [strcmp_swap] at hlt
        omega
      rcases ih hmem hs2.2 with ⟨l1, l2, e1, e2⟩
      refine ⟨g :: l1, l2, by simp [e1], ?_⟩
      simp only [touch_loop]
      rw [if_pos hge, if_neg h0, e2]
      rfl

/-- One `touch` of "a" in the root that holds only the file "a". -/
theorem touch_touched (t : Int) :
    touch (touched t) (cstr "a") = some (1, touched (int_add t 1)) := rfl

/-- The file "a" can be touched up to the largest `int`. -/
theorem reachable_touched (n : Nat) (h : n + 1 ≤ 2147483647) :
    Reachable (touched ((n : Int) + 1)) := by
  induction n with
  | zero => exact Reachable.touch (cstr "a") 1 Reachable.mkfs rfl
  | succ n ih =>
    have hstep := touch_touched ((n : Int) + 1)
    rw [int_add_one _ (by unfold int_range; omega) (by omega)] at hstep
    have hr := Reachable.touch (cstr "a") 1 (ih (by omega)) hstep
    have e : ((n + 1 : Nat) : Int) + 1 = (n : Int) + 1 + 1 := by push_cast; ring
    rw [e]
    exact hr

/-- C2 as stated fails, in two ways.  After `touch` of "a" and `mkdir` of "a" on
the fresh handle the file "a" has timestamp 1, and a further `touch` of "a"
returns 1 with the timestamp still 1: the subdirectory "a" shadows the file.
And after 2147483647 calls of `touch` of "a" on the fresh handle the timestamp is
the largest `int`; one more `touch` makes it -2147483648. -/
theorem touch_existing_file_no_bump :
    (Reachable sample_file_and_dir_a
      ∧ sample_file_and_dir_a.cur = some sample_file_and_dir_a.root
      ∧ sample_file_and_dir_a.root.file_list = [{ name := cstr "a", timestamp := 1 }]
      ∧ touch sample_file_and_dir_a (cstr "a") = some (1, sample_file_and_dir_a))
    ∧ (Reachable (touched 2147483647)
      ∧ (touched 2147483647).cur = some (touched 2147483647).root
      ∧ (touched 2147483647).root.file_list = [{ name := cstr "a", timestamp := 2147483647 }]
      ∧ touch (touched 2147483647) (cstr "a") = some (1, touched (-2147483648))) :=
  ⟨⟨Reachable.mkdir (cstr "a") 1 (Reachable.touch (cstr "a") 1 Reachable.mkfs rfl) rfl,
      rfl, rfl, rfl⟩,
    ⟨reachable_touched 2147483646 (by decide), rfl, rfl, touch_touched 2147483647⟩⟩

/-- C2 (as amended): in every state reachable from `mkfs` by `touch`, `mkdir`, `cd`
and `rm`, with the cursor on a directory `d`, for every file `f` of `d` whose
name no subdirectory of `d` bears and whose timestamp is below the largest
`int`, `touch` with the name of `f` returns 1; the file list of `d` keeps its
length and its other entries, and in the place of `f` stands the file of the
same name with timestamp `f.timestamp + 1`.  Cursor and the rest of the tree are
as before. -/
theorem touch_bumps_timestamp (fs : FileSystem) (hreach : Reachable fs) (d : Dir_node)
    (hcur : fs.cur = some d) (f : File_node) (hf : f ∈ d.file_list)
    (hnosub : ¬ has_subdir d f.name) (hts : f.timestamp < 2147483647) :
    ∃ l1 l2 fs2, d.file_list = l1 ++ f :: l2
      ∧ touch fs f.name = some (1, fs2)
      ∧ fs2.cur_dir = fs.cur_dir
      ∧ fs2.cur = some (Dir_node.mk d.name d.path
          (l1 ++ { name := f.name, timestamp := f.timestamp + 1 } :: l2) d.subdir_list)
      ∧ (l1 ++ { name := f.name, timestamp := f.timestamp + 1 } :: l2).length
          = d.file_list.length
      ∧ fs2.root = Dir_node.modify (fun _ => Dir_node.mk d.name d.path
          (l1 ++ { name := f.name, timestamp := f.timestamp + 1 } :: l2) d.subdir_list)
          fs.root fs.cur_dir := by
  have hsorted : sorted_dir d := (reachable_sorted fs hreach).lookup fs.cur_dir d hcur
  have hwn : well_named d := (reachable_well_named fs hreach).lookup fs.cur_dir d hcur
  have hname : valid_name f.name := (hwn.1 f hf).1
  rcases touch_loop_present d.file_list f hf hsorted.1 with ⟨l1, l2, e1, e2⟩
  rw [int_add_one _ (hwn.1 f hf).2 hts] at e2
  have hfun : (fun c : Dir_node => c.set_file_list (touch_loop f.name c.file_list)) d
      = (fun _ => Dir_node.mk d.name d.path
          (l1 ++ { name := f.name, timestamp := f.timestamp + 1 } :: l2) d.subdir_list) d := by
    simp only [e2, Dir_node.set_file_list_eq]
  have hroot := Dir_node.modify_congr
    (fun c : Dir_node => c.set_file_list (touch_loop f.name c.file_list))
    (fun _ => Dir_node.mk d.name d.path
      (l1 ++ { name := f.name, timestamp := f.timestamp + 1 } :: l2) d.subdir_list)
    fs.root fs.cur_dir d hcur hfun
  refine ⟨l1, l2, fs.set_cur (fun c => c.set_file_list (touch_loop f.name c.file_list)),
    e1, ?_, rfl, ?_, ?_, hroot⟩
  · rw [touch_eq, if_pos ⟨hname.1, hname.2.1⟩, if_pos ⟨hname.2.2.1, hname.2.2.2⟩, hcur]
    simp only [if_neg hnosub]
  · unfold FileSystem.cur FileSystem.set_cur
    simp only
    rw [hroot]
    exact Dir_node.lookup_modify_self _ fs.root fs.cur_dir d hcur
  · rw [e1]
    simp

/-- C2 (as amended) at a concrete state: `mkfs`, `touch` of "a", `touch` of "a"
leaves the file "a" with timestamp 2. -/
theorem touch_bumps_timestamp_witness :
    Reachable (touched 1) ∧ (touched 1).cur = some (touched 1).root
      ∧ ({ name := cstr "a", timestamp := 1 } : File_node) ∈ (touched 1).root.file_list
      ∧ ¬ has_subdir (touched 1).root (cstr "a")
      ∧ ((1 : Int) < 2147483647)
      ∧ touch (touched 1) (cstr "a") = some (1, touched 2)
      ∧ ∃ l1 l2 fs2, (touched 1).root.file_list
            = l1 ++ ({ name := cstr "a", timestamp := 1 } : File_node) :: l2
        ∧ touch (touched 1) (cstr "a") = some (1, fs2)
        ∧ fs2.cur_dir = (touched 1).cur_dir
        ∧ fs2.cur = some (Dir_node.mk (touched 1).root.name (touched 1).root.path
            (l1 ++ { name := cstr "a", timestamp := 1 + 1 } :: l2)
            (touched 1).root.subdir_list)
        ∧ (l1 ++ ({ name := cstr "a", timestamp := 1 + 1 } : File_node) :: l2).length
            = (touched 1).root.file_list.length
        ∧ fs2.root = Dir_node.modify (fun _ => Dir_node.mk (touched 1).root.name
            (touched 1).root.path (l1 ++ { name := cstr "a", timestamp := 1 + 1 } :: l2)
            (touched 1).root.subdir_list) (touched 1).root (touched 1).cur_dir :=
  ⟨Reachable.touch (cstr "a") 1 Reachable.mkfs rfl, rfl, by decide, by decide, by decide, rfl,
    touch_bumps_timestamp (touched 1) (Reachable.touch (cstr "a") 1 Reachable.mkfs rfl)
      (touched 1).root rfl { name := cstr "a", timestamp := 1 } (by decide) (by decide)
      (by decide)⟩

/-! ## C11: stored paths -/

theorem same_labels_mem {l1 l2 : List Dir_node}
    (h : List.Forall₂ (fun a b : Dir_node => a.name = b.name ∧ a.path = b.path) l1 l2)
    (a : Dir_node) (ha : a ∈ l1) : ∃ b ∈ l2, a.name = b.name ∧ a.path = b.path := by
  induction h with
  | nil => simp at ha
  | cons hab _ ih =>
    rcases List.mem_cons.mp ha with e | e
    · exact ⟨_, by simp, e ▸ hab⟩
    · rcases ih e with ⟨b, hb, hr⟩
      exact ⟨b, by simp [hb], hr⟩

theorem path_linked_same_labels (d : Dir_node) (l : List Dir_node) (h : path_linked d)
    (hl : List.Forall₂ (fun a b : Dir_node => a.name = b.name ∧ a.path = b.path)
      l d.subdir_list) : path_linked (d.set_subdir_list l) := by
  unfold path_linked at h ⊢
  rw [Dir_node.subdir_list_set_subdir_list, Dir_node.path_set_subdir_list]
  intro c hc
  rcases same_labels_mem hl c hc with ⟨b, hb, hn, hp⟩
  rw [hn, hp]
  exact h b hb

theorem path_linked_touch (name : Str) (d : Dir_node) (h : AllDirs path_linked d) :
    AllDirs path_linked (d.set_file_list (touch_loop name d.file_list)) := by
  cases h with
  | intro _ here below =>
    refine AllDirs.intro _ ?_ ?_
    · unfold path_linked at here ⊢
      rw [Dir_node.subdir_list_set_file_list, Dir_node.path_set_file_list]
      exact here
    · intro c hc
      rw [Dir_node.subdir_list_set_file_list] at hc
      exact below c hc

theorem path_linked_mkdir (name : Str) (d : Dir_node) (h : AllDirs path_linked d) :
    AllDirs path_linked (d.set_subdir_list
      (mkdir_loop name (Dir_node.mk name (d.path ++ cstr "/" ++ name) [] []) d.subdir_list)) := by
  cases h with
  | intro _ here below =>
    refine AllDirs.intro _ ?_ ?_
    · unfold path_linked at here ⊢
      rw [Dir_node.subdir_list_set_subdir_list, Dir_node.path_set_subdir_list]
      intro c hc
      rcases mkdir_loop_mem name _ _ c hc with e | e
      · rw [e]
        rfl
      · exact here c e
    · intro c hc
      rw [Dir_node.subdir_list_set_subdir_list] at hc
      rcases mkdir_loop_mem name _ _ c hc with e | e
      · rw [e]
        refine AllDirs.intro _ ?_ ?_
        · intro b hb
          simp [Dir_node.subdir_list] at hb
        · intro b hb
          simp [Dir_node.subdir_list] at hb
      · exact below c e

theorem path_linked_remove_dir (name : Str) (d : Dir_node) (h : AllDirs path_linked d) :
    AllDirs path_linked (search_and_remove_dir d name).2 := by
  cases h with
  | intro _ here below =>
    unfold search_and_remove_dir
    refine AllDirs.intro _ ?_ ?_
    · unfold path_linked at here ⊢
      rw [Dir_node.subdir_list_set_subdir_list, Dir_node.path_set_subdir_list]
      exact fun c hc =>
        here c ((search_and_remove_dir_loop_sublist name d.subdir_list).subset hc)
    · intro c hc
      rw [Dir_node.subdir_list_set_subdir_list] at hc
      exact below c ((search_and_remove_dir_loop_sublist name d.subdir_list).subset hc)

theorem path_linked_remove_file (name : Str) (d : Dir_node) (h : AllDirs path_linked d) :
    AllDirs path_linked (search_and_remove_file d name).2 := by
  cases h with
  | intro _ here below =>
    unfold search_and_remove_file
    refine AllDirs.intro _ ?_ ?_
    · unfold path_linked at here ⊢
      rw [Dir_node.subdir_list_set_file_list, Dir_node.path_set_file_list]
      exact here
    · intro c hc
      rw [Dir_node.subdir_list_set_file_list] at hc
      exact below c hc

/-- In a reachable tree every directory is linked to its subdirectories by path. -/
theorem reachable_path_linked (fs : FileSystem) (h : Reachable fs) :
    AllDirs path_linked fs.root := by
  induction h with
  | mkfs =>
    refine AllDirs.intro _ ?_ ?_
    · intro b hb
      simp [mkfs, Dir_node.subdir_list] at hb
    · intro b hb
      simp [mkfs, Dir_node.subdir_list] at hb
  | touch name r _ hstep ih =>
    rcases (touch_root _ _ name r hstep).2 with e | ⟨_, e⟩
    · rw [e]
      exact ih
    · rw [e]
      exact AllDirs.modify _ path_linked_same_labels
        (fun d hd => path_linked_touch name d hd)
        (fun d => by simp) (fun d => by simp) _ _ ih
  | mkdir name r _ hstep ih =>
    rcases (mkdir_root _ _ name r hstep).2 with e | ⟨_, e⟩
    · rw [e]
      exact ih
    · rw [e]
      exact AllDirs.modify _ path_linked_same_labels
        (fun d hd => path_linked_mkdir name d hd)
        (fun d => by simp) (fun d => by simp) _ _ ih
  | cd name r _ hstep ih =>
    rw [cd_root _ _ name r hstep]
    exact ih
  | rm name r _ hstep ih =>
    rcases (rm_root _ _ name r hstep).2 with e | e | e
    · rw [e]
      exact ih
    · rw [e]
      exact AllDirs.modify _ path_linked_same_labels
        (fun d hd => path_linked_remove_dir name d hd)
        (fun d => by simp [search_and_remove_dir])
        (fun d => by simp [search_and_remove_dir]) _ _ ih
    · rw [e]
      exact AllDirs.modify _ path_linked_same_labels
        (fun d hd => path_linked_remove_file name _ (path_linked_remove_dir name d hd))
        (fun d => by simp [search_and_remove_dir, search_and_remove_file])
        (fun d => by simp [search_and_remove_dir, search_and_remove_file]) _ _ ih

/-- The stored path of the root of a reachable tree is the empty string. -/
theorem reachable_root_path (fs : FileSystem) (h : Reachable fs) : fs.root.path = cstr "" := by
  induction h with
  | mkfs => rfl
  | touch name r _ hstep ih =>
    rcases (touch_root _ _ name r hstep).2 with e | ⟨_, e⟩
    · rw [e]
      exact ih
    · rw [e, Dir_node.path_modify _ (fun d => by simp)]
      exact ih
  | mkdir name r _ hstep ih =>
    rcases (mkdir_root _ _ name r hstep).2 with e | ⟨_, e⟩
    · rw [e]
      exact ih
    · rw [e, Dir_node.path_modify _ (fun d => by simp)]
      exact ih
  | cd name r _ hstep ih =>
    rw [cd_root _ _ name r hstep]
    exact ih
  | rm name r _ hstep ih =>
    rcases (rm_root _ _ name r hstep).2 with e | e | e
    · rw [e]
      exact ih
    · rw [e, Dir_node.path_modify _ (fun d => by simp [search_and_remove_dir])]
      exact ih
    · rw [e, Dir_node.path_modify _
        (fun d => by simp [search_and_remove_dir, search_and_remove_file])]
      exact ih

/-- C11: in every state reachable from `mkfs` by `touch`, `mkdir`, `cd` and `rm`,
the stored path of the root is the empty string, and for every directory `c` of
the tree other than the root (the directory at a pointer `p ++ [i]`, its parent
`d` being the directory at `p`) the stored path of `c` is the stored path of
`d`, followed by "/" and the name of `c`. -/
theorem reachable_paths (fs : FileSystem) (h : Reachable fs) :
    fs.root.path = cstr ""
      ∧ ∀ (p : List Nat) (i : Nat) (d c : Dir_node), fs.root.lookup p = some d →
          fs.root.lookup (p ++ [i]) = some c → c.path = d.path ++ cstr "/" ++ c.name := by
  refine ⟨reachable_root_path fs h, ?_⟩
  intro p i d c hd hc
  have hl : path_linked d := (reachable_path_linked fs h).lookup p d hd
  rw [Dir_node.lookup_child fs.root p i d hd] at hc
  exact hl c (List.getElem?_mem hc)

/-- The sample with nested directories is what `mkdir` of "a", `cd` to "a" and
`mkdir` of "b" make of the fresh handle. -/
theorem reachable_sample_nested : Reachable sample_nested :=
  Reachable.mkdir (cstr "b") 1
    (Reachable.cd (cstr "a") 1 (Reachable.mkdir (cstr "a") 1 Reachable.mkfs rfl) rfl) rfl

/-- C11 at a concrete state: after `mkdir` of "a", `cd` to "a" and `mkdir` of "b"
the stored paths are "", "/a" and "/a/b". -/
theorem reachable_paths_witness :
    Reachable sample_nested
      ∧ (sample_nested.root.path = cstr ""
        ∧ ∀ (p : List Nat) (i : Nat) (d c : Dir_node), sample_nested.root.lookup p = some d →
            sample_nested.root.lookup (p ++ [i]) = some c →
            c.path = d.path ++ cstr "/" ++ c.name)
      ∧ cstr "/a/b" = cstr "/a" ++ cstr "/" ++ cstr "b" :=
  ⟨reachable_sample_nested, reachable_paths sample_nested reachable_sample_nested,
    (reachable_paths sample_nested reachable_sample_nested).2 [0] 0
      (Dir_node.mk (cstr "a") (cstr "/a") [] [Dir_node.mk (cstr "b") (cstr "/a/b") [] []])
      (Dir_node.mk (cstr "b") (cstr "/a/b") [] []) rfl rfl⟩

/-! ## Facts about `cd` -/

/-- What `cd` does, case by case. -/
theorem cd_eq (fs : FileSystem) (name : Str) :
    cd fs name =
      if name = [] then some ((0 : Int), fs)
      else if name = cstr "." then some (1, fs)
      else if name = cstr ".." then
        match fs.cur with
        | none => none
        | some _ => some (1, { fs with cur_dir := fs.cur_dir.dropLast })
      else if name = cstr "/" then some (1, { fs with cur_dir := [] })
      else if 47 ∈ name then some (0, fs)
      else
        match fs.cur with
        | none => none
        | some d =>
          match search_subdir d name with
          | some i => some (1, { fs with cur_dir := fs.cur_dir ++ [i] })
          | none => some (0, fs) := by
  unfold cd strlen
  by_cases h0 : name = []
  · simp [h0]
  · have hlen : name.length ≠ 0 := fun e => h0 (List.length_eq_zero.mp e)
    rw [if_pos hlen, if_neg h0]
    by_cases h1 : name = cstr "."
    · rw [if_pos (strcmp_eq_zero.mpr h1.symm), if_pos h1]
    · rw [if_neg (fun e => h1 (strcmp_eq_zero.mp e).symm), if_neg h1]
      by_cases h2 : name = cstr ".."
      · rw [if_pos (strcmp_eq_zero.mpr h2.symm), if_pos h2]
        cases fs.cur with
        | none => rfl
        | some d =>
          simp only
          by_cases h3 : fs.cur_dir = []
          · simp [h3]
            cases fs
            simp_all
          · simp [h3]
      · rw [if_neg (fun e => h2 (strcmp_eq_zero.mp e).symm), if_neg h2]
        by_cases h3 : name = cstr "/"
        · rw [if_pos (strcmp_eq_zero.mpr h3.symm), if_pos h3]
        · rw [if_neg (fun e => h3 (strcmp_eq_zero.mp e).symm), if_neg h3]
          by_cases h4 : 47 ∈ name
          · rw [if_neg (fun e => (strchr_eq_none.mp e) h4), if_pos h4]
          · rw [if_pos (strchr_eq_none.mpr h4), if_neg h4]

/-- The parent of a directory of the tree is a directory of the tree. -/
theorem Dir_node.lookup_dropLast (r : Dir_node) (p : List Nat) (d : Dir_node)
    (h : r.lookup p = some d) : ∃ e, r.lookup p.dropLast = some e := by
  by_cases hp : p = []
  · rw [hp]
    exact ⟨r, rfl⟩
  · rw [← List.dropLast_append_getLast hp, Dir_node.lookup_append] at h
    cases hq : r.lookup p.dropLast with
    | none => simp [hq] at h
    | some e => exact ⟨e, rfl⟩

/-- The cursor of a reachable handle points to a directory of the tree. -/
theorem reachable_cursor (fs : FileSystem) (h : Reachable fs) : ∃ d, fs.cur = some d := by
  induction h with
  | mkfs => exact ⟨_, rfl⟩
  | @touch fs fs2 name r _ hstep ih =>
    rcases ih with ⟨d, hd⟩
    rcases touch_root _ _ name r hstep with ⟨hc, e | ⟨_, e⟩⟩
    · exact ⟨d, by unfold FileSystem.cur at hd ⊢; rw [hc, e]; exact hd⟩
    · exact ⟨_, by unfold FileSystem.cur at hd ⊢; rw [hc, e]
                   exact Dir_node.lookup_modify_self _ _ _ d hd⟩
  | @mkdir fs fs2 name r _ hstep ih =>
    rcases ih with ⟨d, hd⟩
    rcases mkdir_root _ _ name r hstep with ⟨hc, e | ⟨_, e⟩⟩
    · exact ⟨d, by unfold FileSystem.cur at hd ⊢; rw [hc, e]; exact hd⟩
    · exact ⟨_, by unfold FileSystem.cur at hd ⊢; rw [hc, e]
                   exact Dir_node.lookup_modify_self _ _ _ d hd⟩
  | @cd fs fs2 name r _ hstep ih =>
    rcases ih with ⟨d, hd⟩
    rw [cd_eq, hd] at hstep
    simp only at hstep
    split at hstep
    · simp only [Option.some.injEq, Prod.mk.injEq] at hstep
      exact ⟨d, hstep.2 ▸ hd⟩
    · split at hstep
      · simp only [Option.some.injEq, Prod.mk.injEq] at hstep
        exact ⟨d, hstep.2 ▸ hd⟩
      · split at hstep
        · simp only [Option.some.injEq, Prod.mk.injEq] at hstep
          rw [← hstep.2]
          exact Dir_node.lookup_dropLast fs.root fs.cur_dir d hd
        · split at hstep
          · simp only [Option.some.injEq, Prod.mk.injEq] at hstep
            rw [← hstep.2]
            exact ⟨fs.root, rfl⟩
          · split at hstep
            · simp only [Option.some.injEq, Prod.mk.injEq] at hstep
              exact ⟨d, hstep.2 ▸ hd⟩
            · cases hs : search_subdir d name with
              | none =>
                simp only [hs, Option.some.injEq, Prod.mk.injEq] at hstep
                exact ⟨d, hstep.2 ▸ hd⟩
              | some i =>
                simp only [hs, Option.some.injEq, Prod.mk.injEq] at hstep
                rcases search_subdir_loop_some hs with ⟨c, hc, _, _⟩
                rw [← hstep.2]
                exact ⟨c, (Dir_node.lookup_child fs.root fs.cur_dir i d hd).trans hc⟩
  | @rm fs fs2 name r _ hstep ih =>
    rcases ih with ⟨d, hd⟩
    rcases rm_root _ _ name r hstep with ⟨hc, e | e | e⟩
    · exact ⟨d, by unfold FileSystem.cur at hd ⊢; rw [hc, e]; exact hd⟩
    · exact ⟨_, by unfold FileSystem.cur at hd ⊢; rw [hc, e]
                   exact Dir_node.lookup_modify_self _ _ _ d hd⟩
    · exact ⟨_, by unfold FileSystem.cur at hd ⊢; rw [hc, e]
                   exact Dir_node.lookup_modify_self _ _ _ d hd⟩

/-- C16: in a handle whose cursor points to a directory `d`, for every name other
than ".", ".." and "/", `cd` returns; the result is 0 exactly when the name is
empty, contains '/', or is the name of no subdirectory of `d`, and then the
handle is left exactly as it was; otherwise the result is 1, the tree is as it
was, and the cursor points to the first subdirectory of `d` with that name
(the child of the old cursor directory at position `i`). -/
theorem cd_into_subdir (fs : FileSystem) (d : Dir_node) (name : Str)
    (hcur : fs.cur = some d) (h1 : name ≠ cstr ".") (h2 : name ≠ cstr "..")
    (h3 : name ≠ cstr "/") :
    ∃ r fs2, cd fs name = some (r, fs2)
      ∧ (r = 0 ↔ (name = [] ∨ 47 ∈ name ∨ ¬ has_subdir d name))
      ∧ (r = 0 → fs2 = fs)
      ∧ (r ≠ 0 → r = 1 ∧ fs2.root = fs.root
          ∧ ∃ i c, fs2.cur_dir = fs.cur_dir ++ [i] ∧ d.subdir_list[i]? = some c
            ∧ c.name = name ∧ fs2.cur = some c
            ∧ ∀ j b, j < i → d.subdir_list[j]? = some b → b.name ≠ name) := by
  rw [cd_eq, hcur]
  by_cases h0 : name = []
  · rw [if_pos h0]
    exact ⟨0, fs, rfl, by simp [h0], fun _ => rfl, fun h => absurd rfl h⟩
  · rw [if_neg h0, if_neg h1, if_neg h2, if_neg h3]
    by_cases h4 : 47 ∈ name
    · rw [if_pos h4]
      exact ⟨0, fs, rfl, by simp [h4], fun _ => rfl, fun h => absurd rfl h⟩
    · rw [if_neg h4]
      simp only
      cases hs : search_subdir d name with
      | none =>
        have hn : ¬ has_subdir d name := search_subdir_eq_none.mp hs
        exact ⟨0, fs, rfl, by simp [hn], fun _ => rfl, fun h => absurd rfl h⟩
      | some i =>
        have hsub : has_subdir d name := by
          by_contra hn
          rw [search_subdir_eq_none.mpr hn] at hs
          exact absurd hs (by simp)
        rcases search_subdir_loop_some hs with ⟨c, hc, hcn, hmin⟩
        refine ⟨1, { fs with cur_dir := fs.cur_dir ++ [i] }, rfl, ?_, ?_, ?_⟩
        · simp [h0, h4, hsub]
        · intro h
          exact absurd h (by decide)
        · intro _
          refine ⟨rfl, rfl, i, c, rfl, hc, hcn, ?_, fun j b hj hb => hmin j hj b hb⟩
          exact (Dir_node.lookup_child fs.root fs.cur_dir i d hcur).trans hc

/-- C16 at concrete handles: from the root that holds "d", `cd` to "d" moves the
cursor there and `cd` to "e" fails. -/
theorem cd_into_subdir_witness :
    sample_subdir.cur = some sample_subdir.root
      ∧ cd sample_subdir (cstr "d") = some (1, { sample_subdir with cur_dir := [0] })
      ∧ cd sample_subdir (cstr "e") = some (0, sample_subdir)
      ∧ ∃ r fs2, cd sample_subdir (cstr "d") = some (r, fs2)
        ∧ (r = 0 ↔ (cstr "d" = [] ∨ 47 ∈ cstr "d" ∨ ¬ has_subdir sample_subdir.root (cstr "d")))
        ∧ (r = 0 → fs2 = sample_subdir)
        ∧ (r ≠ 0 → r = 1 ∧ fs2.root = sample_subdir.root
            ∧ ∃ i c, fs2.cur_dir = sample_subdir.cur_dir ++ [i]
              ∧ sample_subdir.root.subdir_list[i]? = some c
              ∧ c.name = cstr "d" ∧ fs2.cur = some c
              ∧ ∀ j b, j < i → sample_subdir.root.subdir_list[j]? = some b →
                  b.name ≠ cstr "d") :=
  ⟨rfl, rfl, rfl,
    cd_into_subdir sample_subdir sample_subdir.root (cstr "d") rfl (by decide) (by decide)
      (by decide)⟩

/-- C17: in a handle whose cursor points to a directory `d`, `cd` with a sentinel
name returns 1 and leaves the tree as it is: "." leaves the cursor where it is;
"/" sets it to the root; ".." leaves it on the root when it is there, and
otherwise, the cursor being `p ++ [i]`, moves it to `p`, the pointer to the
directory that holds `d` as its subdirectory at position `i`. -/
theorem cd_sentinel (fs : FileSystem) (d : Dir_node) (hcur : fs.cur = some d) :
    cd fs (cstr ".") = some (1, fs)
      ∧ cd fs (cstr "/") = some (1, { root := fs.root, cur_dir := [] })
      ∧ (fs.cur_dir = [] → cd fs (cstr "..") = some (1, fs))
      ∧ (∀ p i, fs.cur_dir = p ++ [i] →
          cd fs (cstr "..") = some (1, { root := fs.root, cur_dir := p })
            ∧ ∃ e, fs.root.lookup p = some e ∧ e.subdir_list[i]? = some d) := by
  refine ⟨by rw [cd_eq]; rfl, by rw [cd_eq]; rfl, ?_, ?_⟩
  · intro h
    cases fs with
    | mk root cur_dir =>
      simp only at h
      subst h
      rw [cd_eq, hcur]
      rfl
  · intro p i h
    constructor
    · cases fs with
      | mk root cur_dir =>
        simp only at h
        subst h
        rw [cd_eq, hcur]
        simp only [List.dropLast_concat]
        rfl
    · unfold FileSystem.cur at hcur
      rw [h, Dir_node.lookup_append] at hcur
      cases hq : fs.root.lookup p with
      | none => simp [hq] at hcur
      | some e =>
        refine ⟨e, rfl, ?_⟩
        rw [hq] at hcur
        simp only [Option.some_bind, Dir_node.lookup] at hcur
        cases hi : e.subdir_list[i]? with
        | none => simp [hi] at hcur
        | some c =>
          simp only [hi, Option.some.injEq] at hcur
          rw [hcur]

/-- C17 at concrete handles: the three sentinels from the directory "a" below the
root, and ".." from the root. -/
theorem cd_sentinel_witness :
    sample_nested.cur
        = some (Dir_node.mk (cstr "a") (cstr "/a") [] [Dir_node.mk (cstr "b") (cstr "/a/b") [] []])
      ∧ mkfs.cur = some mkfs.root
      ∧ cd mkfs (cstr "..") = some (1, mkfs)
      ∧ cd sample_nested (cstr ".") = some (1, sample_nested)
      ∧ cd sample_nested (cstr "/") = some (1, { root := sample_nested.root, cur_dir := [] })
      ∧ cd sample_nested (cstr "..") = some (1, { root := sample_nested.root, cur_dir := [] }) :=
  ⟨rfl, rfl, (cd_sentinel mkfs mkfs.root rfl).2.2.1 rfl,
    (cd_sentinel sample_nested _ rfl).1, (cd_sentinel sample_nested _ rfl).2.1,
    ((cd_sentinel sample_nested _ rfl).2.2.2 [] 0 rfl).1⟩

/-! ## Facts about the listing -/

theorem insert_name_loop_perm (name new_name : Str) (l : List Str) :
    (insert_name_loop name new_name l).Perm (new_name :: l) := by
  induction l with
  | nil => exact List.Perm.refl _
  | cons c cs ih =>
    simp only [insert_name_loop]
    split
    · exact (List.Perm.cons c ih).trans (List.Perm.swap new_name c cs)
    · exact List.Perm.refl _

theorem insert_name_perm (head : List Str) (name : Str) (is_dir : Int) :
    (insert_name head name is_dir).Perm
      ((if is_dir ≠ 0 then name ++ cstr "/" else name) :: head) := by
  unfold insert_name
  split
  · rename_i h
    rw [h]
  · exact insert_name_loop_perm _ _ _

theorem foldl_insert_files_perm (l : List File_node) (init : List Str) :
    (l.foldl (fun name_list f => insert_name name_list f.name 0) init).Perm
      (init ++ file_names l) := by
  induction l generalizing init with
  | nil => simp [file_names]
  | cons f fs ih =>
    simp only [List.foldl_cons, file_names, List.map_cons]
    refine (ih _).trans ?_
    have h := insert_name_perm init f.name 0
    simp only [ne_eq, not_true_eq_false, if_false] at h
    refine (List.Perm.append_right _ h).trans ?_
    simp only [file_names, List.cons_append]
    exact List.perm_middle.symm

theorem foldl_insert_dirs_perm (l : List Dir_node) (init : List Str) :
    (l.foldl (fun name_list c => insert_name name_list c.name 1) init).Perm
      (init ++ (dir_names l).map (fun n => n ++ cstr "/")) := by
  induction l generalizing init with
  | nil => simp [dir_names]
  | cons c cs ih =>
    simp only [List.foldl_cons, dir_names, List.map_cons]
    refine (ih _).trans ?_
    have h := insert_name_perm init c.name 1
    simp only [ne_eq, one_ne_zero, not_false_eq_true, if_true] at h
    refine (List.Perm.append_right _ h).trans ?_
    simp only [dir_names, List.cons_append]
    exact List.perm_middle.symm

/-- What `ls` does with the empty name and with ".". -/
theorem ls_here (fs : FileSystem) (d : Dir_node) (hcur : fs.cur = some d) :
    ls fs (cstr "") = some (1, print_whole_dir d, fs)
      ∧ ls fs (cstr ".") = some (1, print_whole_dir d, fs) := by
  constructor
  · unfold ls
    rw [hcur]
    rfl
  · unfold ls
    rw [hcur]
    rfl

/-- C14: the lines printed for a directory are, up to order, the names of its
files together with the names of its subdirectories each followed by one "/";
there are as many lines as files and subdirectories; and for a directory without
files and subdirectories nothing is printed, while `ls` of the cursor directory
(`ls` with the empty name, the cursor being on that directory) still returns 1. -/
theorem listing_is_permutation (dir : Dir_node) :
    (print_whole_dir dir).Perm
        (file_names dir.file_list ++ (dir_names dir.subdir_list).map (fun n => n ++ cstr "/"))
      ∧ (print_whole_dir dir).length = dir.file_list.length + dir.subdir_list.length
      ∧ (dir.file_list = [] → dir.subdir_list = [] → print_whole_dir dir = []
          ∧ ∀ fs : FileSystem, fs.cur = some dir → ls fs (cstr "") = some (1, [], fs)) := by
  have hperm : (print_whole_dir dir).Perm
      (file_names dir.file_list ++ (dir_names dir.subdir_list).map (fun n => n ++ cstr "/")) := by
    unfold print_whole_dir
    refine (foldl_insert_dirs_perm _ _).trans ?_
    exact List.Perm.append_right _ ((foldl_insert_files_perm _ []).trans (by simp))
  refine ⟨hperm, ?_, ?_⟩
  · rw [hperm.length_eq]
    simp [file_names, dir_names]
  · intro hf hs
    have he : print_whole_dir dir = [] := by
      unfold print_whole_dir
      rw [hf, hs]
      rfl
    refine ⟨he, ?_⟩
    intro fs hcur
    rw [(ls_here fs dir hcur).1, he]

/-- C14 at concrete directories: the root with the subdirectories "a", "c" and the
file "b" is listed as "a/", "b", "c/"; the fresh root is listed as nothing. -/
theorem listing_is_permutation_witness :
    print_whole_dir sample_dirs.root = [cstr "a/", cstr "b", cstr "c/"]
      ∧ ([cstr "a/", cstr "b", cstr "c/"] : List Str).Perm
          (file_names sample_dirs.root.file_list
            ++ (dir_names sample_dirs.root.subdir_list).map (fun n => n ++ cstr "/"))
      ∧ (print_whole_dir sample_dirs.root).length = 1 + 2
      ∧ print_whole_dir mkfs.root = []
      ∧ ls mkfs (cstr "") = some (1, [], mkfs) :=
  ⟨rfl, (listing_is_permutation sample_dirs.root).1, (listing_is_permutation sample_dirs.root).2.1,
    ((listing_is_permutation mkfs.root).2.2 rfl rfl).1,
    ((listing_is_permutation mkfs.root).2.2 rfl rfl).2 mkfs rfl⟩

theorem search_file_loop_some {name : Str} {l : List File_node} {i : Nat}
    (h : search_file_loop name l = some i) :
    ∃ f, l[i]? = some f ∧ f.name = name ∧ ∀ j, j < i → ∀ b, l[j]? = some b → b.name ≠ name := by
  induction l generalizing i with
  | nil => simp [search_file_loop] at h
  | cons c cs ih =>
    simp only [search_file_loop] at h
    by_cases hc : strcmp c.name name = 0
    · simp only [hc, if_true, Option.some.injEq] at h
      subst h
      exact ⟨c, by simp, strcmp_eq_zero.mp hc, by intro j hj; omega⟩
    · simp only [hc, if_false, Option.map_eq_some'] at h
      rcases h with ⟨k, hk, rfl⟩
      rcases ih hk with ⟨b, hb, hbn, hmin⟩
      refine ⟨b, by simpa using hb, hbn, ?_⟩
      intro j hj a ha
      cases j with
      | zero =>
        simp at ha
        rw [← ha]
        exact strcmp_ne_zero.mp hc
      | succ j =>
        simp at ha
        exact hmin j (by omega) a ha

theorem search_file_eq_none {d : Dir_node} {name : Str} :
    search_file d name = none ↔ ¬ has_file d name := by
  unfold search_file has_file
  rw [search_file_loop_eq_none]
  simp

/-- What `ls` does with a name that is not empty and not a sentinel. -/
theorem ls_eq_other (fs : FileSystem) (name : Str) (h0 : name ≠ []) (h1 : name ≠ cstr ".")
    (h2 : name ≠ cstr "..") (h3 : name ≠ cstr "/") :
    ls fs name =
      if 47 ∈ name then some ((0 : Int), ([] : List Str), fs)
      else
        match fs.cur with
        | none => none
        | some d =>
          match search_subdir d name with
          | some i =>
            match d.subdir_list[i]? with
            | none => none
            | some dir => some (1, print_whole_dir dir, fs)
          | none =>
            match search_file d name with
            | some j =>
              match d.file_list[j]? with
              | none => none
              | some file => some (1, [file.name ++ cstr " " ++ print_int file.timestamp], fs)
            | none => some (0, [], fs) := by
  unfold ls strlen
  have hlen : name.length ≠ 0 := fun e => h0 (List.length_eq_zero.mp e)
  have hc1 : ¬ (strcmp (cstr ".") name = 0 ∨ name.length = 0) := by
    rintro (e | e)
    · exact h1 (strcmp_eq_zero.mp e).symm
    · exact hlen e
  rw [if_neg hc1, if_neg (fun e => h2 (strcmp_eq_zero.mp e).symm),
    if_neg (fun e => h3 (strcmp_eq_zero.mp e).symm)]
  by_cases h4 : 47 ∈ name
  · rw [if_neg (fun e => (strchr_eq_none.mp e) h4), if_pos h4]
  · rw [if_pos (strchr_eq_none.mpr h4), if_neg h4]

/-- C15: in a handle whose cursor points to a directory `d`, for every non-empty
name other than ".", ".." and "/", `ls` leaves the handle as it is, and: if the
name contains '/', it returns 0 and prints nothing; otherwise, if `d` has a
subdirectory of that name, it returns 1 and prints the listing of the first such
subdirectory (whether or not a file bears the name); otherwise, if `d` has a file
of that name, it returns 1 and prints one line, the name of that file, a blank
and its timestamp; otherwise it returns 0 and prints nothing. -/
theorem ls_of_name (fs : FileSystem) (d : Dir_node) (name : Str) (hcur : fs.cur = some d)
    (h0 : name ≠ []) (h1 : name ≠ cstr ".") (h2 : name ≠ cstr "..") (h3 : name ≠ cstr "/") :
    (47 ∈ name → ls fs name = some (0, [], fs))
      ∧ (47 ∉ name → has_subdir d name →
          ∃ (i : Nat) (c : Dir_node), d.subdir_list[i]? = some c ∧ c.name = name
            ∧ (∀ (j : Nat) (b : Dir_node), j < i → d.subdir_list[j]? = some b → b.name ≠ name)
            ∧ ls fs name = some (1, print_whole_dir c, fs))
      ∧ (47 ∉ name → ¬ has_subdir d name → has_file d name →
          ∃ (j : Nat) (f : File_node), d.file_list[j]? = some f ∧ f.name = name
            ∧ (∀ (k : Nat) (b : File_node), k < j → d.file_list[k]? = some b → b.name ≠ name)
            ∧ ls fs name = some (1, [f.name ++ cstr " " ++ print_int f.timestamp], fs))
      ∧ (47 ∉ name → ¬ has_subdir d name → ¬ has_file d name →
          ls fs name = some (0, [], fs)) := by
  rw [ls_eq_other fs name h0 h1 h2 h3, hcur]
  refine ⟨fun h => by rw [if_pos h], ?_, ?_, ?_⟩
  · intro h4 hsub
    rw [if_neg h4]
    simp only
    cases hs : search_subdir d name with
    | none => exact absurd hsub (search_subdir_eq_none.mp hs)
    | some i =>
      rcases search_subdir_loop_some hs with ⟨c, hc, hcn, hmin⟩
      refine ⟨i, c, hc, hcn, fun j b hj hb => hmin j hj b hb, ?_⟩
      simp only [hc]
  · intro h4 hsub hfile
    rw [if_neg h4]
    simp only
    rw [search_subdir_eq_none.mpr hsub]
    simp only
    cases hs : search_file d name with
    | none => exact absurd hfile (search_file_eq_none.mp hs)
    | some j =>
      rcases search_file_loop_some hs with ⟨f, hf, hfn, hmin⟩
      refine ⟨j, f, hf, hfn, fun k b hk hb => hmin k hk b hb, ?_⟩
      simp only [hf]
  · intro h4 hsub hfile
    rw [if_neg h4]
    simp only
    rw [search_subdir_eq_none.mpr hsub]
    simp only
    rw [search_file_eq_none.mpr hfile]

/-- C15 at concrete handles: in the root that holds the file "a" (touched once) and
the subdirectory "a", `ls` of "a" lists the subdirectory; in the root that holds
only the file "a" with timestamp 12, `ls` of "a" prints "a 12"; `ls` of "a/b"
and of an absent name fail. -/
theorem ls_of_name_witness :
    sample_file_and_dir_a.cur = some sample_file_and_dir_a.root
      ∧ (touched 12).cur = some (touched 12).root
      ∧ ls sample_file_and_dir_a (cstr "a") = some (1, [], sample_file_and_dir_a)
      ∧ ls (touched 12) (cstr "a") = some (1, [cstr "a 12"], touched 12)
      ∧ ls (touched 12) (cstr "a/b") = some (0, [], touched 12)
      ∧ ls (touched 12) (cstr "b") = some (0, [], touched 12) :=
  ⟨rfl, rfl, rfl, rfl,
    (ls_of_name (touched 12) (touched 12).root (cstr "a/b") rfl (by decide) (by decide)
      (by decide) (by decide)).1 (by decide),
    (ls_of_name (touched 12) (touched 12).root (cstr "b") rfl (by decide) (by decide)
      (by decide) (by decide)).2.2.2 (by decide) (by decide) (by decide)⟩

/-- C12: the code at the failing input.  After `mkdir` of "a" and `mkdir` of "a.b"
on the fresh handle, `ls` of the cursor directory prints "a.b/" before "a/",
although "a" is below "a.b": `insert_name` compares the name it inserts with the
stored texts, which for subdirectories end in "/".  Nor are the lines in the
order of the printed texts: after `touch` of "a!" and `mkdir` of "a", "a/" is
printed before "a!", which is below it. -/
theorem listing_out_of_order :
    (Reachable sample_dot_dirs
      ∧ ls sample_dot_dirs (cstr "") = some (1, [cstr "a.b/", cstr "a/"], sample_dot_dirs)
      ∧ strcmp (cstr "a") (cstr "a.b") < 0)
    ∧ (Reachable sample_bang
      ∧ ls sample_bang (cstr "") = some (1, [cstr "a/", cstr "a!"], sample_bang)
      ∧ strcmp (cstr "a!") (cstr "a/") < 0) :=
  ⟨⟨Reachable.mkdir (cstr "a.b") 1 (Reachable.mkdir (cstr "a") 1 Reachable.mkfs rfl) rfl,
      rfl, by decide⟩,
    ⟨Reachable.mkdir (cstr "a") 1 (Reachable.touch (cstr "a!") 1 Reachable.mkfs rfl) rfl,
      rfl, by decide⟩⟩

/-! ## C13: two files, either order -/

/-- In a root without subdirectories `touch` with a valid name runs its loop on the
file list of the root. -/
theorem touch_root_with_files (l : List File_node) (name : Str) (hname : valid_name name) :
    touch (root_with_files l) name = some (1, root_with_files (touch_loop name l)) := by
  rw [touch_eq, if_pos ⟨hname.1, hname.2.1⟩, if_pos ⟨hname.2.2.1, hname.2.2.2⟩]
  have hcur : (root_with_files l).cur = some (Dir_node.mk (cstr "root") (cstr "") l []) := rfl
  rw [hcur]
  have hno : ¬ has_subdir (Dir_node.mk (cstr "root") (cstr "") l []) name := by
    simp [has_subdir, Dir_node.subdir_list]
  simp only [if_neg hno]
  rfl

/-- The loop of `touch` on one file with another name. -/
theorem touch_loop_pair (n1 n2 : Str) (hne : n1 ≠ n2) :
    touch_loop n2 [{ name := n1, timestamp := 1 }]
      = if strcmp n1 n2 < 0 then
          [{ name := n1, timestamp := 1 }, { name := n2, timestamp := 1 }]
        else [{ name := n2, timestamp := 1 }, { name := n1, timestamp := 1 }] := by
  have h0 : strcmp n2 n1 ≠ 0 := strcmp_ne_zero.mpr (fun e => hne e.symm)
  have hsw := strcmp_swap n1 n2
  simp only [touch_loop]
  by_cases hlt : strcmp n1 n2 < 0
  · rw [if_pos hlt, if_pos (by omega), if_neg h0]
  · rw [if_neg hlt, if_neg (by omega)]

/-- The listing of a root that holds two files in ascending order. -/
theorem listing_pair (a b : Str) (t u : Int) (hab : strcmp a b < 0) :
    print_whole_dir (Dir_node.mk (cstr "root") (cstr "")
      [{ name := a, timestamp := t }, { name := b, timestamp := u }] []) = [a, b] := by
  have hsw := strcmp_swap a b
  have hge : strcmp b a ≥ 0 := by omega
  simp [print_whole_dir, Dir_node.file_list, Dir_node.subdir_list, insert_name,
    insert_name_loop, hge]

/-- C13: for two distinct valid names `n1` and `n2`, on the fresh handle `touch` of
`n1` then `n2`, and `touch` of `n2` then `n1`, each return 1 twice, and after
either `ls` with the empty name returns 1 and prints the same two lines: the
smaller name, then the larger. -/
theorem touch_two_files_listing (n1 n2 : Str) (h1 : valid_name n1) (h2 : valid_name n2)
    (hne : n1 ≠ n2) :
    ∃ s1 s2 t1 t2, touch mkfs n1 = some (1, s1) ∧ touch s1 n2 = some (1, s2)
      ∧ touch mkfs n2 = some (1, t1) ∧ touch t1 n1 = some (1, t2)
      ∧ ls s2 (cstr "") = some (1, if strcmp n1 n2 < 0 then [n1, n2] else [n2, n1], s2)
      ∧ ls t2 (cstr "") = some (1, if strcmp n1 n2 < 0 then [n1, n2] else [n2, n1], t2) := by
  have hm : mkfs = root_with_files [] := rfl
  have ha := touch_root_with_files [] n1 h1
  have hb := touch_root_with_files [{ name := n1, timestamp := 1 }] n2 h2
  have hc := touch_root_with_files [] n2 h2
  have hd := touch_root_with_files [{ name := n2, timestamp := 1 }] n1 h1
  rw [touch_loop_pair n1 n2 hne] at hb
  rw [touch_loop_pair n2 n1 (fun e => hne e.symm)] at hd
  have hsw := strcmp_swap n1 n2
  have h0 : strcmp n1 n2 ≠ 0 := strcmp_ne_zero.mpr hne
  refine ⟨_, _, _, _, by rw [hm]; exact ha, hb, by rw [hm]; exact hc, hd, ?_, ?_⟩
  · by_cases hlt : strcmp n1 n2 < 0
    · simp only [if_pos hlt]
      have hl := ls_here (root_with_files
        [{ name := n1, timestamp := 1 }, { name := n2, timestamp := 1 }]) _ rfl
      rw [hl.1]
      unfold root_with_files
      rw [listing_pair n1 n2 1 1 hlt]
    · simp only [if_neg hlt]
      have hl := ls_here (root_with_files
        [{ name := n2, timestamp := 1 }, { name := n1, timestamp := 1 }]) _ rfl
      rw [hl.1]
      unfold root_with_files
      rw [listing_pair n2 n1 1 1 (by omega)]
  · by_cases hlt : strcmp n1 n2 < 0
    · have hgt : ¬ strcmp n2 n1 < 0 := by omega
      simp only [if_pos hlt, if_neg hgt]
      have hl := ls_here (root_with_files
        [{ name := n1, timestamp := 1 }, { name := n2, timestamp := 1 }]) _ rfl
      rw [hl.1]
      unfold root_with_files
      rw [listing_pair n1 n2 1 1 hlt]
    · have hgt : strcmp n2 n1 < 0 := by omega
      simp only [if_neg hlt, if_pos hgt]
      have hl := ls_here (root_with_files
        [{ name := n2, timestamp := 1 }, { name := n1, timestamp := 1 }]) _ rfl
      rw [hl.1]
      unfold root_with_files
      rw [listing_pair n2 n1 1 1 hgt]

/-- C13 at concrete names: "b" then "a", and "a" then "b", are both listed as "a",
"b". -/
theorem touch_two_files_listing_witness :
    valid_name (cstr "b") ∧ valid_name (cstr "a") ∧ cstr "b" ≠ cstr "a"
      ∧ ∃ s1 s2 t1 t2, touch mkfs (cstr "b") = some (1, s1) ∧ touch s1 (cstr "a") = some (1, s2)
        ∧ touch mkfs (cstr "a") = some (1, t1) ∧ touch t1 (cstr "b") = some (1, t2)
        ∧ ls s2 (cstr "") = some (1, [cstr "a", cstr "b"], s2)
        ∧ ls t2 (cstr "") = some (1, [cstr "a", cstr "b"], t2) :=
  ⟨by decide, by decide, by decide,
    touch_two_files_listing (cstr "b") (cstr "a") (by decide) (by decide) (by decide)⟩

/-! ## C18: the working directory -/

theorem chain_names_length (r : Dir_node) (p : List Nat) (d : Dir_node)
    (h : r.lookup p = some d) : (chain_names r p).length = p.length := by
  induction p generalizing r with
  | nil => rfl
  | cons i p ih =>
    simp only [Dir_node.lookup] at h
    cases hc : r.subdir_list[i]? with
    | none => simp [hc] at h
    | some c =>
      simp only [hc] at h
      simp only [chain_names, hc, List.length_cons]
      rw [ih c h]

/-- In a tree whose directories are linked by path, the stored path of a directory
is the stored path of the root followed by the names on the chain to it. -/
theorem path_of_chain (r : Dir_node) (hr : AllDirs path_linked r) (p : List Nat)
    (d : Dir_node) (h : r.lookup p = some d) :
    d.path = r.path ++ path_text (chain_names r p) := by
  induction p generalizing r with
  | nil =>
    simp only [Dir_node.lookup, Option.some.injEq] at h
    rw [← h]
    simp [chain_names, path_text]
  | cons i p ih =>
    simp only [Dir_node.lookup] at h
    cases hc : r.subdir_list[i]? with
    | none => simp [hc] at h
    | some c =>
      simp only [hc] at h
      cases hr with
      | intro _ here below =>
        have hmem : c ∈ r.subdir_list := List.getElem?_mem hc
        rw [ih c (below c hmem) h, here c hmem]
        simp only [chain_names, hc, path_text, List.append_assoc]

/-- C18: in every state reachable from `mkfs` by `touch`, `mkdir`, `cd` and `rm`,
`pwd` prints one line; the line is "/" exactly when the cursor is the root; and
when the cursor is not the root the line is "/" and a name, repeated for the
names of the directories on the chain from the child of the root down to the
cursor directory (one name for each step of the cursor). -/
theorem pwd_prints_chain (fs : FileSystem) (h : Reachable fs) :
    ∃ out, pwd fs = some [out]
      ∧ (out = cstr "/" ↔ fs.cur_dir = [])
      ∧ (fs.cur_dir ≠ [] → out = path_text (chain_names fs.root fs.cur_dir))
      ∧ (chain_names fs.root fs.cur_dir).length = fs.cur_dir.length := by
  rcases reachable_cursor fs h with ⟨d, hd⟩
  have hpath : d.path = path_text (chain_names fs.root fs.cur_dir) := by
    have := path_of_chain fs.root (reachable_path_linked fs h) fs.cur_dir d hd
    rw [reachable_root_path fs h] at this
    simpa [cstr_empty] using this
  have hlen := chain_names_length fs.root fs.cur_dir d hd
  unfold pwd
  rw [hd]
  simp only
  cases hp : fs.cur_dir with
  | nil =>
    rw [hp] at hpath
    have he : strcmp d.path (cstr "") = 0 := by
      rw [hpath]
      rfl
    rw [if_pos he]
    exact ⟨cstr "/", rfl, by simp, fun hne => absurd rfl hne, by simp [chain_names]⟩
  | cons i p =>
    rw [hp] at hpath hlen
    unfold FileSystem.cur at hd
    rw [hp] at hd
    simp only [Dir_node.lookup] at hd
    cases hc : fs.root.subdir_list[i]? with
    | none => simp [hc] at hd
    | some c =>
      have hvalid : valid_name c.name :=
        ((reachable_well_named fs h).lookup [] fs.root rfl).2 c (List.getElem?_mem hc)
      have hcne : c.name ≠ [] := hvalid.1
      have hlong : 2 ≤ d.path.length := by
        rw [hpath]
        simp only [chain_names, hc, path_text, List.length_append, cstr_slash,
          List.length_singleton]
        have : 0 < c.name.length := List.length_pos.mpr hcne
        omega
      have hne : ¬ strcmp d.path (cstr "") = 0 := by
        rw [strcmp_eq_zero, cstr_empty]
        intro e
        rw [e] at hlong
        simp at hlong
      rw [if_neg hne]
      refine ⟨d.path, rfl, ?_, fun _ => hpath, hlen⟩
      constructor
      · intro e
        rw [e, cstr_slash] at hlong
        simp at hlong
      · intro e
        exact absurd e (by simp)

/-- C18 at concrete states: `pwd` prints "/" on the fresh handle, and "/a" after
`mkdir` of "a", `cd` to "a" (and a `mkdir` of "b" there). -/
theorem pwd_prints_chain_witness :
    Reachable mkfs ∧ Reachable sample_nested
      ∧ pwd mkfs = some [cstr "/"] ∧ pwd sample_nested = some [cstr "/a"]
      ∧ path_text (chain_names sample_nested.root sample_nested.cur_dir) = cstr "/a"
      ∧ ∃ out, pwd sample_nested = some [out]
        ∧ (out = cstr "/" ↔ sample_nested.cur_dir = [])
        ∧ (sample_nested.cur_dir ≠ [] →
            out = path_text (chain_names sample_nested.root sample_nested.cur_dir))
        ∧ (chain_names sample_nested.root sample_nested.cur_dir).length
            = sample_nested.cur_dir.length :=
  ⟨Reachable.mkfs, reachable_sample_nested, rfl, rfl, rfl,
    pwd_prints_chain sample_nested reachable_sample_nested⟩

/-! ## Facts about `rm` -/

/-- What `rm` does, case by case. -/
theorem rm_eq (fs : FileSystem) (name : Str) :
    rm fs name =
      if valid_name name then
        match fs.cur with
        | none => none
        | some d =>
          if (search_and_remove_dir d name).1 ≠ 0 then
            some ((search_and_remove_dir d name).1,
              fs.set_cur (fun c => (search_and_remove_dir c name).2))
          else
            some ((search_and_remove_file (search_and_remove_dir d name).2 name).1,
              fs.set_cur (fun c =>
                (search_and_remove_file (search_and_remove_dir c name).2 name).2))
      else some (0, fs) := by
  unfold rm
  by_cases h1 : valid_name name
  · rw [if_pos ((name_guard name).mpr h1), if_pos h1]
  · rw [if_neg (fun e => h1 ((name_guard name).mp e)), if_neg h1]

/-- The loop of `search_and_remove_dir` unlinks the first directory called `name`. -/
theorem search_and_remove_dir_loop_found (name : Str) (l1 l2 : List Dir_node) (D : Dir_node)
    (hD : D.name = name) (h1 : ∀ c ∈ l1, c.name ≠ name) :
    search_and_remove_dir_loop name (l1 ++ D :: l2) = (1, l1 ++ l2) := by
  induction l1 with
  | nil =>
    simp only [List.nil_append, search_and_remove_dir_loop]
    rw [if_neg (by rw [hD, strcmp_self]; simp)]
  | cons c cs ih =>
    have hc : strcmp c.name name ≠ 0 := strcmp_ne_zero.mpr (h1 c (by simp))
    have hrec := ih (fun x hx => h1 x (by simp [hx]))
    simp only [List.cons_append, search_and_remove_dir_loop]
    rw [if_pos hc, show cs.append (D :: l2) = cs ++ D :: l2 from rfl, hrec]

/-- A list with one entry taken out, position by position. -/
theorem getElem?_append_skip {α : Type} (l1 l2 : List α) (x : α) (j : Nat) :
    (l1 ++ l2)[j]? = (l1 ++ x :: l2)[if j < l1.length then j else j + 1]? := by
  by_cases hj : j < l1.length
  · rw [if_pos hj, List.getElem?_append_left hj, List.getElem?_append_left hj]
  · rw [if_neg hj, List.getElem?_append_right (by omega),
      List.getElem?_append_right (by omega)]
    have e : j + 1 - l1.length = (j - l1.length) + 1 := by omega
    rw [e, List.getElem?_cons_succ]

/-- C20: in a handle whose cursor points to a directory `d`, let `n` be a valid name
and `D` the subdirectory of `d` called `n` (the subdirectory list of `d` is `l1`,
`D`, `l2`, and no directory of `l1` or `l2` is called `n`).  Then `rm` of `n`
returns 1 and leaves the cursor where it is; the tree is the old tree with the
subdirectory list of the cursor directory replaced by `l1`, `l2` (name, path and
files of the cursor directory, a file called `n` among them, and every directory
outside `D` are as before, in the same order); the directories below the cursor
are those that were below it at the positions other than that of `D`; no
subdirectory of the cursor directory is called `n`, and `cd` to `n` returns 0. -/
theorem rm_subdir (fs : FileSystem) (d : Dir_node) (n : Str) (D : Dir_node)
    (l1 l2 : List Dir_node) (hcur : fs.cur = some d) (hname : valid_name n)
    (hsplit : d.subdir_list = l1 ++ D :: l2) (hD : D.name = n)
    (hother : ∀ c ∈ l1 ++ l2, c.name ≠ n) :
    ∃ fs2, rm fs n = some (1, fs2)
      ∧ fs2.cur_dir = fs.cur_dir
      ∧ fs2.cur = some (Dir_node.mk d.name d.path d.file_list (l1 ++ l2))
      ∧ fs2.root = Dir_node.modify
          (fun _ => Dir_node.mk d.name d.path d.file_list (l1 ++ l2)) fs.root fs.cur_dir
      ∧ (∀ (j : Nat) (t : List Nat), fs2.root.lookup (fs.cur_dir ++ j :: t)
          = fs.root.lookup (fs.cur_dir ++ (if j < l1.length then j else j + 1) :: t))
      ∧ ¬ has_subdir (Dir_node.mk d.name d.path d.file_list (l1 ++ l2)) n
      ∧ D ∉ l1 ++ l2
      ∧ cd fs2 n = some (0, fs2) := by
  have hl1 : ∀ c ∈ l1, c.name ≠ n := fun c hc => hother c (by simp [hc])
  have hloop := search_and_remove_dir_loop_found n l1 l2 D hD hl1
  have hres : search_and_remove_dir d n
      = (1, Dir_node.mk d.name d.path d.file_list (l1 ++ l2)) := by
    unfold search_and_remove_dir
    rw [hsplit, hloop, Dir_node.set_subdir_list_eq]
  have hfun : (fun c : Dir_node => (search_and_remove_dir c n).2) d
      = (fun _ => Dir_node.mk d.name d.path d.file_list (l1 ++ l2)) d := by
    simp only [hres]
  have hroot := Dir_node.modify_congr (fun c : Dir_node => (search_and_remove_dir c n).2)
    (fun _ => Dir_node.mk d.name d.path d.file_list (l1 ++ l2)) fs.root fs.cur_dir d hcur hfun
  have hcur2 : (fs.set_cur (fun c => (search_and_remove_dir c n).2)).cur
      = some (Dir_node.mk d.name d.path d.file_list (l1 ++ l2)) := by
    unfold FileSystem.cur FileSystem.set_cur
    simp only
    rw [hroot]
    exact Dir_node.lookup_modify_self _ fs.root fs.cur_dir d hcur
  have hnosub : ¬ has_subdir (Dir_node.mk d.name d.path d.file_list (l1 ++ l2)) n := by
    rintro ⟨c, hc, e⟩
    exact hother c hc e
  refine ⟨fs.set_cur (fun c => (search_and_remove_dir c n).2), ?_, rfl, hcur2, hroot, ?_,
    hnosub, fun hmem => hother D hmem hD, ?_⟩
  · rw [rm_eq, if_pos hname, hcur]
    simp only [hres]
    rfl
  · intro j t
    have h2 : (fs.set_cur (fun c => (search_and_remove_dir c n).2)).root.lookup fs.cur_dir
        = some (Dir_node.mk d.name d.path d.file_list (l1 ++ l2)) := hcur2
    have h1 : fs.root.lookup fs.cur_dir = some d := hcur
    rw [Dir_node.lookup_append, Dir_node.lookup_append, h2, h1]
    simp only [Option.some_bind, Dir_node.lookup]
    rw [hsplit, ← getElem?_append_skip l1 l2 D j]
    rfl
  · rw [cd_eq, if_neg hname.1, if_neg hname.2.2.1, if_neg hname.2.2.2,
      if_neg (fun e => hname.2.1 (by rw [e, cstr_slash]; simp)), if_neg hname.2.1, hcur2]
    simp only
    rw [search_subdir_eq_none.mpr hnosub]

/-- C20 at a concrete handle: in the root that holds the file "a" and the
subdirectory "a", `rm` of "a" unlinks the subdirectory and keeps the file. -/
theorem rm_subdir_witness :
    sample_file_and_dir_a.cur = some sample_file_and_dir_a.root
      ∧ valid_name (cstr "a")
      ∧ sample_file_and_dir_a.root.subdir_list
          = [] ++ Dir_node.mk (cstr "a") (cstr "/a") [] [] :: []
      ∧ rm sample_file_and_dir_a (cstr "a") = some (1, touched 1)
      ∧ ∃ fs2, rm sample_file_and_dir_a (cstr "a") = some (1, fs2)
        ∧ fs2.cur_dir = sample_file_and_dir_a.cur_dir
        ∧ fs2.cur = some (Dir_node.mk sample_file_and_dir_a.root.name
            sample_file_and_dir_a.root.path sample_file_and_dir_a.root.file_list ([] ++ []))
        ∧ fs2.root = Dir_node.modify
            (fun _ => Dir_node.mk sample_file_and_dir_a.root.name
              sample_file_and_dir_a.root.path sample_file_and_dir_a.root.file_list ([] ++ []))
            sample_file_and_dir_a.root sample_file_and_dir_a.cur_dir
        ∧ (∀ (j : Nat) (t : List Nat),
            fs2.root.lookup (sample_file_and_dir_a.cur_dir ++ j :: t)
              = sample_file_and_dir_a.root.lookup (sample_file_and_dir_a.cur_dir
                  ++ (if j < ([] : List Dir_node).length then j else j + 1) :: t))
        ∧ ¬ has_subdir (Dir_node.mk sample_file_and_dir_a.root.name
            sample_file_and_dir_a.root.path sample_file_and_dir_a.root.file_list ([] ++ []))
            (cstr "a")
        ∧ Dir_node.mk (cstr "a") (cstr "/a") [] [] ∉ ([] ++ [] : List Dir_node)
        ∧ cd fs2 (cstr "a") = some (0, fs2) :=
  ⟨rfl, by decide, rfl, rfl,
    rm_subdir sample_file_and_dir_a sample_file_and_dir_a.root (cstr "a")
      (Dir_node.mk (cstr "a") (cstr "/a") [] []) [] [] rfl (by decide) rfl rfl (by simp)⟩

/-! ## C19: into a new directory and back -/

/-- A write below a directory is seen, through the pointer to that directory, as a
write inside it. -/
theorem Dir_node.lookup_modify_below (f : Dir_node → Dir_node) (r : Dir_node)
    (p q : List Nat) (e : Dir_node) (h : r.lookup p = some e) :
    (Dir_node.modify f r (p ++ q)).lookup p = some (Dir_node.modify f e q) := by
  induction p generalizing r with
  | nil =>
    simp only [Dir_node.lookup, Option.some.injEq] at h
    rw [h]
    rfl
  | cons i p ih =>
    simp only [Dir_node.lookup] at h
    cases hc : r.subdir_list[i]? with
    | none => simp [hc] at h
    | some c =>
      simp only [hc] at h
      have hi : i < r.subdir_list.length := by
        rcases List.getElem?_eq_some.mp hc with ⟨hi, _⟩
        exact hi
      simp only [List.cons_append, Dir_node.modify, hc, Dir_node.lookup,
        Dir_node.subdir_list_set_subdir_list, List.getElem?_set_self hi]
      exact ih c h

/-- The search for a subdirectory looks at the names only. -/
theorem search_subdir_loop_congr (name : Str) (l1 l2 : List Dir_node)
    (h : dir_names l1 = dir_names l2) :
    search_subdir_loop name l1 = search_subdir_loop name l2 := by
  induction l1 generalizing l2 with
  | nil =>
    cases l2 with
    | nil => rfl
    | cons b bs => simp [dir_names] at h
  | cons a as ih =>
    cases l2 with
    | nil => simp [dir_names] at h
    | cons b bs =>
      simp only [dir_names, List.map_cons, List.cons.injEq] at h
      simp only [search_subdir_loop]
      rw [h.1, ih bs h.2]

/-- C19: in every state reachable from `mkfs` by `touch`, `mkdir`, `cd` and `rm`,
for valid names `a` and `b` such that the cursor directory has no subdirectory
called `a`: `mkdir` of `a`, `cd` to `a`, `mkdir` of `b` and `cd` to ".." each
return 1, the cursor is then where it was at the start, and `ls` of `a` returns 1
and prints exactly one line, `b` followed by "/". -/
theorem mkdir_cd_round_trip (fs : FileSystem) (h : Reachable fs) (a b : Str)
    (ha : valid_name a) (hb : valid_name b)
    (hno : ∀ d, fs.cur = some d → ¬ has_subdir d a) :
    ∃ fs1 fs2 fs3 fs4, mkdir fs a = some (1, fs1) ∧ cd fs1 a = some (1, fs2)
      ∧ mkdir fs2 b = some (1, fs3) ∧ cd fs3 (cstr "..") = some (1, fs4)
      ∧ fs4.cur_dir = fs.cur_dir
      ∧ ls fs4 a = some (1, [b ++ cstr "/"], fs4) := by
  rcases reachable_cursor fs h with ⟨d, hd⟩
  have hnod := hno d hd
  obtain ⟨nd, hnd⟩ : ∃ nd, nd = Dir_node.mk a (d.path ++ cstr "/" ++ a) [] [] := ⟨_, rfl⟩
  obtain ⟨fa, hfa⟩ : ∃ fa : Dir_node → Dir_node, fa = fun c => c.set_subdir_list
      (mkdir_loop a (Dir_node.mk a (c.path ++ cstr "/" ++ a) [] []) c.subdir_list) := ⟨_, rfl⟩
  obtain ⟨fb, hfb⟩ : ∃ fb : Dir_node → Dir_node, fb = fun c => c.set_subdir_list
      (mkdir_loop b (Dir_node.mk b (c.path ++ cstr "/" ++ b) [] []) c.subdir_list) := ⟨_, rfl⟩
  have hfad : fa d = d.set_subdir_list (mkdir_loop a nd d.subdir_list) := by rw [hfa, hnd]
  have hfbnd : fb nd = Dir_node.mk a (d.path ++ cstr "/" ++ a) []
      [Dir_node.mk b (d.path ++ cstr "/" ++ a ++ cstr "/" ++ b) [] []] := by
    rw [hfb, hnd]
    rfl
  -- mkdir a
  have h1 : mkdir fs a = some (1, fs.set_cur fa) := by
    rw [mkdir_eq, if_pos ha, hd, hfa]
    simp only [if_neg hnod]
  have hcur1 : (Dir_node.modify fa fs.root fs.cur_dir).lookup fs.cur_dir = some (fa d) :=
    Dir_node.lookup_modify_self fa fs.root fs.cur_dir d hd
  -- the new directory is found by the search
  obtain ⟨c0, hc0mem, hc0name⟩ := mkdir_loop_has_name a nd (by rw [hnd]; rfl) d.subdir_list
  have hsub1 : has_subdir (fa d) a := by
    rw [hfad]
    exact ⟨c0, by simpa using hc0mem, hc0name⟩
  cases hs : search_subdir (fa d) a with
  | none => exact absurd hsub1 (search_subdir_eq_none.mp hs)
  | some i =>
    rcases search_subdir_loop_some hs with ⟨c, hc, hcn, _⟩
    have hcnd : c = nd := by
      have hmem : c ∈ (fa d).subdir_list := List.getElem?_mem hc
      rw [hfad, Dir_node.subdir_list_set_subdir_list] at hmem
      rcases mkdir_loop_mem a nd d.subdir_list c hmem with e | e
      · exact e
      · exact absurd ⟨c, e, hcn⟩ hnod
    rw [hcnd] at hc
    have hi : i < (fa d).subdir_list.length := by
      rcases List.getElem?_eq_some.mp hc with ⟨hi, _⟩
      exact hi
    -- cd a
    have h2 : cd (fs.set_cur fa) a
        = some (1, { root := Dir_node.modify fa fs.root fs.cur_dir,
                     cur_dir := fs.cur_dir ++ [i] }) := by
      rw [cd_eq, if_neg ha.1, if_neg ha.2.2.1, if_neg ha.2.2.2,
        if_neg (fun e => ha.2.1 (by rw [e, cstr_slash]; simp)), if_neg ha.2.1]
      have : (fs.set_cur fa).cur = some (fa d) := hcur1
      rw [this]
      simp only [hs]
      rfl
    have hcur2 : (Dir_node.modify fa fs.root fs.cur_dir).lookup (fs.cur_dir ++ [i]) = some nd :=
      (Dir_node.lookup_child _ fs.cur_dir i (fa d) hcur1).trans hc
    -- mkdir b
    have hnb : ¬ has_subdir nd b := by
      rw [hnd]
      simp [has_subdir, Dir_node.subdir_list]
    have h3 : mkdir { root := Dir_node.modify fa fs.root fs.cur_dir,
                      cur_dir := fs.cur_dir ++ [i] } b
        = some (1, { root := Dir_node.modify fb (Dir_node.modify fa fs.root fs.cur_dir)
                       (fs.cur_dir ++ [i]),
                     cur_dir := fs.cur_dir ++ [i] }) := by
      rw [mkdir_eq, if_pos hb]
      have : (FileSystem.mk (Dir_node.modify fa fs.root fs.cur_dir) (fs.cur_dir ++ [i])).cur
          = some nd := hcur2
      rw [this, hfb]
      simp only [if_neg hnb]
      rfl
    have hcur3 : (Dir_node.modify fb (Dir_node.modify fa fs.root fs.cur_dir)
        (fs.cur_dir ++ [i])).lookup (fs.cur_dir ++ [i]) = some (fb nd) :=
      Dir_node.lookup_modify_self fb _ _ nd hcur2
    -- cd ..
    have h4 : cd { root := Dir_node.modify fb (Dir_node.modify fa fs.root fs.cur_dir)
                     (fs.cur_dir ++ [i]),
                   cur_dir := fs.cur_dir ++ [i] } (cstr "..")
        = some (1, { root := Dir_node.modify fb (Dir_node.modify fa fs.root fs.cur_dir)
                       (fs.cur_dir ++ [i]),
                     cur_dir := fs.cur_dir }) := by
      rw [cd_eq, if_neg (by decide), if_neg (by decide), if_pos rfl]
      have : (FileSystem.mk (Dir_node.modify fb (Dir_node.modify fa fs.root fs.cur_dir)
          (fs.cur_dir ++ [i])) (fs.cur_dir ++ [i])).cur = some (fb nd) := hcur3
      rw [this]
      simp only [List.dropLast_concat]
    -- ls a
    have hmod : Dir_node.modify fb (fa d) [i]
        = (fa d).set_subdir_list ((fa d).subdir_list.set i (fb nd)) := by
      simp only [Dir_node.modify, hc]
    have hcur4 : (Dir_node.modify fb (Dir_node.modify fa fs.root fs.cur_dir)
        (fs.cur_dir ++ [i])).lookup fs.cur_dir
        = some ((fa d).set_subdir_list ((fa d).subdir_list.set i (fb nd))) := by
      rw [Dir_node.lookup_modify_below fb _ fs.cur_dir [i] (fa d) hcur1, hmod]
    have hnames : dir_names ((fa d).subdir_list.set i (fb nd)) = dir_names (fa d).subdir_list :=
      dir_names_of_same_labels (same_labels_set (fa d).subdir_list i nd (fb nd) hc
        (by rw [hfbnd, hnd]; rfl) (by rw [hfbnd, hnd]; rfl))
    have hs4 : search_subdir ((fa d).set_subdir_list ((fa d).subdir_list.set i (fb nd))) a
        = some i := by
      unfold search_subdir at hs ⊢
      rw [Dir_node.subdir_list_set_subdir_list, search_subdir_loop_congr a _ _ hnames]
      exact hs
    have hidx : ((fa d).set_subdir_list ((fa d).subdir_list.set i (fb nd))).subdir_list[i]?
        = some (fb nd) := by
      rw [Dir_node.subdir_list_set_subdir_list, List.getElem?_set_self hi]
    have h5 : ls { root := Dir_node.modify fb (Dir_node.modify fa fs.root fs.cur_dir)
                     (fs.cur_dir ++ [i]),
                   cur_dir := fs.cur_dir } a
        = some (1, [b ++ cstr "/"],
            { root := Dir_node.modify fb (Dir_node.modify fa fs.root fs.cur_dir)
                (fs.cur_dir ++ [i]),
              cur_dir := fs.cur_dir }) := by
      rw [ls_eq_other _ a ha.1 ha.2.2.1 ha.2.2.2
        (fun e => ha.2.1 (by rw [e, cstr_slash]; simp)), if_neg ha.2.1]
      have : (FileSystem.mk (Dir_node.modify fb (Dir_node.modify fa fs.root fs.cur_dir)
          (fs.cur_dir ++ [i])) fs.cur_dir).cur
          = some ((fa d).set_subdir_list ((fa d).subdir_list.set i (fb nd))) := hcur4
      rw [this]
      simp only [hs4, hidx]
      rw [hfbnd]
      rfl
    exact ⟨_, _, _, _, h1, h2, h3, h4, rfl, h5⟩

/-- C19 at a concrete state: from the fresh handle, with the names "a" and "b". -/
theorem mkdir_cd_round_trip_witness :
    Reachable mkfs ∧ valid_name (cstr "a") ∧ valid_name (cstr "b")
      ∧ (∀ d, mkfs.cur = some d → ¬ has_subdir d (cstr "a"))
      ∧ ∃ fs1 fs2 fs3 fs4, mkdir mkfs (cstr "a") = some (1, fs1)
        ∧ cd fs1 (cstr "a") = some (1, fs2)
        ∧ mkdir fs2 (cstr "b") = some (1, fs3) ∧ cd fs3 (cstr "..") = some (1, fs4)
        ∧ fs4.cur_dir = mkfs.cur_dir
        ∧ ls fs4 (cstr "a") = some (1, [cstr "b" ++ cstr "/"], fs4) :=
  ⟨Reachable.mkfs, by decide, by decide,
    fun d hd => by
      have e : d = mkfs.root := (Option.some.inj hd).symm
      rw [e]
      decide,
    mkdir_cd_round_trip mkfs Reachable.mkfs (cstr "a") (cstr "b") (by decide) (by decide)
      (fun d hd => by
        have e : d = mkfs.root := (Option.some.inj hd).symm
        rw [e]
        decide)⟩

/-! ## `rm` of a file, and `rm` that finds nothing -/

theorem search_and_remove_dir_loop_absent (name : Str) (l : List Dir_node)
    (h : ∀ c ∈ l, c.name ≠ name) : search_and_remove_dir_loop name l = (0, l) := by
  induction l with
  | nil => rfl
  | cons c cs ih =>
    have hc : strcmp c.name name ≠ 0 := strcmp_ne_zero.mpr (h c (by simp))
    have hrec := ih (fun x hx => h x (by simp [hx]))
    simp only [search_and_remove_dir_loop]
    rw [if_pos hc, hrec]

theorem search_and_remove_file_loop_absent (name : Str) (l : List File_node)
    (h : ∀ f ∈ l, f.name ≠ name) : search_and_remove_file_loop name l = (0, l) := by
  induction l with
  | nil => rfl
  | cons c cs ih =>
    have hc : strcmp c.name name ≠ 0 := strcmp_ne_zero.mpr (h c (by simp))
    have hrec := ih (fun x hx => h x (by simp [hx]))
    simp only [search_and_remove_file_loop]
    rw [if_pos hc, hrec]

/-- The loop of `search_and_remove_file` unlinks the first file called `name`. -/
theorem search_and_remove_file_loop_found (name : Str) (l1 l2 : List File_node) (f : File_node)
    (hf : f.name = name) (h1 : ∀ g ∈ l1, g.name ≠ name) :
    search_and_remove_file_loop name (l1 ++ f :: l2) = (1, l1 ++ l2) := by
  induction l1 with
  | nil =>
    simp only [List.nil_append, search_and_remove_file_loop]
    rw [if_neg (by rw [hf, strcmp_self]; simp)]
  | cons c cs ih =>
    have hc : strcmp c.name name ≠ 0 := strcmp_ne_zero.mpr (h1 c (by simp))
    have hrec := ih (fun x hx => h1 x (by simp [hx]))
    simp only [List.cons_append, search_and_remove_file_loop]
    rw [if_pos hc, show cs.append (f :: l2) = cs ++ f :: l2 from rfl, hrec]

/-- A list that holds a file called `name` splits at the first such file. -/
theorem first_file_named (name : Str) (l : List File_node) (h : ∃ f ∈ l, f.name = name) :
    ∃ l1 f l2, l = l1 ++ f :: l2 ∧ f.name = name ∧ ∀ g ∈ l1, g.name ≠ name := by
  induction l with
  | nil =>
    rcases h with ⟨f, hf, _⟩
    simp at hf
  | cons c cs ih =>
    by_cases hc : c.name = name
    · exact ⟨[], c, cs, rfl, hc, by simp⟩
    · have h2 : ∃ f ∈ cs, f.name = name := by
        rcases h with ⟨f, hf, e⟩
        rcases List.mem_cons.mp hf with e2 | e2
        · rw [e2] at e
          exact absurd e hc
        · exact ⟨f, e2, e⟩
      rcases ih h2 with ⟨l1, f, l2, e, hfn, hmin⟩
      refine ⟨c :: l1, f, l2, by rw [e]; rfl, hfn, ?_⟩
      intro g hg
      rcases List.mem_cons.mp hg with e2 | e2
      · rw [e2]
        exact hc
      · exact hmin g e2

/-- A list that holds a directory called `name` splits at the first such directory. -/
theorem first_dir_named (name : Str) (l : List Dir_node) (h : ∃ c ∈ l, c.name = name) :
    ∃ l1 D l2, l = l1 ++ D :: l2 ∧ D.name = name ∧ ∀ c ∈ l1, c.name ≠ name := by
  induction l with
  | nil =>
    rcases h with ⟨f, hf, _⟩
    simp at hf
  | cons c cs ih =>
    by_cases hc : c.name = name
    · exact ⟨[], c, cs, rfl, hc, by simp⟩
    · have h2 : ∃ f ∈ cs, f.name = name := by
        rcases h with ⟨f, hf, e⟩
        rcases List.mem_cons.mp hf with e2 | e2
        · rw [e2] at e
          exact absurd e hc
        · exact ⟨f, e2, e⟩
      rcases ih h2 with ⟨l1, f, l2, e, hfn, hmin⟩
      refine ⟨c :: l1, f, l2, by rw [e]; rfl, hfn, ?_⟩
      intro g hg
      rcases List.mem_cons.mp hg with e2 | e2
      · rw [e2]
        exact hc
      · exact hmin g e2

/-- When no subdirectory bears the name, `search_and_remove_dir` returns 0 and leaves
the directory as it is. -/
theorem search_and_remove_dir_absent (d : Dir_node) (name : Str) (h : ¬ has_subdir d name) :
    search_and_remove_dir d name = (0, d) := by
  unfold search_and_remove_dir
  rw [search_and_remove_dir_loop_absent name d.subdir_list (fun c hc e => h ⟨c, hc, e⟩),
    Dir_node.set_subdir_list_self]

/-- When no file bears the name, `search_and_remove_file` returns 0 and leaves the
directory as it is. -/
theorem search_and_remove_file_absent (d : Dir_node) (name : Str) (h : ¬ has_file d name) :
    search_and_remove_file d name = (0, d) := by
  unfold search_and_remove_file
  rw [search_and_remove_file_loop_absent name d.file_list (fun c hc e => h ⟨c, hc, e⟩),
    Dir_node.set_file_list_self]

/-- C21: in a handle whose cursor points to a directory `d`, for a valid name `n`
that no subdirectory of `d` bears and a file of `d` does: `rm` of `n` returns 1;
the file list of `d` is `l1`, `f`, `l2` with `f` the first file called `n`, and
afterwards it is `l1`, `l2` (that one entry gone, the others in their order).  The
cursor is where it was, and the tree is the old tree with only the file list of
the cursor directory replaced (name, path and subdirectories of the cursor
directory as before). -/
theorem rm_file (fs : FileSystem) (d : Dir_node) (n : Str) (hcur : fs.cur = some d)
    (hname : valid_name n) (hnosub : ¬ has_subdir d n) (hfile : has_file d n) :
    ∃ l1 f l2 fs2, d.file_list = l1 ++ f :: l2 ∧ f.name = n ∧ (∀ g ∈ l1, g.name ≠ n)
      ∧ rm fs n = some (1, fs2)
      ∧ fs2.cur_dir = fs.cur_dir
      ∧ fs2.cur = some (Dir_node.mk d.name d.path (l1 ++ l2) d.subdir_list)
      ∧ fs2.root = Dir_node.modify
          (fun _ => Dir_node.mk d.name d.path (l1 ++ l2) d.subdir_list) fs.root fs.cur_dir := by
  rcases first_file_named n d.file_list hfile with ⟨l1, f, l2, hsplit, hfn, hmin⟩
  have hdir := search_and_remove_dir_absent d n hnosub
  have hres : search_and_remove_file d n
      = (1, Dir_node.mk d.name d.path (l1 ++ l2) d.subdir_list) := by
    unfold search_and_remove_file
    rw [hsplit, search_and_remove_file_loop_found n l1 l2 f hfn hmin,
      Dir_node.set_file_list_eq]
  have hfun : (fun c : Dir_node =>
        (search_and_remove_file (search_and_remove_dir c n).2 n).2) d
      = (fun _ => Dir_node.mk d.name d.path (l1 ++ l2) d.subdir_list) d := by
    simp only [hdir, hres]
  have hroot := Dir_node.modify_congr
    (fun c : Dir_node => (search_and_remove_file (search_and_remove_dir c n).2 n).2)
    (fun _ => Dir_node.mk d.name d.path (l1 ++ l2) d.subdir_list)
    fs.root fs.cur_dir d hcur hfun
  refine ⟨l1, f, l2, fs.set_cur (fun c =>
      (search_and_remove_file (search_and_remove_dir c n).2 n).2),
    hsplit, hfn, hmin, ?_, rfl, ?_, hroot⟩
  · rw [rm_eq, if_pos hname, hcur]
    simp only [hdir, hres]
    rfl
  · unfold FileSystem.cur FileSystem.set_cur
    simp only
    rw [hroot]
    exact Dir_node.lookup_modify_self _ fs.root fs.cur_dir d hcur

/-- C21 at a concrete handle: in the root that holds the files "a" and "c", `rm` of
"c" leaves the file "a". -/
theorem rm_file_witness :
    sample_files.cur = some sample_files.root ∧ valid_name (cstr "c")
      ∧ ¬ has_subdir sample_files.root (cstr "c") ∧ has_file sample_files.root (cstr "c")
      ∧ rm sample_files (cstr "c") = some (1, touched 1)
      ∧ ∃ l1 f l2 fs2, sample_files.root.file_list = l1 ++ f :: l2 ∧ f.name = cstr "c"
        ∧ (∀ g ∈ l1, g.name ≠ cstr "c")
        ∧ rm sample_files (cstr "c") = some (1, fs2)
        ∧ fs2.cur_dir = sample_files.cur_dir
        ∧ fs2.cur = some (Dir_node.mk sample_files.root.name sample_files.root.path
            (l1 ++ l2) sample_files.root.subdir_list)
        ∧ fs2.root = Dir_node.modify
            (fun _ => Dir_node.mk sample_files.root.name sample_files.root.path
              (l1 ++ l2) sample_files.root.subdir_list)
            sample_files.root sample_files.cur_dir :=
  ⟨rfl, by decide, by decide, by decide, rfl,
    rm_file sample_files sample_files.root (cstr "c") rfl (by decide) (by decide) (by decide)⟩

/-- Storing what is already in the current directory leaves the handle as it is. -/
theorem set_cur_id (fs : FileSystem) (f : Dir_node → Dir_node) (d : Dir_node)
    (hcur : fs.cur = some d) (hf : f d = d) : fs.set_cur f = fs := by
  unfold FileSystem.set_cur
  rw [Dir_node.modify_id f fs.root fs.cur_dir d hcur hf]

/-- C22: in a handle whose cursor points to a directory `d`, `rm` returns; the
result is 0 exactly when the name is empty, contains '/', is "." or "..", or is
the name of no subdirectory and of no file of `d`; and when the result is 0 the
handle, tree and cursor, is left exactly as it was. -/
theorem rm_returns_zero_iff (fs : FileSystem) (d : Dir_node) (name : Str)
    (hcur : fs.cur = some d) :
    ∃ r fs2, rm fs name = some (r, fs2)
      ∧ (r = 0 ↔ (name = [] ∨ 47 ∈ name ∨ name = cstr "." ∨ name = cstr ".."
            ∨ (¬ has_subdir d name ∧ ¬ has_file d name)))
      ∧ (r = 0 → fs2 = fs) := by
  rw [rm_eq, hcur]
  by_cases hname : valid_name name
  · rw [if_pos hname]
    simp only
    by_cases hsub : has_subdir d name
    · rcases first_dir_named name d.subdir_list hsub with ⟨l1, D, l2, hsplit, hD, hmin⟩
      have hres : search_and_remove_dir d name
          = (1, d.set_subdir_list (l1 ++ l2)) := by
        unfold search_and_remove_dir
        rw [hsplit, search_and_remove_dir_loop_found name l1 l2 D hD hmin]
      rw [hres]
      refine ⟨1, fs.set_cur (fun c => (search_and_remove_dir c name).2),
        by simp only [ne_eq, one_ne_zero, not_false_eq_true, if_true], ?_,
        fun h => absurd h (by decide)⟩
      unfold valid_name at hname
      simp only [one_ne_zero, false_iff]
      tauto
    · rw [search_and_remove_dir_absent d name hsub]
      simp only [ne_eq, not_true_eq_false, if_false]
      by_cases hfile : has_file d name
      · rcases first_file_named name d.file_list hfile with ⟨l1, f, l2, hsplit, hfn, hmin⟩
        have hres : search_and_remove_file d name
            = (1, d.set_file_list (l1 ++ l2)) := by
          unfold search_and_remove_file
          rw [hsplit, search_and_remove_file_loop_found name l1 l2 f hfn hmin]
        rw [hres]
        refine ⟨1, fs.set_cur (fun c =>
            (search_and_remove_file (search_and_remove_dir c name).2 name).2), rfl, ?_,
          fun h => absurd h (by decide)⟩
        unfold valid_name at hname
        simp only [one_ne_zero, false_iff]
        tauto
      · rw [search_and_remove_file_absent d name hfile]
        have hid : fs.set_cur (fun c =>
            (search_and_remove_file (search_and_remove_dir c name).2 name).2) = fs := by
          apply set_cur_id fs _ d hcur
          simp only [search_and_remove_dir_absent d name hsub,
            search_and_remove_file_absent d name hfile]
        rw [hid]
        exact ⟨0, fs, rfl, by simp [hsub, hfile], fun _ => rfl⟩
  · rw [if_neg hname]
    refine ⟨0, fs, rfl, ?_, fun _ => rfl⟩
    unfold valid_name at hname
    simp only [true_iff]
    tauto

/-- C22 at concrete handles: in the root that holds the files "a" and "c", `rm` of
the absent name "b" and of ".." return 0, and `rm` of "a" does not. -/
theorem rm_returns_zero_iff_witness :
    sample_files.cur = some sample_files.root
      ∧ rm sample_files (cstr "b") = some (0, sample_files)
      ∧ rm sample_files (cstr "..") = some (0, sample_files)
      ∧ (∃ fs2, rm sample_files (cstr "a") = some (1, fs2))
      ∧ ∃ r fs2, rm sample_files (cstr "b") = some (r, fs2)
        ∧ (r = 0 ↔ (cstr "b" = [] ∨ 47 ∈ cstr "b" ∨ cstr "b" = cstr "."
              ∨ cstr "b" = cstr ".."
              ∨ (¬ has_subdir sample_files.root (cstr "b")
                  ∧ ¬ has_file sample_files.root (cstr "b"))))
        ∧ (r = 0 → fs2 = sample_files) :=
  ⟨rfl, rfl, rfl, ⟨_, rfl⟩,
    rm_returns_zero_iff sample_files sample_files.root (cstr "b") rfl⟩

/-! ## C23: names with a '/' -/

/-- C23: for every handle and every name that contains '/' and is not the name
"/", each of `touch`, `mkdir`, `cd`, `ls` and `rm` returns 0 and leaves the
handle, tree and cursor, exactly as it was (`ls` prints nothing). -/
theorem slash_name_rejected (fs : FileSystem) (name : Str) (hslash : 47 ∈ name)
    (hne : name ≠ cstr "/") :
    touch fs name = some (0, fs) ∧ mkdir fs name = some (0, fs) ∧ cd fs name = some (0, fs)
      ∧ ls fs name = some (0, [], fs) ∧ rm fs name = some (0, fs) := by
  have h0 : name ≠ [] := by
    intro e
    rw [e] at hslash
    simp at hslash
  have h1 : name ≠ cstr "." := by
    intro e
    rw [e, cstr_dot] at hslash
    simp at hslash
  have h2 : name ≠ cstr ".." := by
    intro e
    rw [e, cstr_dotdot] at hslash
    simp at hslash
  have hseg : ¬ segment name := fun h => h.2 hslash
  have hval : ¬ valid_name name := fun h => h.2.1 hslash
  refine ⟨?_, ?_, ?_, ?_, ?_⟩
  · rw [touch_eq, if_neg hseg]
  · rw [mkdir_eq, if_neg hval]
  · rw [cd_eq, if_neg h0, if_neg h1, if_neg h2, if_neg hne, if_pos hslash]
  · rw [ls_eq_other fs name h0 h1 h2 hne, if_pos hslash]
  · rw [rm_eq, if_neg hval]

/-- C23 at a concrete name: "a/b" on the root that holds the files "a" and "c". -/
theorem slash_name_rejected_witness :
    47 ∈ cstr "a/b" ∧ cstr "a/b" ≠ cstr "/"
      ∧ touch sample_files (cstr "a/b") = some (0, sample_files)
      ∧ mkdir sample_files (cstr "a/b") = some (0, sample_files)
      ∧ cd sample_files (cstr "a/b") = some (0, sample_files)
      ∧ ls sample_files (cstr "a/b") = some (0, [], sample_files)
      ∧ rm sample_files (cstr "a/b") = some (0, sample_files) :=
  ⟨by decide, by decide, slash_name_rejected sample_files (cstr "a/b") (by decide) (by decide)⟩

/-! ## C24: the cursor stays in the tree -/

/-- The handle `ls` returns is the handle it was given. -/
theorem ls_handle (fs fs2 : FileSystem) (name : Str) (r : Int) (out : List Str)
    (h : ls fs name = some (r, out, fs2)) : fs2 = fs := by
  unfold ls at h
  repeat' split at h
  all_goals first
    | (simp only [Option.some.injEq, Prod.mk.injEq] at h
       exact h.2.2.symm)
    | simp at h

/-- Calls of `ls` add no states. -/
theorem reachable_of_reachableLs (fs : FileSystem) (h : ReachableLs fs) : Reachable fs := by
  induction h with
  | mkfs => exact Reachable.mkfs
  | touch name r _ hstep ih => exact Reachable.touch name r ih hstep
  | mkdir name r _ hstep ih => exact Reachable.mkdir name r ih hstep
  | cd name r _ hstep ih => exact Reachable.cd name r ih hstep
  | ls name r out _ hstep ih =>
    rw [ls_handle _ _ name r out hstep]
    exact ih
  | rm name r _ hstep ih => exact Reachable.rm name r ih hstep

/-- A directory on the way to a directory of the tree is a directory of the tree. -/
theorem Dir_node.lookup_on_chain (r : Dir_node) (q t : List Nat) (d : Dir_node)
    (h : r.lookup (q ++ t) = some d) : ∃ e, r.lookup q = some e := by
  rw [Dir_node.lookup_append] at h
  cases hq : r.lookup q with
  | none => simp [hq] at h
  | some e => exact ⟨e, rfl⟩

/-- C24: in every state reachable from `mkfs` by `touch`, `mkdir`, `cd`, `ls` and
`rm` with any names, the cursor points to a directory of the tree (following the
cursor from the root through the subdirectory lists ends at a directory).  And
whatever `rm` is called with there, afterwards the cursor is where it was, and at
every pointer `q` on the chain from the root to the cursor, the cursor itself
included, the tree still has a directory, with the name and the path of the one
that was there. -/
theorem cursor_in_tree (fs : FileSystem) (h : ReachableLs fs) :
    (∃ d, fs.cur = some d)
      ∧ ∀ (name : Str) (r : Int) (fs2 : FileSystem), rm fs name = some (r, fs2) →
          fs2.cur_dir = fs.cur_dir
            ∧ (∃ d2, fs2.cur = some d2)
            ∧ ∀ (q t : List Nat), fs.cur_dir = q ++ t →
                ∃ e e2, fs.root.lookup q = some e ∧ fs2.root.lookup q = some e2
                  ∧ e2.name = e.name ∧ e2.path = e.path := by
  have hreach := reachable_of_reachableLs fs h
  rcases reachable_cursor fs hreach with ⟨d, hd⟩
  refine ⟨⟨d, hd⟩, ?_⟩
  intro name r fs2 hrm
  have hcd := (rm_root fs fs2 name r hrm).1
  refine ⟨hcd, reachable_cursor fs2 (Reachable.rm name r hreach hrm), ?_⟩
  intro q t hqt
  have hd2 : fs.root.lookup (q ++ t) = some d := by
    rw [← hqt]
    exact hd
  rcases Dir_node.lookup_on_chain fs.root q t d hd2 with ⟨e, he⟩
  rcases (rm_root fs fs2 name r hrm).2 with hr | hr | hr
  · exact ⟨e, e, he, by rw [hr]; exact he, rfl, rfl⟩
  · refine ⟨e, Dir_node.modify (fun c => (search_and_remove_dir c name).2) e t, he, ?_, ?_, ?_⟩
    · rw [hr, hqt]
      exact Dir_node.lookup_modify_below _ fs.root q t e he
    · exact Dir_node.name_modify _ (fun x => by simp [search_and_remove_dir]) e t
    · exact Dir_node.path_modify _ (fun x => by simp [search_and_remove_dir]) e t
  · refine ⟨e, Dir_node.modify
        (fun c => (search_and_remove_file (search_and_remove_dir c name).2 name).2) e t,
      he, ?_, ?_, ?_⟩
    · rw [hr, hqt]
      exact Dir_node.lookup_modify_below _ fs.root q t e he
    · exact Dir_node.name_modify _
        (fun x => by simp [search_and_remove_dir, search_and_remove_file]) e t
    · exact Dir_node.path_modify _
        (fun x => by simp [search_and_remove_dir, search_and_remove_file]) e t

/-- The sample with nested directories is also reached with calls of `ls` in
between. -/
theorem reachableLs_sample_nested : ReachableLs sample_nested :=
  ReachableLs.ls (cstr "") 1 [cstr "b/"]
    (ReachableLs.mkdir (cstr "b") 1
      (ReachableLs.cd (cstr "a") 1
        (ReachableLs.ls (cstr "") 1 [cstr "a/"]
          (ReachableLs.mkdir (cstr "a") 1 ReachableLs.mkfs rfl) rfl) rfl) rfl) rfl

/-- C24 at a concrete state: with the cursor on "a" below the root, `rm` of "b"
(the subdirectory of "a"), and `rm` of "a" or ".." (which find nothing to
unlink there), leave the cursor on "a". -/
theorem cursor_in_tree_witness :
    ReachableLs sample_nested
      ∧ rm sample_nested (cstr "b")
          = some (1, { root := Dir_node.mk (cstr "root") (cstr "") []
                        [Dir_node.mk (cstr "a") (cstr "/a") [] []], cur_dir := [0] })
      ∧ rm sample_nested (cstr "a") = some (0, sample_nested)
      ∧ rm sample_nested (cstr "..") = some (0, sample_nested)
      ∧ (∃ d, sample_nested.cur = some d)
      ∧ ∀ (name : Str) (r : Int) (fs2 : FileSystem),
          rm sample_nested name = some (r, fs2) →
          fs2.cur_dir = sample_nested.cur_dir
            ∧ (∃ d2, fs2.cur = some d2)
            ∧ ∀ (q t : List Nat), sample_nested.cur_dir = q ++ t →
                ∃ e e2, sample_nested.root.lookup q = some e ∧ fs2.root.lookup q = some e2
                  ∧ e2.name = e.name ∧ e2.path = e.path :=
  ⟨reachableLs_sample_nested, rfl, rfl, rfl,
    cursor_in_tree sample_nested reachableLs_sample_nested⟩

/-! ## C25: create, then remove -/

namespace Dir_node

@[simp] theorem set_file_list_set_file_list (d : Dir_node) (a b : List File_node) :
    (d.set_file_list a).set_file_list b = d.set_file_list b := by cases d; rfl

@[simp] theorem set_subdir_list_set_subdir_list (d : Dir_node) (a b : List Dir_node) :
    (d.set_subdir_list a).set_subdir_list b = d.set_subdir_list b := by cases d; rfl

/-- Two writes through the same pointer are one write of the composed value. -/
theorem modify_modify (f g : Dir_node → Dir_node) (r : Dir_node) (p : List Nat) :
    modify g (modify f r p) p = modify (fun x => g (f x)) r p := by
  induction p generalizing r with
  | nil => rfl
  | cons i p ih =>
    cases hc : r.subdir_list[i]? with
    | none => simp only [modify, hc]
    | some c =>
      have hi : i < r.subdir_list.length := by
        rcases List.getElem?_eq_some.mp hc with ⟨hi, _⟩
        exact hi
      simp only [modify, hc, subdir_list_set_subdir_list, List.getElem?_set_self hi,
        set_subdir_list_set_subdir_list, List.set_set, ih c]

end Dir_node

/-- A write into the current directory followed by a write that restores it leaves
the handle as it was. -/
theorem set_cur_set_cur_id (fs : FileSystem) (f g : Dir_node → Dir_node) (d : Dir_node)
    (hcur : fs.cur = some d) (hgf : g (f d) = d) : (fs.set_cur f).set_cur g = fs := by
  unfold FileSystem.set_cur
  simp only
  rw [Dir_node.modify_modify,
    Dir_node.modify_id (fun x => g (f x)) fs.root fs.cur_dir d hcur hgf]

/-- C25: in a handle whose cursor directory `d` has its file list and its
subdirectory list in ascending order, for a valid name `n` that no file and no
subdirectory of `d` bears: `touch` of `n` returns 1 and `rm` of `n` on the
resulting handle returns 1 and gives back the original handle; and likewise
`mkdir` of `n` followed by `rm` of `n`. -/
theorem create_then_rm (fs : FileSystem) (d : Dir_node) (n : Str) (hcur : fs.cur = some d)
    (hfasc : ascending (file_names d.file_list)) (hdasc : ascending (dir_names d.subdir_list))
    (hname : valid_name n) (hnofile : ¬ has_file d n) (hnosub : ¬ has_subdir d n) :
    (∃ fs1, touch fs n = some (1, fs1) ∧ rm fs1 n = some (1, fs))
      ∧ (∃ fs1, mkdir fs n = some (1, fs1) ∧ rm fs1 n = some (1, fs)) := by
  constructor
  · have hno : ∀ f ∈ d.file_list, f.name ≠ n := fun f hf e => hnofile ⟨f, hf, e⟩
    rcases touch_loop_absent n d.file_list hfasc hno with ⟨l1, l2, e1, e2, h1, _⟩
    have hl1 : ∀ g ∈ l1, g.name ≠ n := by
      intro g hg e
      have := h1 g hg
      rw [e, strcmp_self] at this
      exact absurd this (by decide)
    obtain ⟨ft, hft⟩ : ∃ ft : Dir_node → Dir_node,
        ft = fun c => c.set_file_list (touch_loop n c.file_list) := ⟨_, rfl⟩
    have hftd : ft d = d.set_file_list (l1 ++ { name := n, timestamp := 1 } :: l2) := by
      rw [hft, ← e2]
    have h1t : touch fs n = some (1, fs.set_cur ft) := by
      rw [touch_eq, if_pos ⟨hname.1, hname.2.1⟩, if_pos ⟨hname.2.2.1, hname.2.2.2⟩, hcur, hft]
      simp only [if_neg hnosub]
    have hcur1 : (fs.set_cur ft).cur = some (ft d) :=
      Dir_node.lookup_modify_self ft fs.root fs.cur_dir d hcur
    have hnosub1 : ¬ has_subdir (ft d) n := by
      rw [hftd]
      rintro ⟨c, hc, e⟩
      rw [Dir_node.subdir_list_set_file_list] at hc
      exact hnosub ⟨c, hc, e⟩
    have hdir := search_and_remove_dir_absent (ft d) n hnosub1
    have hfile : search_and_remove_file (ft d) n = (1, d) := by
      unfold search_and_remove_file
      rw [hftd, Dir_node.file_list_set_file_list,
        search_and_remove_file_loop_found n l1 l2 _ rfl hl1,
        Dir_node.set_file_list_set_file_list, ← e1, Dir_node.set_file_list_self]
    refine ⟨fs.set_cur ft, h1t, ?_⟩
    rw [rm_eq, if_pos hname, hcur1]
    simp only [hdir, hfile, ne_eq, not_true_eq_false, if_false]
    rw [set_cur_set_cur_id fs ft _ d hcur (by simp only [hdir, hfile])]
  · have hno : ∀ c ∈ d.subdir_list, c.name ≠ n := fun c hc e => hnosub ⟨c, hc, e⟩
    obtain ⟨nd, hnd⟩ : ∃ nd, nd = Dir_node.mk n (d.path ++ cstr "/" ++ n) [] [] := ⟨_, rfl⟩
    rcases mkdir_loop_absent n nd d.subdir_list hdasc hno with ⟨l1, l2, e1, e2, h1, _⟩
    have hl1 : ∀ c ∈ l1, c.name ≠ n := by
      intro c hc e
      have := h1 c hc
      rw [e, strcmp_self] at this
      exact absurd this (by decide)
    obtain ⟨fm, hfm⟩ : ∃ fm : Dir_node → Dir_node, fm = fun c => c.set_subdir_list
        (mkdir_loop n (Dir_node.mk n (c.path ++ cstr "/" ++ n) [] []) c.subdir_list) :=
      ⟨_, rfl⟩
    have hfmd : fm d = d.set_subdir_list (l1 ++ nd :: l2) := by
      rw [hfm, ← e2, hnd]
    have h1m : mkdir fs n = some (1, fs.set_cur fm) := by
      rw [mkdir_eq, if_pos hname, hcur, hfm]
      simp only [if_neg hnosub]
    have hcur1 : (fs.set_cur fm).cur = some (fm d) :=
      Dir_node.lookup_modify_self fm fs.root fs.cur_dir d hcur
    have hdir : search_and_remove_dir (fm d) n = (1, d) := by
      unfold search_and_remove_dir
      rw [hfmd, Dir_node.subdir_list_set_subdir_list,
        search_and_remove_dir_loop_found n l1 l2 nd (by rw [hnd]; rfl) hl1,
        Dir_node.set_subdir_list_set_subdir_list, ← e1, Dir_node.set_subdir_list_self]
    refine ⟨fs.set_cur fm, h1m, ?_⟩
    rw [rm_eq, if_pos hname, hcur1]
    simp only [hdir, ne_eq, one_ne_zero, not_false_eq_true, if_true]
    rw [set_cur_set_cur_id fs fm _ d hcur (by simp only [hdir])]

/-- C25 at a concrete handle: in the root that holds the files "a" and "c", `touch`
of "b" then `rm` of "b", and `mkdir` of "b" then `rm` of "b", give the handle
back. -/
theorem create_then_rm_witness :
    sample_files.cur = some sample_files.root
      ∧ ascending (file_names sample_files.root.file_list)
      ∧ ascending (dir_names sample_files.root.subdir_list)
      ∧ valid_name (cstr "b") ∧ ¬ has_file sample_files.root (cstr "b")
      ∧ ¬ has_subdir sample_files.root (cstr "b")
      ∧ (∃ fs1, touch sample_files (cstr "b") = some (1, fs1)
          ∧ rm fs1 (cstr "b") = some (1, sample_files))
      ∧ (∃ fs1, mkdir sample_files (cstr "b") = some (1, fs1)
          ∧ rm fs1 (cstr "b") = some (1, sample_files)) :=
  ⟨rfl, by decide, by decide, by decide, by decide, by decide,
    create_then_rm sample_files sample_files.root (cstr "b") rfl (by decide) (by decide)
      (by decide) (by decide) (by decide)⟩

end UnixFS
